import Mathlib

/-!
Verification of the packaging pipeline of `fatima-go/gofar`: a shallow embedding of
`context.go`, `util.go`, `platform.go` and `git.go`, and theorems about it.

* The file system is a finite tree (`Node`): a regular file with its permission bits and
  bytes, or a directory with its entries in the order `os.ReadDir` lists them.
* A path is the list of the components of a clean absolute path (`/a/b` is `["a", "b"]`,
  the file-system root is `[]`); `filepath.Join dir name` with a single component `name`
  appends it, `filepath.Dir` drops the last one.
* Go results `(value, error)` are `Except Error value`, or a pair where the source
  returns both; a function that changes its receiver returns the changed `BuildContext`.
* The searches that walk down the tree (`FindDirectory`, `findResourceFromDirectory`,
  `filepath.Walk`) recurse on the tree, and so are total; the search that climbs up
  (`FindGitConfig`) takes fuel, since the source does not stop at the root.
* A run lives in a `World`: the file system, and the log of the calls made to the
  operating system and to external commands, each with the step of the session that made
  it and its outcome. What the environment decides (faults, what `go build`, `cp` and
  `whoami` do, the random name of the staging directory, the clock) is an `OS`. Every
  call in the log can fail by a fault, also those whose error the source discards
  (`os.Chmod`, `os.RemoveAll`, the deferred close of the archive).
* The tree has no symbolic links and no permission bits on directories; a link or a
  directory without write permission shows in the faults of the calls that meet it.
* The goroutines that compile one command for all platforms share nothing but a counter
  they add to atomically; they are run one after the other in the order they are started.
-/

namespace Gofar

/-! ## Paths -/

/-- Components of a clean absolute path. -/
abbrev Path := List String

/-- Go `filepath.Join(dir, elem)` for a single path component `elem`. -/
def Join (dir : Path) (elem : String) : Path := dir ++ [elem]

/-- Go `filepath.Base(path)`: the final path segment (the root's base is the separator). -/
def Base (path : Path) : String := path.getLast?.getD "/"

/-- Go `filepath.Dir(path)`: the parent directory; the parent of the root is the root. -/
def Dir (path : Path) : Path := path.dropLast

/-- The text of a path, as Go prints it. -/
def renderPath (path : Path) : String := "/" ++ "/".intercalate path

/-! ## Errors -/

/-- The operating-system error numbers the program distinguishes. -/
inductive Errno where
  | ENOENT
  | ENOTDIR
  | EEXIST
  | EISDIR
  | EACCES
  | ELOOP
  | ENOSPC
  deriving DecidableEq, Repr

/-- Go `error` values met in the program. -/
inductive Error where
  /-- Go `errGopathNotFound` of `util.go`. -/
  | errGopathNotFound
  /-- Go `errGitNotFound` of `util.go`. -/
  | errGitNotFound
  /-- An `*fs.PathError` returned by package `os`. -/
  | pathError (op : String) (path : Path) (errno : Errno)
  /-- An error returned by `os/exec` when a command fails. -/
  | exitError (msg : String)
  /-- A value built by `fmt.Errorf` or `errors.New`. -/
  | errorf (msg : String)
  deriving DecidableEq, Repr

/-- Text of `strerror`. -/
def Errno.text : Errno → String
  | .ENOENT => "no such file or directory"
  | .ENOTDIR => "not a directory"
  | .EEXIST => "file exists"
  | .EISDIR => "is a directory"
  | .EACCES => "permission denied"
  | .ELOOP => "too many levels of symbolic links"
  | .ENOSPC => "no space left on device"

/-- The text `err.Error()` returns. -/
def Error.msg : Error → String
  | .errGopathNotFound => "not found GOPATH. (gopath is nil)"
  | .errGitNotFound => "not found git"
  | .pathError op path errno => op ++ " " ++ renderPath path ++ ": " ++ errno.text
  | .exitError msg => msg
  | .errorf msg => msg

/-- Go `os.IsNotExist(err)`. -/
def IsNotExist : Error → Bool
  | .pathError _ _ .ENOENT => true
  | _ => false

/-- Go `errors.Is(err, os.ErrExist)`. -/
def IsErrExist : Error → Bool
  | .pathError _ _ .EEXIST => true
  | _ => false

/-! ## The file system -/

/-- A file-system object: a regular file (permission bits and bytes) or a directory. -/
inductive Node where
  | file (mode : Nat) (content : List Nat)
  | dir (entries : List (String × Node))
  deriving Repr

namespace Node

/-- Whether the object is a directory. -/
def isDir : Node → Bool
  | dir _ => true
  | file _ _ => false

/-- The entry called `name` of a directory. -/
def child : Node → String → Option Node
  | dir es, name => es.lookup name
  | file _ _, _ => none

mutual
/-- Names are distinct inside every directory of the tree, as in a real file system. -/
def WF : Node → Prop
  | file _ _ => True
  | dir es => (es.map Prod.fst).Nodup ∧ WFList es
/-- Every listed object is well formed. -/
def WFList : List (String × Node) → Prop
  | [] => True
  | (_, n) :: rest => WF n ∧ WFList rest
end

end Node

/-- The object a path names, starting from the root directory `fs`. -/
def lookup (fs : Node) (path : Path) : Option Node :=
  path.foldl (fun cur name => cur.bind (fun n => n.child name)) (some fs)

/-- An `os.DirEntry`: the name of an entry and whether it is a directory. -/
structure DirEntry where
  Name : String
  IsDir : Bool
  deriving DecidableEq, Repr

/-- The listing of a directory node. -/
def listing (es : List (String × Node)) : List DirEntry :=
  es.map (fun e => { Name := e.1, IsDir := e.2.isDir })

/-- Go `os.ReadDir(path)`: the entries of the directory, or the error of opening it. -/
def ReadDir (fs : Node) (path : Path) : Except Error (List DirEntry) :=
  match lookup fs path with
  | some (.dir es) => .ok (listing es)
  | some (.file _ _) => .error (.pathError "readdirent" path .ENOTDIR)
  | none => .error (.pathError "open" path .ENOENT)

/-! ## `context.go`: constants and the build context -/

def resourceDirname : String := "resources"
def cmdDirname : String := "cmd"
def gitDirname : String := ".git"
def gitConfigfile : String := "config"
def procTypeGeneral : String := "GENERAL"
def procTypeUI : String := "USER_INTERACTIVE"
def PlatformDirName : String := "platform"

/-- Go `CmdRecord`. -/
structure CmdRecord where
  Path : Path
  deriving DecidableEq, Repr

/-- Go `CmdRecord.GetBinaryname`. -/
def CmdRecord.GetBinaryname (c : CmdRecord) : String := Base c.Path

/-- Go `BuildContext`; an unset `ResourceDir` (the empty string in Go) is `none`. -/
structure BuildContext where
  ProjectBaseDir : Path := []
  ResourceDir : Option Path := none
  ProcessList : List CmdRecord := []
  GitSupport : Bool := false
  ExposeProcessName : String := ""
  BuildCGOLink : String := ""
  workingDir : Path := []
  procType : String := ""
  farPath : Path := []
  deriving DecidableEq, Repr

/-! ## `util.go`: directory search -/

/-- First loop of `FindDirectory`: is some entry named `targetDir` a directory? -/
def hasTargetDir (targetDir : String) : List (String × Node) → Bool
  | [] => false
  | (name, n) :: rest =>
    if name == targetDir then
      if n.isDir then true else hasTargetDir targetDir rest
    else hasTargetDir targetDir rest

mutual
/-- Go `FindDirectory(baseDir, targetDir)` where `os.ReadDir(baseDir)` reads the node given. -/
def FindDirectoryNode (baseDir : Path) (targetDir : String) : Node → Except Error Path
  | .file _ _ => .error (.pathError "readdirent" baseDir .ENOTDIR)
  | .dir es =>
    if hasTargetDir targetDir es then .ok (Join baseDir targetDir)
    else FindDirectoryNext baseDir targetDir es
/-- Second loop of `FindDirectory`: the entries kept in `nextPathList` (directories
not named `targetDir`) are searched in order, errors of a subtree are skipped. -/
def FindDirectoryNext (baseDir : Path) (targetDir : String) :
    List (String × Node) → Except Error Path
  | [] => .error (.errorf (targetDir ++ " not found"))
  | (name, n) :: rest =>
    if name == targetDir || !n.isDir then FindDirectoryNext baseDir targetDir rest
    else
      match FindDirectoryNode (Join baseDir name) targetDir n with
      | .ok foundDir => .ok foundDir
      | .error _ => FindDirectoryNext baseDir targetDir rest
end

/-- Go `FindDirectory(baseDir, targetDir)`. -/
def FindDirectory (fs : Node) (baseDir : Path) (targetDir : String) : Except Error Path :=
  match lookup fs baseDir with
  | some n => FindDirectoryNode baseDir targetDir n
  | none => .error (.pathError "open" baseDir .ENOENT)

/-- Go `FindSubDirectories(baseDir)`. -/
def FindSubDirectories (fs : Node) (baseDir : Path) : List Path :=
  match ReadDir fs baseDir with
  | .error _ => []
  | .ok files => (files.filter (fun file => file.IsDir)).map (fun file => Join baseDir file.Name)

/-- Go `determineCmdList(ctx)`. -/
def determineCmdList (fs : Node) (ctx : BuildContext) : BuildContext :=
  match FindDirectory fs ctx.ProjectBaseDir cmdDirname with
  | .error _ => { ctx with ProcessList := [{ Path := ctx.ProjectBaseDir }] }
  | .ok foundDir =>
    { ctx with ProcessList := (FindSubDirectories fs foundDir).map (fun cmd => { Path := cmd }) }

/-- Names of the immediate subdirectories of a directory, in listing order. -/
def subdirNames (es : List (String × Node)) : List String :=
  (es.filter (fun e => e.2.isDir)).map Prod.fst

/-! ## Environment and `GOPATH` -/

/-- What the process reads from its environment: the variable `GOPATH` (empty when unset)
and the working directory `os.Getwd` returns. -/
structure Env where
  GOPATH : String
  cwd : Path
  deriving DecidableEq, Repr

/-- Go `strings.Split` on a single separator character, on the characters of a string. -/
def splitOn (sep : Char) : List Char → List (List Char)
  | [] => [[]]
  | c :: cs =>
    if c == sep then [] :: splitOn sep cs
    else
      match splitOn sep cs with
      | [] => [[c]]
      | w :: ws => (c :: w) :: ws

/-- Go `unicode.IsSpace`. -/
def isSpace (c : Char) : Bool :=
  c.val.toNat ∈ [0x09, 0x0A, 0x0B, 0x0C, 0x0D, 0x20, 0x85, 0xA0, 0x1680, 0x2028, 0x2029,
    0x202F, 0x205F, 0x3000] || (0x2000 ≤ c.val.toNat && c.val.toNat ≤ 0x200A)

/-- Go `strings.TrimSpace`. -/
def TrimSpace (s : List Char) : List Char :=
  ((s.dropWhile isSpace).reverse.dropWhile isSpace).reverse

/-- Go `buildGopathMap`: the set of the trimmed entries of `GOPATH`, split at the path-list
separator `:`. Go ranges over this map in an unspecified order; the list gives one. -/
def buildGopathMap (env : Env) : List String :=
  ((splitOn ':' env.GOPATH.data).map (fun token => String.mk (TrimSpace token))).eraseDups

/-- Whether a path text is absolute. -/
def isAbs (s : String) : Bool := s.data.head? == some '/'

/-- Go `filepath.Clean` on the components of a path below the root `base`: empty and `.`
components vanish, `..` removes the component before it. -/
def cleanFrom (base : Path) (comps : List String) : Path :=
  comps.foldl (fun acc c =>
    if c == "" || c == "." then acc else if c == ".." then acc.dropLast else acc ++ [c]) base

/-- Components of a path text. -/
def pathComponents (s : String) : List String := (splitOn '/' s.data).map String.mk

/-- Go `filepath.Join(gopath, "src")` when it is an absolute path; a relative result, which
is equal to no absolute directory, is `none`. -/
def joinGopathSrc (gopath : String) : Option Path :=
  if isAbs gopath then some (Join (cleanFrom [] (pathComponents gopath)) "src") else none

/-- The directory a path text names for the process: a relative one is resolved from the
working directory. -/
def gopathDir (env : Env) (gopath : String) : Path :=
  if isAbs gopath then cleanFrom [] (pathComponents gopath)
  else cleanFrom env.cwd (pathComponents gopath)

/-- The directory `filepath.Join(gopath, "src")` names for the process. -/
def gopathSrcDir (env : Env) (gopath : String) : Path := Join (gopathDir env gopath) "src"

/-! ## `util.go`: the search for the version-control root -/

/-- Go `EnsureFileInDirectory(dir, targetFilename)`. -/
def EnsureFileInDirectory (fs : Node) (dir : Path) (targetFilename : String) : Bool :=
  match ReadDir fs dir with
  | .error _ => false
  | .ok files =>
    match files.find? (fun file => file.Name == targetFilename) with
    | some file => !file.IsDir
    | none => false

/-- Go `FindGitConfig(dir)`; the recursion is bounded by `fuel`, `none` means it ran out. -/
def FindGitConfig (env : Env) (fs : Node) : Nat → Path → Option (Except Error Path)
  | 0, _ => none
  | fuel + 1, dir =>
    if env.GOPATH.length == 0 then some (.error .errGopathNotFound)
    else if (buildGopathMap env).any (fun gopath => joinGopathSrc gopath == some dir) then
      some (.error .errGitNotFound)
    else
      match ReadDir fs dir with
      | .error err => some (.error err)
      | .ok files =>
        if files.any (fun file => file.Name == gitDirname && (file.IsDir
            && EnsureFileInDirectory fs (Join dir file.Name) gitConfigfile)) then
          some (.ok dir)
        else FindGitConfig env fs fuel (Dir dir)

/-- The loop of `determineProjectBaseDir` over the entries of `GOPATH`: the first source
root below which a directory named after the process is found. -/
def findInGopath (env : Env) (fs : Node) (procName : String) : List String → Option Path
  | [] => none
  | gopath :: rest =>
    match FindDirectory fs (gopathSrcDir env gopath) procName with
    | .ok foundBaseDir => some foundBaseDir
    | .error _ => findInGopath env fs procName rest

/-- Go `determineProjectBaseDir(ctx)`: the context it leaves and the error it returns. -/
def determineProjectBaseDir (env : Env) (fs : Node) (fuel : Nat) (ctx : BuildContext) :
    Option (BuildContext × Option Error) :=
  match FindGitConfig env fs fuel env.cwd with
  | none => none
  | some (.ok foundBaseDir) =>
    some ({ ctx with ProjectBaseDir := foundBaseDir, GitSupport := true }, none)
  | some (.error err) =>
    if err ≠ .errGitNotFound then
      some (ctx, some (.errorf ("fail to check git support. " ++ err.msg)))
    else
      match findInGopath env fs ctx.ExposeProcessName (buildGopathMap env) with
      | some foundBaseDir => some ({ ctx with ProjectBaseDir := foundBaseDir }, none)
      | none => some (ctx, some (.errorf "cannot find project base directory"))

/-- The directory is a version-control root: it holds a `.git` directory that holds a
regular file `config`. -/
def isVcsRoot (fs : Node) (dir : Path) : Prop :=
  ∃ m c, lookup fs (dir ++ [gitDirname, gitConfigfile]) = some (.file m c)

/-- The directory is the `src` directory of a source root of `GOPATH`. -/
def isGopathSrc (env : Env) (dir : Path) : Prop :=
  ∃ gopath ∈ buildGopathMap env, joinGopathSrc gopath = some dir

/-- A file system with a repository `/home/u/work/repo` and a package directory in it. -/
def fsGit : Node :=
  .dir [("home", .dir [("u", .dir [
    ("go", .dir [("src", .dir [])]),
    ("work", .dir [("repo", .dir [
      (".git", .dir [("HEAD", .file 420 []), ("config", .file 420 [])]),
      ("pkg", .dir [("util", .dir [("util.go", .file 420 [])])])])])])])]

/-! ## `context.go`: resource scan -/

/-- Go `includeSuffixList`. -/
def includeSuffixList : List String := ["properties", "xml", "json", "yaml", "sh", "yml"]

/-- Go `strings.HasSuffix(s, suffix)`. -/
def HasSuffix (s suffix : String) : Bool := suffix.data.isSuffixOf s.data

/-- The test `file.Name()[0] == '.'` (a directory entry never has an empty name). -/
def startsWithDot (name : String) : Bool := name.data.head? == some '.'

/-- The inner loop over `includeSuffixList`: does the name end in one of the suffixes? -/
def hasIncludeSuffix (name : String) : Bool := includeSuffixList.any (fun s => HasSuffix name s)

mutual
/-- Go `findResourceFromDirectory(baseDir)` where `os.ReadDir(baseDir)` reads the node given:
the list appended so far, and the error if any. -/
def findResourceNode (baseDir : Path) : Node → List Path × Option Error
  | .file _ _ =>
    ([], some (.errorf ("findResourceFromDirectory error : "
      ++ (Error.pathError "readdirent" baseDir .ENOTDIR).msg ++ "\n")))
  | .dir es => findResourceLoop baseDir es
/-- The loop of `findResourceFromDirectory` over the entries of `baseDir`. -/
def findResourceLoop (baseDir : Path) : List (String × Node) → List Path × Option Error
  | [] => ([], none)
  | (name, n) :: rest =>
    if startsWithDot name then findResourceLoop baseDir rest
    else if n.isDir then
      match findResourceNode (Join baseDir name) n with
      | (_, some err) => ([], some err)
      | (foundFileList, none) =>
        (foundFileList ++ (findResourceLoop baseDir rest).1, (findResourceLoop baseDir rest).2)
    else if hasIncludeSuffix name then
      (Join baseDir name :: (findResourceLoop baseDir rest).1, (findResourceLoop baseDir rest).2)
    else findResourceLoop baseDir rest
end

/-- Go `findResourceFromDirectory(baseDir)`. -/
def findResourceFromDirectory (fs : Node) (baseDir : Path) : List Path × Option Error :=
  match lookup fs baseDir with
  | some n => findResourceNode baseDir n
  | none =>
    ([], some (.errorf ("findResourceFromDirectory error : "
      ++ (Error.pathError "open" baseDir .ENOENT).msg ++ "\n")))

/-- The relative path `rel` below the node names a file the resource scan keeps: a regular
file, no component of `rel` starts with a dot, and the file name has a listed suffix. -/
def keptBelow (n : Node) (rel : Path) : Prop :=
  rel ≠ [] ∧ (∃ m c, lookup n rel = some (.file m c))
    ∧ (∀ comp ∈ rel, startsWithDot comp = false) ∧ hasIncludeSuffix (Base rel) = true

/-- The entry `name` of a directory, holding the object `c`, leads by the relative path
`rel` below it to a file the resource scan keeps. -/
def keptEntry (name : String) (c : Node) (rel : Path) : Prop :=
  startsWithDot name = false
    ∧ ((c.isDir = false ∧ rel = [] ∧ hasIncludeSuffix name = true)
      ∨ (c.isDir = true ∧ keptBelow c rel))

/-- A project tree with resources, a hidden directory and a hidden file. -/
def fsResources : Node :=
  .dir [("proj", .dir [
    (".git", .dir [("config", .file 420 []), ("hooks.sh", .file 493 [])]),
    (".env.json", .file 420 []),
    ("app.properties", .file 420 [1, 2]),
    ("conf", .dir [("log.xml", .file 420 [3]), ("notes.txt", .file 420 []),
      (".cache", .dir [("x.yaml", .file 420 [])])]),
    ("main.go", .file 420 []),
    ("start.sh", .file 420 [4])])]

/-- No directory called `targetDir` lies at any depth below the node. -/
def noDirNamed (targetDir : String) (n : Node) : Prop :=
  ∀ (rel : Path) (es : List (String × Node)), lookup n (rel ++ [targetDir]) ≠ some (.dir es)

mutual
/-- Whether a directory called `targetDir` lies at some depth below the node. -/
def hasDirNamed (targetDir : String) : Node → Bool
  | .file _ _ => false
  | .dir es => hasDirNamedList targetDir es
/-- The same, for the entries of a directory. -/
def hasDirNamedList (targetDir : String) : List (String × Node) → Bool
  | [] => false
  | (name, n) :: rest =>
    (name == targetDir && n.isDir) || hasDirNamed targetDir n || hasDirNamedList targetDir rest
end

/-! ## Sample file systems -/

/-- A project `/proj` with a command directory holding two commands and a plain file. -/
def fsCommands : Node :=
  .dir [("proj", .dir [
    ("cmd", .dir [("api", .dir [("api.go", .file 420 [])]), ("README.md", .file 420 []),
      ("worker", .dir [])]),
    ("go.mod", .file 420 [])])]

/-- A project `/proj` whose only `cmd` directory lies deeper, under `internal`. -/
def fsNested : Node :=
  .dir [("proj", .dir [
    ("internal", .dir [("cmd", .dir [("tool", .dir [])])]),
    ("main.go", .file 420 [])])]

/-- A project `/proj` with no `cmd` directory at all. -/
def fsPlain : Node :=
  .dir [("proj", .dir [("main.go", .file 420 []), ("conf", .dir [("app.xml", .file 420 [])])])]

/-! ## Changes of the file system -/

/-- The entries of a directory with the entry `name` replaced by, or set to, `n`. -/
def setEntry (es : List (String × Node)) (name : String) (n : Node) : List (String × Node) :=
  if (es.lookup name).isSome then es.map (fun e => if e.1 == name then (name, n) else e)
  else es ++ [(name, n)]

/-- The entries of a directory without the entry `name`. -/
def eraseEntry (es : List (String × Node)) (name : String) : List (String × Node) :=
  es.filter (fun e => !(e.1 == name))

/-- The tree with the object at `path` changed by `f`, which is given the object now there
(`none` when absent) and answers the object to leave (`none` to remove it); the parent
directory has to exist. -/
def updateAt : Node → Path → (Option Node → Except Errno (Option Node)) → Except Errno Node
  | n, [], f =>
    match f (some n) with
    | .error e => .error e
    | .ok (some n') => .ok n'
    | .ok none => .ok (.dir [])
  | .file _ _, _ :: _, _ => .error .ENOTDIR
  | .dir es, [name], f =>
    match f (es.lookup name) with
    | .error e => .error e
    | .ok (some n') => .ok (.dir (setEntry es name n'))
    | .ok none => .ok (.dir (eraseEntry es name))
  | .dir es, name :: next :: rest, f =>
    match es.lookup name with
    | none => .error .ENOENT
    | some c =>
      match updateAt c (next :: rest) f with
      | .error e => .error e
      | .ok c' => .ok (.dir (setEntry es name c'))

/-- The tree after `mkdir -p path`: missing directories are created. -/
def mkdirAllNode : Node → Path → Except Errno Node
  | .file _ _, _ => .error .ENOTDIR
  | .dir es, [] => .ok (.dir es)
  | .dir es, name :: rest =>
    match es.lookup name with
    | some c =>
      match mkdirAllNode c rest with
      | .error e => .error e
      | .ok c' => .ok (.dir (setEntry es name c'))
    | none =>
      match mkdirAllNode (.dir []) rest with
      | .error e => .error e
      | .ok c' => .ok (.dir (es ++ [(name, c')]))

/-- The tree with the regular file at `path` created with permission `perm`, or truncated,
and holding `data`. -/
def writeNode (fs : Node) (path : Path) (perm : Nat) (data : List Nat) : Except Errno Node :=
  updateAt fs path (fun cur =>
    match cur with
    | some (.dir _) => .error .EISDIR
    | some (.file mode _) => .ok (some (.file mode data))
    | none => .ok (some (.file perm data)))

/-- The tree with the permission bits of the file at `path` set. -/
def chmodNode (fs : Node) (path : Path) (mode : Nat) : Except Errno Node :=
  updateAt fs path (fun cur =>
    match cur with
    | some (.dir es) => .ok (some (.dir es))
    | some (.file _ data) => .ok (some (.file mode data))
    | none => .error .ENOENT)

/-- The tree without the object at `path` and all below it. -/
def removeAllNode (fs : Node) (path : Path) : Node :=
  match updateAt fs path (fun _ => .ok none) with
  | .ok fs' => fs'
  | .error _ => fs

/-! ## The operating system -/

/-- The calls the program makes to the operating system and to external tools. -/
inductive Op where
  | MkdirTemp (pattern : String)
  | RemoveAll (path : Path)
  | MkdirAll (path : Path) (perm : Nat)
  | Chmod (path : Path) (mode : Nat)
  | Stat (path : Path)
  | Open (path : Path)
  | Create (path : Path)
  | Write (path : Path) (data : List Nat)
  | Sync (path : Path)
  | WriteFile (path : Path) (data : List Nat) (perm : Nat)
  | Shell (wd : Path) (command : String)
  | GitOpen (path : Path)
  | ZipHeader (archive : Path) (name : String) (mode : Option Nat)
  | ZipCopy (archive : Path) (src : Path)
  deriving DecidableEq, Repr

/-- The steps of a packaging session. -/
inductive Step where
  | setup
  | allocate
  | compile
  | resources
  | classify
  | manifest
  | archive
  | cleanup
  deriving DecidableEq, Repr

/-- A call in the log of a run: the step of the session that made it, the call, and
whether it succeeded. -/
structure Call where
  step : Step
  op : Op
  ok : Bool
  deriving DecidableEq, Repr

/-- The state of the machine during a run: the file system, the step the session is in,
and the calls made so far. The step and the log are bookkeeping of the model; nothing the
program does depends on them. -/
structure World where
  fs : Node
  step : Step := .setup
  log : List Call := []

/-- The world with one more call in its log. -/
def World.did (w : World) (op : Op) (ok : Bool) : World :=
  { w with log := w.log ++ [{ step := w.step, op := op, ok := ok }] }

/-- The world when the session enters a step. -/
def World.enter (w : World) (step : Step) : World := { w with step := step }

/-- What a shell command leaves: its combined output, its error, and the file system. -/
structure ShellResult where
  out : String
  err : Option Error
  fs : Node

/-- Go `GitInfo` of `git.go`. -/
structure GitInfo where
  Valid : Bool := false
  RepoUrl : String := ""
  BranchName : String := ""
  CommitHash : String := ""
  LastCommitMessage : String := ""
  deriving DecidableEq, Repr

/-- A JSON value, as far as the deployment manifest needs it. -/
inductive Json where
  | str (s : String)
  | obj (fields : List (String × Json))
  deriving Repr

/-- One entry written to a zip archive. -/
structure ZipEntry where
  Name : String
  Mode : Option Nat
  IsDir : Bool
  Data : List Nat
  deriving DecidableEq, Repr

/-- Everything outside the program: which calls fail for a reason of the environment,
what external commands do, and the library functions taken as given. -/
structure OS where
  /-- Go `os.TempDir()`. -/
  TempDir : Path
  /-- The environmental failure, if any, of a call made in the given state. -/
  fault : World → Op → Option Errno
  /-- The random suffix `os.MkdirTemp` appends to the pattern. -/
  tempSuffix : World → String → String
  /-- The run of `/bin/sh -c command` in directory `wd`. -/
  run : World → Path → String → ShellResult
  /-- The formatted local time and zone name. -/
  now : World → String
  /-- Go `readGitInfo(baseDir)`, the read of the repository through go-git. -/
  readGitInfo : World → Path → GitInfo
  /-- Go `json.Marshal`. -/
  jsonMarshal : Json → Except Error (List Nat)
  /-- The bytes `archive/zip` writes for a sequence of entries. -/
  zipBytes : List ZipEntry → List Nat

/-- Go `os.Stat(path)` on the tree: whether the object is a directory. -/
def statNode (fs : Node) (path : Path) : Except Error Bool :=
  match lookup fs path with
  | some n => .ok n.isDir
  | none => .error (.pathError "stat" path .ENOENT)

/-- Go `os.Stat(path)`. -/
def Stat (os : OS) (w : World) (path : Path) : Except Error Bool × World :=
  match os.fault w (.Stat path) with
  | some errno => (.error (.pathError "stat" path errno), w.did (.Stat path) false)
  | none =>
    match statNode w.fs path with
    | .error err => (.error err, w.did (.Stat path) false)
    | .ok isDir => (.ok isDir, w.did (.Stat path) true)

/-- A call that changes the tree: it fails by a fault of the environment or by the state
of the tree, and otherwise leaves the changed tree. -/
def change (os : OS) (w : World) (op : Op) (name : String) (path : Path)
    (result : Except Errno Node) : Option Error × World :=
  match os.fault w op with
  | some errno => (some (.pathError name path errno), w.did op false)
  | none =>
    match result with
    | .error errno => (some (.pathError name path errno), w.did op false)
    | .ok fs' => (none, { (w.did op true) with fs := fs' })

/-- Go `os.MkdirAll(path, perm)`. -/
def MkdirAll (os : OS) (w : World) (path : Path) (perm : Nat) : Option Error × World :=
  change os w (.MkdirAll path perm) "mkdir" path (mkdirAllNode w.fs path)

/-- Go `os.Chmod(path, mode)`. -/
def Chmod (os : OS) (w : World) (path : Path) (mode : Nat) : Option Error × World :=
  change os w (.Chmod path mode) "chmod" path (chmodNode w.fs path mode)

/-- Go `os.WriteFile(path, data, perm)`. -/
def WriteFile (os : OS) (w : World) (path : Path) (data : List Nat) (perm : Nat) :
    Option Error × World :=
  change os w (.WriteFile path data perm) "open" path (writeNode w.fs path perm data)

/-- Go `os.Create(path)`: the file is created, or truncated when it exists. -/
def Create (os : OS) (w : World) (path : Path) : Option Error × World :=
  change os w (.Create path) "open" path (writeNode w.fs path 0o666 [])

/-- Go `os.RemoveAll(path)`: the error and the world. A removal that fails may have removed
part of the tree; the object at `path` is still there, and the model leaves the tree as
it was. -/
def RemoveAll (os : OS) (w : World) (path : Path) : Option Error × World :=
  match os.fault w (.RemoveAll path) with
  | some errno => (some (.pathError "unlinkat" path errno), w.did (.RemoveAll path) false)
  | none => (none, { (w.did (.RemoveAll path) true) with fs := removeAllNode w.fs path })

/-- Go `os.MkdirTemp("", pattern)`: a new directory below `os.TempDir()`, named by the pattern
and a random suffix. The pattern may not hold a path separator. -/
def MkdirTemp (os : OS) (w : World) (pattern : String) : Except Error Path × World :=
  let w1 := w.did (.MkdirTemp pattern) false
  if pattern.data.contains '/' then
    (.error (.pathError "mkdirtemp" (Join os.TempDir pattern) .ENOENT), w1)
  else
    let dir := Join os.TempDir (pattern ++ os.tempSuffix w pattern)
    match os.fault w (.MkdirTemp pattern) with
    | some errno => (.error (.pathError "mkdir" dir errno), w1)
    | none =>
      match updateAt w.fs dir (fun cur =>
          match cur with
          | some _ => .error .EEXIST
          | none => .ok (some (.dir []))) with
      | .error errno => (.error (.pathError "mkdir" dir errno), w1)
      | .ok fs' => (.ok dir, { (w.did (.MkdirTemp pattern) true) with fs := fs' })

/-- Go `ExecuteShell(wd, command)`. -/
def ExecuteShell (os : OS) (w : World) (wd : Path) (command : String) :
    String × Option Error × World :=
  if command.length == 0 then ("", some (.errorf "empty command"), w)
  else
    let r := os.run w wd command
    (r.out, r.err, { (w.did (.Shell wd command) r.err.isNone) with fs := r.fs })

/-! ## `util.go`: files and the archive -/

/-- Go `CheckDirExist(path)`. -/
def CheckDirExist (os : OS) (w : World) (path : Path) : Option Error × World :=
  match Stat os w path with
  | (.error err, w1) =>
    if IsNotExist err then (some (.errorf ("not exist dir : " ++ renderPath path)), w1)
    else (some (.errorf ("error checking : " ++ renderPath path ++ " (" ++ err.msg ++ ")")), w1)
  | (.ok isDir, w1) =>
    if !isDir then (some (.errorf "exist but it is not directory"), w1) else (none, w1)

/-- Go `CheckFileExist(path)`. -/
def CheckFileExist (os : OS) (w : World) (path : Path) : Option Error × World :=
  match Stat os w path with
  | (.error err, w1) =>
    if IsNotExist err then (some (.errorf ("not exist file : " ++ renderPath path)), w1)
    else (none, w1)
  | (.ok _, w1) => (none, w1)

/-- Go `EnsureDirectory(dir)`. -/
def EnsureDirectory (os : OS) (w : World) (dir : Path) : Option Error × World :=
  match Stat os w dir with
  | (.error err, w1) => if IsNotExist err then MkdirAll os w1 dir 0o755 else (none, w1)
  | (.ok _, w1) => (none, w1)

/-- Go `os.Open(path)`: the object opened for reading. -/
def Open (os : OS) (w : World) (path : Path) : Except Error Node × World :=
  match os.fault w (.Open path) with
  | some errno => (.error (.pathError "open" path errno), w.did (.Open path) false)
  | none =>
    match lookup w.fs path with
    | some n => (.ok n, w.did (.Open path) true)
    | none => (.error (.pathError "open" path .ENOENT), w.did (.Open path) false)

/-- Go `CopyFile(src, dst)`. -/
def CopyFile (os : OS) (w : World) (src dst : Path) : Option Error × World :=
  match Open os w src with
  | (.error err, w1) => (some err, w1)
  | (.ok sFile, w1) =>
    match Create os w1 dst with
    | (some err, w2) => (some err, w2)
    | (none, w2) =>
      match sFile with
      | .dir _ => (some (.pathError "read" src .EISDIR), w2)
      | .file _ data =>
        match change os w2 (.Write dst data) "write" dst (writeNode w2.fs dst 0o666 data) with
        | (some err, w3) => (some err, w3)
        | (none, w3) =>
          match os.fault w3 (.Sync dst) with
          | some errno => (some (.pathError "sync" dst errno), w3.did (.Sync dst) false)
          | none => (none, w3.did (.Sync dst) true)

/-- Go `fileMeta`. -/
structure fileMeta where
  Path : Path
  IsDir : Bool
  deriving DecidableEq, Repr

mutual
/-- The visits of `filepath.Walk` below and at an object, in order. -/
def walkNode (path : Path) : Node → List fileMeta
  | .file _ _ => [{ Path := path, IsDir := false }]
  | .dir es => { Path := path, IsDir := true } :: walkList path es
/-- The visits of `filepath.Walk` for the entries of a directory. -/
def walkList (path : Path) : List (String × Node) → List fileMeta
  | [] => []
  | (name, n) :: rest => walkNode (Join path name) n ++ walkList path rest
end

/-- How a call that may panic ends. -/
inductive Ret where
  /-- It returned `nil`. -/
  | nil
  /-- It returned an error. -/
  | err (e : Error)
  /-- It did not return: a run-time panic. -/
  | panic (msg : String)
  deriving DecidableEq, Repr

/-- Go `strings.HasPrefix(s, start)`. -/
def startsWith (s start : String) : Bool := start.data.isPrefixOf s.data

/-- The name `ZipArtifact` gives the archive entry of a visited path. -/
def zipEntryName (baseDir : Path) (f : fileMeta) : String :=
  let base := renderPath baseDir
  let path := renderPath f.Path
  let path :=
    if base.length == path.length then ""
    else if base.length < path.length then "/" ++ String.mk (path.data.drop (base.length + 1))
    else path
  if f.IsDir then path ++ "/" else path

/-- The mode `copyIntoZip` sets in the header of an entry, if any. -/
def zipEntryMode (path : String) : Option Nat :=
  if startsWith path ("/" ++ PlatformDirName) then some 0o755 else none

/-- Go `copyIntoZip(zw, path, f)`: the error, the entry put in the archive if its header was
written, and the world. -/
def copyIntoZip (os : OS) (w : World) (archive : Path) (path : String) (f : fileMeta) :
    Option Error × Option ZipEntry × World :=
  let mode := zipEntryMode path
  match os.fault w (.ZipHeader archive path mode) with
  | some errno =>
    (some (.pathError "write" archive errno), none, w.did (.ZipHeader archive path mode) false)
  | none =>
    let w1 := w.did (.ZipHeader archive path mode) true
    if f.IsDir then (none, some { Name := path, Mode := mode, IsDir := true, Data := [] }, w1)
    else
      match Open os w1 f.Path with
      | (.error err, w2) =>
        (some err, some { Name := path, Mode := mode, IsDir := false, Data := [] }, w2)
      | (.ok file, w2) =>
        match os.fault w2 (.ZipCopy archive f.Path) with
        | some errno =>
          (some (.pathError "write" archive errno),
            some { Name := path, Mode := mode, IsDir := false, Data := [] },
            w2.did (.ZipCopy archive f.Path) false)
        | none =>
          match file with
          | .dir _ =>
            (some (.pathError "read" f.Path .EISDIR),
              some { Name := path, Mode := mode, IsDir := false, Data := [] },
              w2.did (.ZipCopy archive f.Path) false)
          | .file _ data =>
            (none, some { Name := path, Mode := mode, IsDir := false, Data := data },
              w2.did (.ZipCopy archive f.Path) true)

/-- The loop of `ZipArtifact` over the visited paths: the error that stops it, and the
entries put in the archive. -/
def zipLoop (os : OS) (archive baseDir : Path) :
    List fileMeta → World → Option Error × List ZipEntry × World
  | [], w => (none, [], w)
  | f :: rest, w =>
    match copyIntoZip os w archive (zipEntryName baseDir f) f with
    | (some err, entry, w1) => (some err, entry.toList, w1)
    | (none, entry, w1) =>
      match zipLoop os archive baseDir rest w1 with
      | (err, entries, w2) => (err, entry.toList ++ entries, w2)

/-- The deferred `zw.Close()` and `z.Close()`, whose errors nothing reads: the writer is
flushed, and the archive file then holds the entries. When the flush fails the file stays
as `os.Create` left it (in the model; it may hold a part of the bytes). -/
def closeArchive (os : OS) (w : World) (archive : Path) (entries : List ZipEntry) : World :=
  match os.fault w (.Write archive (os.zipBytes entries)) with
  | some _ => w.did (.Write archive (os.zipBytes entries)) false
  | none =>
    match writeNode w.fs archive 0o666 (os.zipBytes entries) with
    | .ok fs' => { (w.did (.Write archive (os.zipBytes entries)) true) with fs := fs' }
    | .error _ => w.did (.Write archive (os.zipBytes entries)) false

/-- Go `ZipArtifact(baseDir, artifactFile)`: how it ends, the entries it put in the archive,
and the world. When `baseDir` is missing `filepath.Walk` passes a nil `info` to the
callback, whose `info.IsDir()` panics. -/
def ZipArtifact (os : OS) (w : World) (baseDir artifactFile : Path) :
    Ret × List ZipEntry × World :=
  match lookup w.fs baseDir with
  | none => (.panic "invalid memory address or nil pointer dereference", [], w)
  | some n =>
    let files := walkNode baseDir n
    match Create os w artifactFile with
    | (some err, w1) => (.err err, [], w1)
    | (none, w1) =>
      match zipLoop os artifactFile baseDir files w1 with
      | (some err, entries, w2) => (.err err, entries, closeArchive os w2 artifactFile entries)
      | (none, entries, w2) => (.nil, entries, closeArchive os w2 artifactFile entries)

/-! ## `platform.go` -/

/-- Go `PlatformItem`. -/
structure PlatformItem where
  Os : String
  Arch : String
  deriving DecidableEq, Repr

/-- Go `PlatformItem.getPlatformDirectory`. -/
def PlatformItem.getPlatformDirectory (p : PlatformItem) : String := p.Os ++ "_" ++ p.Arch

/-- Go `YamlBuildPlatformConfig`, the type of the package variable `buildPlatformList`. -/
structure YamlBuildPlatformConfig where
  Platforms : List PlatformItem
  deriving DecidableEq, Repr

/-! ## `context.go`: compiling -/

/-- Go `BinCompileRequest`. -/
structure BinCompileRequest where
  TargetDir : Path
  BinSourcePath : Path
  BinName : String
  Os : String
  Arch : String
  BuildCGOLink : String
  deriving DecidableEq, Repr

/-- The command line `compileBinary` formats. -/
def compileCommand (request : BinCompileRequest) : String :=
  let targetBin := renderPath (Join request.TargetDir request.BinName)
  if request.BuildCGOLink.length == 0 then
    "GOOS=" ++ request.Os ++ " GOARCH=" ++ request.Arch ++ " go build -o " ++ targetBin
  else
    "CC=" ++ request.BuildCGOLink ++ " GOOS=" ++ request.Os ++ " GOARCH=" ++ request.Arch
      ++ " CGO_ENABLED=1 go build -o " ++ targetBin ++ " -ldflags=\x27-s -w\x27"

/-- The test on the error of `os.MkdirAll` in `compileBinary`: an error that is not
`os.ErrExist`. -/
def mkdirFailed (err : Option Error) : Bool :=
  match err with
  | some e => !IsErrExist e
  | none => false

/-- Go `compileBinary(wg, compileError, request)`: what the task adds to the failure counter
`compileError` (1 when it fails), and the world it leaves. -/
def compileBinary (os : OS) (w : World) (request : BinCompileRequest) : Nat × World :=
  match MkdirAll os w request.TargetDir 0o744 with
  | (err, w1) =>
    if mkdirFailed err then (1, w1)
    else
      match ExecuteShell os w1 request.BinSourcePath (compileCommand request) with
      | (_, some _, w2) => (1, w2)
      | (out, none, w2) =>
        if out.length > 0 then (1, w2)
        else (0, (Chmod os w2 (Join request.TargetDir request.BinName) 0o755).2)

/-- The request `prepareCmdRecordBinary` builds for a command and a platform. -/
def compileRequest (b : BuildContext) (cmdRecord : CmdRecord) (platform : PlatformItem) :
    BinCompileRequest :=
  { TargetDir := Join (Join b.workingDir PlatformDirName) platform.getPlatformDirectory
    BinName := cmdRecord.GetBinaryname
    BinSourcePath := cmdRecord.Path
    Os := platform.Os
    Arch := platform.Arch
    BuildCGOLink := b.BuildCGOLink }

/-- The tasks of one command, one per platform, up to `wg.Wait()`: the `uint32` counter
`compileError` and the world they leave. The goroutines only share the counter, which
they add to atomically; they are run here one after the other in the order they are
started. -/
def compilePlatforms (os : OS) (b : BuildContext) (cmdRecord : CmdRecord) :
    List PlatformItem → Nat → World → Nat × World
  | [], compileError, w => (compileError, w)
  | platform :: rest, compileError, w =>
    match compileBinary os w (compileRequest b cmdRecord platform) with
    | (failed, w1) =>
      compilePlatforms os b cmdRecord rest ((compileError + failed) % 2 ^ 32) w1

/-- The loop of `prepareCmdRecordBinary` over the process list. -/
def compileRecords (os : OS) (buildPlatformList : YamlBuildPlatformConfig) (b : BuildContext) :
    List CmdRecord → World → Option Error × World
  | [], w => (none, w)
  | cmdRecord :: rest, w =>
    match compilePlatforms os b cmdRecord buildPlatformList.Platforms 0 w with
    | (compileError, w1) =>
      if compileError > 0 then
        (some (.errorf ("fail to prepare binary " ++ cmdRecord.GetBinaryname ++ "\n")), w1)
      else compileRecords os buildPlatformList b rest w1

/-- Go `BuildContext.prepareCmdRecordBinary`. -/
def prepareCmdRecordBinary (os : OS) (buildPlatformList : YamlBuildPlatformConfig)
    (b : BuildContext) (w : World) : Option Error × World :=
  compileRecords os buildPlatformList b b.ProcessList w

/-- Go `BuildContext.prepareBinary`. -/
def prepareBinary (os : OS) (buildPlatformList : YamlBuildPlatformConfig)
    (b : BuildContext) (w : World) : Option Error × World :=
  if b.ProcessList.length == 0 then
    (some (.errorf "not found target process list"), w.enter .compile)
  else prepareCmdRecordBinary os buildPlatformList b (w.enter .compile)

/-! ## `context.go`: resources -/

/-- Go `BuildContext.loadResourceFromDesginatedDir`. -/
def loadResourceFromDesginatedDir (os : OS) (b : BuildContext) (resourceDir : Path)
    (w : World) : Option Error × World :=
  match ExecuteShell os w resourceDir ("cp -r * " ++ renderPath b.workingDir) with
  | (out, some err, w1) =>
    (some (.errorf ("fail to execute command : " ++ err.msg ++ "\n" ++ out ++ "\n")), w1)
  | (out, none, w1) =>
    if out.length > 0 then (some (.errorf ("fail to copy resources\n" ++ out ++ "\n")), w1)
    else (none, w1)

/-- The loop of `loadResourceFromProject` over the files found. -/
def copyResources (os : OS) (b : BuildContext) : List Path → World → Option Error × World
  | [], w => (none, w)
  | resourceFilePath :: rest, w =>
    let targetFile := Join b.workingDir (Base resourceFilePath)
    match CopyFile os w resourceFilePath targetFile with
    | (some err, w1) =>
      (some (.errorf ("fail to copy resource " ++ renderPath resourceFilePath ++ " : "
        ++ err.msg)), w1)
    | (none, w1) =>
      if HasSuffix (renderPath targetFile) ".sh" then
        copyResources os b rest (Chmod os w1 targetFile 0o755).2
      else copyResources os b rest w1

/-- Go `BuildContext.loadResourceFromProject`. -/
def loadResourceFromProject (os : OS) (b : BuildContext) (w : World) : Option Error × World :=
  match findResourceFromDirectory w.fs b.ProjectBaseDir with
  | (_, some err) => (some err, w)
  | (resourceFileList, none) => copyResources os b resourceFileList w

/-- Go `BuildContext.loadResourceFiles`. -/
def loadResourceFiles (os : OS) (b : BuildContext) (w : World) : Option Error × World :=
  match b.ResourceDir with
  | none => loadResourceFromProject os b w
  | some resourceDir => loadResourceFromDesginatedDir os b resourceDir w

/-- Go `BuildContext.prepareResource`: the error, the context (whose `procType` it may set)
and the world. -/
def prepareResource (os : OS) (b : BuildContext) (w : World) :
    Option Error × BuildContext × World :=
  match loadResourceFiles os b (w.enter .resources) with
  | (some err, w1) => (some err, b, w1)
  | (none, w1) =>
    let uiProcXml := Join b.workingDir (b.ExposeProcessName ++ ".ui.xml")
    match CheckFileExist os (w1.enter .classify) uiProcXml with
    | (none, w2) => (none, { b with procType := procTypeUI }, w2)
    | (some _, w2) => (none, b, w2)

/-! ## `context.go`: the manifest -/

/-- Go `GitInfo.ToMap`. -/
def GitInfo.ToMap (g : GitInfo) : List (String × Json) :=
  (if g.RepoUrl.length > 0 then [("repo", Json.str g.RepoUrl)] else [])
    ++ [("branch", .str g.BranchName), ("commit", .str g.CommitHash),
      ("message", .str g.LastCommitMessage)]

/-- The map `m` that `createDeployment` marshals, given the time, the output and error of
`whoami`, and the result of `readGitInfo`. -/
def deploymentMap (b : BuildContext) (time : String) (whoami : String × Option Error)
    (gitInfo : GitInfo) : Json :=
  let user := if whoami.2.isSome then "unknown" else whoami.1
  let build : List (String × Json) :=
    [("time", .str time), ("user", .str (String.mk (TrimSpace user.data)))]
      ++ (if b.GitSupport && gitInfo.Valid then [("git", .obj gitInfo.ToMap)] else [])
  .obj [("process", .str b.ExposeProcessName), ("process_type", .str b.procType),
    ("build", .obj build)]

/-- Go `BuildContext.createDeployment`; `.` is the working directory of the process. -/
def createDeployment (os : OS) (env : Env) (b : BuildContext) (w : World) :
    Option Error × World :=
  let time := os.now w
  match ExecuteShell os (w.enter .manifest) env.cwd "whoami" with
  | (user, err, w1) =>
    let gitInfo := if b.GitSupport then os.readGitInfo w1 b.ProjectBaseDir else {}
    let w2 := if b.GitSupport then w1.did (.GitOpen b.ProjectBaseDir) gitInfo.Valid else w1
    match os.jsonMarshal (deploymentMap b time (user, err) gitInfo) with
    | .error e => (some (.errorf ("fail to create deployment : " ++ e.msg)), w2)
    | .ok dat =>
      match WriteFile os w2 (Join b.workingDir "deployment.json") dat 0o644 with
      | (some e, w3) => (some (.errorf ("fail to write deployment.json : " ++ e.msg)), w3)
      | (none, w3) => (none, w3)

/-! ## `context.go`: the archive and the whole run -/

/-- Go `getGOPath`: the text of `GOPATH` before the first list separator. -/
def getGOPath (env : Env) : String :=
  String.mk ((splitOn ':' env.GOPATH.data).headD [])

/-- Go `BuildContext.compress`: how it ends, the context (whose `farPath` it sets), the
entries put in the archive, and the world. -/
def compress (os : OS) (env : Env) (b : BuildContext) (w : World) :
    Ret × BuildContext × List ZipEntry × World :=
  let farDir := Join (Join (gopathDir env (getGOPath env)) "far") b.ExposeProcessName
  match EnsureDirectory os (w.enter .archive) farDir with
  | (some err, w1) => (.err (.errorf ("fail to prepare far dir : " ++ err.msg)), b, [], w1)
  | (none, w1) =>
    let b1 := { b with farPath := Join farDir (b.ExposeProcessName ++ ".far") }
    match ZipArtifact os w1 b1.workingDir b1.farPath with
    | (.err err, entries, w2) =>
      (.err (.errorf ("fail to compress : " ++ err.msg)), b1, entries, w2)
    | (ret, entries, w2) => (ret, b1, entries, w2)

/-- The body of `BuildContext.Packaging` after the staging directory is allocated and its
removal deferred. -/
def packagingSteps (os : OS) (env : Env) (buildPlatformList : YamlBuildPlatformConfig)
    (b : BuildContext) (w : World) : Ret × BuildContext × World :=
  match prepareBinary os buildPlatformList b w with
  | (some err, w1) => (.err err, b, w1)
  | (none, w1) =>
    match prepareResource os b w1 with
    | (some err, b2, w2) => (.err err, b2, w2)
    | (none, b2, w2) =>
      match createDeployment os env b2 w2 with
      | (some err, w3) => (.err err, b2, w3)
      | (none, w3) =>
        match compress os env b2 w3 with
        | (ret, b4, _, w4) => (ret, b4, w4)

/-- Go `BuildContext.Packaging`: how it ends, the context and the world it leaves. The
deferred `os.RemoveAll(b.workingDir)` runs however the body ends, and its error is
discarded. -/
def Packaging (os : OS) (env : Env) (buildPlatformList : YamlBuildPlatformConfig)
    (b : BuildContext) (w : World) : Ret × BuildContext × World :=
  match MkdirTemp os (w.enter .allocate) b.ExposeProcessName with
  | (.error err, w1) =>
    (.err (.errorf ("fail to create tmp dir : " ++ err.msg)), { b with workingDir := [] }, w1)
  | (.ok dir, w1) =>
    match packagingSteps os env buildPlatformList { b with workingDir := dir } w1 with
    | (ret, b2, w2) => (ret, b2, (RemoveAll os (w2.enter .cleanup) b2.workingDir).2)

/-! ## `context.go`: the build context -/

/-- Go `determineResourceDir(ctx)`. -/
def determineResourceDir (os : OS) (w : World) (ctx : BuildContext) : BuildContext × World :=
  let resourceDir := Join ctx.ProjectBaseDir resourceDirname
  match CheckDirExist os w resourceDir with
  | (some _, w1) => (ctx, w1)
  | (none, w1) => ({ ctx with ResourceDir := some resourceDir }, w1)

/-- Go `NewBuildContext(procName, cgoLink)`; `loadPlatform`, which fills the package variable
`buildPlatformList`, is outside the model. `none` means `FindGitConfig` ran out of fuel. -/
def NewBuildContext (os : OS) (env : Env) (w : World) (fuel : Nat) (procName cgoLink : String) :
    Option (Except Error BuildContext × World) :=
  let ctx : BuildContext :=
    { GitSupport := false, ExposeProcessName := procName, procType := procTypeGeneral,
      BuildCGOLink := if cgoLink.length > 0 then cgoLink else "" }
  match determineProjectBaseDir env w.fs fuel ctx with
  | none => none
  | some (_, some err) => some (.error (.errorf ("fail to build context. " ++ err.msg)), w)
  | some (ctx1, none) =>
    match determineResourceDir os w ctx1 with
    | (ctx2, w1) => some (.ok (determineCmdList w1.fs ctx2), w1)

/-! ## Reading the log of a run -/

/-- The second world continues the first within one step: the step is the same and the
log has grown by calls of that step. -/
def Same (w w' : World) : Prop :=
  w'.step = w.step ∧ ∃ calls, w'.log = w.log ++ calls ∧ ∀ c ∈ calls, c.step = w.step

/-- The place of a step in the order the source runs them. -/
def codeRank : Step → Nat
  | .setup => 0
  | .allocate => 1
  | .compile => 2
  | .resources => 3
  | .classify => 4
  | .manifest => 5
  | .archive => 6
  | .cleanup => 7

/-- The place of a step in the order the specification gives: resources are staged and
the process type is classified before the binaries are compiled. -/
def specRank : Step → Nat
  | .setup => 0
  | .allocate => 1
  | .resources => 2
  | .classify => 3
  | .compile => 4
  | .manifest => 5
  | .archive => 6
  | .cleanup => 7

/-- The second world continues the first through steps taken in the order of the source:
the log has grown by calls whose steps never go back, all between the step of the first
world and the step of the second. -/
def Forward (w w' : World) : Prop :=
  codeRank w.step ≤ codeRank w'.step ∧ ∃ calls, w'.log = w.log ++ calls
    ∧ (calls.map (fun c => codeRank c.step)).Pairwise (· ≤ ·)
    ∧ ∀ c ∈ calls, codeRank w.step ≤ codeRank c.step ∧ codeRank c.step ≤ codeRank w'.step

/-- The calls of a compile task that succeeds. -/
def taskOps (request : BinCompileRequest) : List Op :=
  [.MkdirAll request.TargetDir 0o744, .Shell request.BinSourcePath (compileCommand request),
    .Chmod (Join request.TargetDir request.BinName) 0o755]

/-- The first call of a compile task. -/
def taskStart (request : BinCompileRequest) : Op := .MkdirAll request.TargetDir 0o744

/-- Whether a call runs a shell command. -/
def Op.isShell : Op → Bool
  | .Shell _ _ => true
  | _ => false

/-- Whether a call is `os.Chmod`. -/
def Op.isChmod : Op → Bool
  | .Chmod _ _ => true
  | _ => false

/-- The calls of a compile task that has run to its end with the given outcome (what it
adds to the failure counter): it stopped after `os.MkdirAll` or after the build command
with outcome 1, or made all its calls with outcome 0. -/
def taskEnded (request : BinCompileRequest) (outcome : Nat) (calls : List Call) : Prop :=
  (outcome = 1 ∧ calls.map Call.op = [taskStart request])
    ∨ (outcome = 1 ∧ calls.map Call.op
        = [taskStart request, .Shell request.BinSourcePath (compileCommand request)])
    ∨ (outcome = 0 ∧ calls.map Call.op = taskOps request)

/-- The tasks of one command, one per platform, each run to its end one after the other,
whatever the outcome of the others: what each adds to the failure counter, and the world
they leave. -/
def unitOutcomes (os : OS) (b : BuildContext) (cmdRecord : CmdRecord) :
    List PlatformItem → World → List Nat × World
  | [], w => ([], w)
  | platform :: rest, w =>
    ((compileBinary os w (compileRequest b cmdRecord platform)).1
        :: (unitOutcomes os b cmdRecord rest
            (compileBinary os w (compileRequest b cmdRecord platform)).2).1,
      (unitOutcomes os b cmdRecord rest
        (compileBinary os w (compileRequest b cmdRecord platform)).2).2)

/-- The world after the tasks of the commands of a list, command after command, all the
tasks of each run to their end. -/
def unitsRun (os : OS) (buildPlatformList : YamlBuildPlatformConfig) (b : BuildContext) :
    List CmdRecord → World → World
  | [], w => w
  | cmdRecord :: rest, w =>
    unitsRun os buildPlatformList b rest
      (unitOutcomes os b cmdRecord buildPlatformList.Platforms w).2

/-- The output path of the task of a command and a platform:
`<workingDir>/platform/<os>_<arch>/<GetBinaryname>`. -/
def binaryPath (b : BuildContext) (cmdRecord : CmdRecord) (platform : PlatformItem) : Path :=
  b.workingDir ++ [PlatformDirName, platform.Os ++ "_" ++ platform.Arch, cmdRecord.GetBinaryname]

/-- The toolchain does its part in the tasks of a session: a build command that returns
no error and prints nothing has left a regular file at its output path, and has left
alone every other regular file of the staging directory. -/
def BuildWrites (os : OS) (buildPlatformList : YamlBuildPlatformConfig) (b : BuildContext) :
    Prop :=
  ∀ (w : World), ∀ u ∈ b.ProcessList, ∀ p ∈ buildPlatformList.Platforms,
    (os.run w u.Path (compileCommand (compileRequest b u p))).err = none →
    (os.run w u.Path (compileCommand (compileRequest b u p))).out.length = 0 →
    (∃ mode data, lookup (os.run w u.Path (compileCommand (compileRequest b u p))).fs
        (binaryPath b u p) = some (.file mode data))
      ∧ ∀ q m c, b.workingDir <+: q → ¬ q <+: binaryPath b u p →
          lookup w.fs q = some (.file m c) →
          lookup (os.run w u.Path (compileCommand (compileRequest b u p))).fs q
            = some (.file m c)

/-- Every output path of a task that holds a regular file with mode 0755 in the first tree
still does in the second. -/
def StayMarked (b : BuildContext) (fs fs' : Node) : Prop :=
  ∀ q : Path, b.workingDir <+: q → q.length = b.workingDir.length + 3 →
    (∃ data, lookup fs q = some (.file 0o755 data)) →
    ∃ data, lookup fs' q = some (.file 0o755 data)

/-- The environment lets `os.Chmod` through: the call fails only for the state of the
tree. -/
def ChmodAllowed (os : OS) : Prop := ∀ w path mode, os.fault w (.Chmod path mode) = none

/-- Whether a call is `os.Create`. -/
def Op.isCreate : Op → Bool
  | .Create _ => true
  | _ => false

/-- Whether a call is one of those `copyIntoZip` makes to write an archive entry. -/
def Op.isEntry : Op → Bool
  | .ZipHeader _ _ _ => true
  | .ZipCopy _ _ => true
  | .Open _ => true
  | _ => false

/-- The call is a successful `os.Create` of the archiver: the artifact file exists, new
or truncated, from then on. -/
def Call.createdArtifact (c : Call) : Bool :=
  c.step == .archive && (c.ok && c.op.isCreate)

/-- The archiver failed after it had created the archive file: `ZipArtifact`, called for
the staging directory `dir` and the archive `far`, returned the error `err` and left the
world `w`. Its last call is the closing write of the bytes of the entries it had written;
the archive file is there, and holds these bytes when that write succeeded. -/
def ArtifactLeft (os : OS) (dir far : Path) (err : Error) (w : World) : Prop :=
  ∃ wz entries, ZipArtifact os wz dir far = (.err err, entries, w)
    ∧ ∃ m data c, lookup w.fs far = some (.file m data)
      ∧ w.log.getLast? = some c ∧ c.op = .Write far (os.zipBytes entries)
      ∧ (c.ok = true → data = os.zipBytes entries)

/-- The call is a failed write of an archive entry. -/
def Call.entryFailed (c : Call) : Bool :=
  c.step == .archive && (!c.ok && c.op.isEntry)

/-! ## Sample runs -/

/-- An environment in which nothing fails and commands print nothing. -/
def osQuiet : OS :=
  { TempDir := ["tmp"]
    fault := fun _ _ => none
    tempSuffix := fun _ _ => "123"
    run := fun w _ _ => { out := "", err := none, fs := w.fs }
    now := fun _ => "2024-01-01 00:00:00 UTC"
    readGitInfo := fun _ _ => {}
    jsonMarshal := fun _ => .ok []
    zipBytes := fun _ => [] }

/-- A machine with a project `/home/u/proj` holding one resource file. -/
def fsRun : Node :=
  .dir [("tmp", .dir []), ("home", .dir [("u", .dir [("go", .dir []),
    ("proj", .dir [("app.xml", .file 420 [1]), ("main.go", .file 420 [])])])])]

/-- The build context of `/home/u/proj`, with the project root as its only command. -/
def ctxRun : BuildContext :=
  { ProjectBaseDir := ["home", "u", "proj"], ProcessList := [{ Path := ["home", "u", "proj"] }],
    ExposeProcessName := "proj", procType := procTypeGeneral }

/-- The environment of the sample runs. -/
def envRun : Env := { GOPATH := "/home/u/go", cwd := ["home", "u", "proj"] }

/-- One target platform. -/
def platsRun : YamlBuildPlatformConfig := { Platforms := [{ Os := "linux", Arch := "amd64" }] }

/-- Two target platforms. -/
def platsTwo : YamlBuildPlatformConfig :=
  { Platforms := [{ Os := "linux", Arch := "amd64" }, { Os := "linux", Arch := "arm64" }] }

/-- The build context of `/proj` in `fsCommands`, with its two commands, during a session
whose staging directory is `/tmp/proj123`. -/
def ctxTwo : BuildContext :=
  { ProjectBaseDir := ["proj"]
    ProcessList := [{ Path := ["proj", "cmd", "api"] }, { Path := ["proj", "cmd", "worker"] }]
    ExposeProcessName := "proj", procType := procTypeGeneral, workingDir := ["tmp", "proj123"] }

/-! ### A machine with working tools -/

/-- The output path of a build command, the word after `-o`. -/
def buildOutput (command : String) : Option Path :=
  match (splitOn ' ' command.data).dropWhile (fun word => word != "-o".data) with
  | _ :: target :: _ => some (cleanFrom [] (pathComponents (String.mk target)))
  | _ => none

/-- What `cp -r * dst` run in the directory `wd` leaves: the entries of `wd` are put in
the directory `dst`. -/
def copyTree (fs : Node) (wd dst : Path) : Node :=
  match lookup fs wd, lookup fs dst with
  | some (.dir src), some (.dir old) =>
    match updateAt fs dst
        (fun _ => .ok (some (.dir (src.foldl (fun es e => setEntry es e.1 e.2) old)))) with
    | .ok fs' => fs'
    | .error _ => fs
  | _, _ => fs

/-- The shell of a machine whose tools work: `cp -r * dst` copies, `whoami` prints the
user, and a build command writes its output file (with mode 0775, the umask being 002),
or reports that it cannot. -/
def runTools (w : World) (wd : Path) (command : String) : ShellResult :=
  if startsWith command "cp -r * " then
    { out := "", err := none
      fs := copyTree w.fs wd (cleanFrom [] (pathComponents (String.mk (command.data.drop 8)))) }
  else if command == "whoami" then { out := "u\n", err := none, fs := w.fs }
  else
    match buildOutput command with
    | some target =>
      match writeNode w.fs target 0o775 [127, 69, 76, 70] with
      | .ok fs' => { out := "", err := none, fs := fs' }
      | .error _ =>
        { out := "go build: cannot write output\n", err := some (.exitError "exit status 1")
          fs := w.fs }
    | none => { out := "", err := some (.exitError "exit status 127"), fs := w.fs }

/-- An environment in which no call fails for a reason outside the tree and the tools
work; the bytes of an archive are, entry after entry, the name and the content. -/
def osTools : OS :=
  { osQuiet with
    run := runTools
    jsonMarshal := fun _ => .ok [123, 125]
    zipBytes := fun entries => entries.flatMap (fun e => e.Name.data.map Char.toNat ++ e.Data) }

/-- An environment like `osTools` in which the build of `api` for `linux/amd64` fails:
the compiler prints that the build constraints exclude all Go files. -/
def osNoAmd : OS :=
  { osTools with
    run := fun w wd command =>
      if command == "GOOS=linux GOARCH=amd64 go build -o /tmp/proj123/platform/linux_amd64/api"
      then
        { out := "package proj/cmd/api: build constraints exclude all Go files in /proj/cmd/api\n"
          err := some (.exitError "exit status 1"), fs := w.fs }
      else runTools w wd command }

/-- A machine with a project `/home/u/proj` that keeps its resources in `resources`: a
file `app.xml` and a directory `conf` without write permission, holding `db.xml`. -/
def fsReadOnly : Node :=
  .dir [("tmp", .dir []), ("home", .dir [("u", .dir [("go", .dir []),
    ("proj", .dir [("main.go", .file 420 []),
      ("resources", .dir [("app.xml", .file 420 [1]),
        ("conf", .dir [("db.xml", .file 420 [2])])])])])])]

/-- A machine with a project `/home/u/proj` that keeps its resources in `resources`: a
file `app.xml`, and `link.xml`, a symbolic link whose target is missing (an entry that is
not a directory). -/
def fsLinked : Node :=
  .dir [("tmp", .dir []), ("home", .dir [("u", .dir [("go", .dir []),
    ("proj", .dir [("main.go", .file 420 []),
      ("resources", .dir [("app.xml", .file 420 [1]), ("link.xml", .file 511 [])])])])])]

/-- The build context of `/home/u/proj` with its resource directory. -/
def ctxResources : BuildContext :=
  { ProjectBaseDir := ["home", "u", "proj"]
    ResourceDir := some ["home", "u", "proj", "resources"]
    ProcessList := [{ Path := ["home", "u", "proj"] }]
    ExposeProcessName := "proj", procType := procTypeGeneral }

/-- An environment like `osTools` in which `os.RemoveAll` fails with `EACCES`: nothing
can be unlinked in a directory without write permission, as the copy of `conf` that
`cp -r` made in the staging directory. -/
def osReadOnly : OS :=
  { osTools with
    fault := fun _ op =>
      match op with
      | .RemoveAll _ => some .EACCES
      | _ => none }

/-- An environment like `osTools` in which `os.Open` of `link.xml`, which follows the
link, fails with `ENOENT`. -/
def osDangling : OS :=
  { osTools with
    fault := fun _ op =>
      match op with
      | .Open path => if Base path == "link.xml" then some .ENOENT else none
      | _ => none }

/-- The environment of a session started in the repository of `fsGit`. -/
def envRepo : Env := { GOPATH := "/home/u/go", cwd := ["home", "u", "work", "repo"] }

/-- The build context `NewBuildContext` makes for the process `repo` in `fsGit`. -/
def ctxRepo : BuildContext :=
  { ProjectBaseDir := ["home", "u", "work", "repo"], GitSupport := true
    ProcessList := [{ Path := ["home", "u", "work", "repo"] }]
    ExposeProcessName := "repo", procType := procTypeGeneral }

/-- An environment in which `os.Stat` of `repo.ui.xml` fails with an error other than
not-exist (`ELOOP`, as for a symbolic link that points to itself). -/
def osStatFault : OS :=
  { osQuiet with
    fault := fun _ op =>
      match op with
      | .Stat path => if Base path == "repo.ui.xml" then some .ELOOP else none
      | _ => none }

/-! ## Reading the manifest -/

/-- The value of a key of a JSON object. -/
def Json.get? : Json → String → Option Json
  | .obj fields, key => fields.lookup key
  | .str _, _ => none

/-- What `createDeployment` gets from `whoami`: its output and its error. -/
def whoamiResult (os : OS) (env : Env) (w : World) : String × Option Error :=
  ((ExecuteShell os (w.enter .manifest) env.cwd "whoami").1,
    (ExecuteShell os (w.enter .manifest) env.cwd "whoami").2.1)

/-- What `createDeployment` gets from the source-control read; there is none without
`GitSupport`. -/
def gitResult (os : OS) (env : Env) (b : BuildContext) (w : World) : GitInfo :=
  if b.GitSupport then
    os.readGitInfo (ExecuteShell os (w.enter .manifest) env.cwd "whoami").2.2 b.ProjectBaseDir
  else {}

/-! ## Reading the archive -/

/-- The name an archive entry has for the object at the path `rel` from the staging
directory: the separator and then the path, nothing for the staging directory itself, and
a closing separator for a directory. -/
def archiveName (rel : Path) (isDir : Bool) : String :=
  (if rel = [] then "" else "/" ++ "/".intercalate rel) ++ (if isDir then "/" else "")

/-- The path of an object relative to the staging directory, with a closing separator
for a directory: the entry name as the specification words it. -/
def specEntryName (rel : Path) (isDir : Bool) : String :=
  "/".intercalate rel ++ (if isDir then "/" else "")

/-- A staging directory `/tmp/stage` with two resource files in it, one of them called
`platform.xml`, and one compiled command below `platform`; `/out` is where the archive
goes. -/
def fsStaged : Node :=
  .dir [("tmp", .dir [("stage", .dir [
      ("app.xml", .file 420 [60, 97, 47, 62]),
      ("platform", .dir [("linux_amd64", .dir [("app", .file 493 [127, 69, 76, 70])])]),
      ("platform.xml", .file 420 [60, 112, 47, 62])])]),
    ("out", .dir [])]

/-! ## Basic facts -/

theorem lookup_append (fs : Node) (p q : Path) :
    lookup fs (p ++ q) = q.foldl (fun cur name => cur.bind (fun n => n.child name)) (lookup fs p) := by
  simp [lookup, List.foldl_append]

theorem lookup_join (fs : Node) (p : Path) (name : String) :
    lookup fs (Join p name) = (lookup fs p).bind (fun n => n.child name) := by
  simp [Join, lookup_append]

theorem hasTargetDir_of_lookup (targetDir : String) (es : List (String × Node))
    (sub : List (String × Node)) (h : es.lookup targetDir = some (.dir sub)) :
    hasTargetDir targetDir es = true := by
  induction es with
  | nil => simp at h
  | cons e rest ih =>
    obtain ⟨name, n⟩ := e
    by_cases hn : targetDir = name
    · subst hn
      simp [List.lookup] at h
      simp [hasTargetDir, h, Node.isDir]
    · have hn2 : (targetDir == name) = false := by simpa using hn
      have hn3 : ¬ name = targetDir := fun h => hn h.symm
      simp [List.lookup, hn2] at h
      simp [hasTargetDir, hn3, ih h]

theorem Base_Join (p : Path) (name : String) : Base (Join p name) = name := by
  simp [Base, Join]

theorem FindDirectory_direct (fs : Node) (baseDir : Path) (targetDir : String)
    (sub : List (String × Node))
    (h : lookup fs (Join baseDir targetDir) = some (.dir sub)) :
    FindDirectory fs baseDir targetDir = .ok (Join baseDir targetDir) := by
  rw [lookup_join] at h
  cases hb : lookup fs baseDir with
  | none => simp [hb] at h
  | some n =>
    cases n with
    | file m c => simp [hb, Node.child] at h
    | dir es =>
      simp only [hb, Option.some_bind, Node.child] at h
      simp [FindDirectory, hb, FindDirectoryNode, hasTargetDir_of_lookup targetDir es sub h]

theorem FindSubDirectories_dir (fs : Node) (baseDir : Path) (es : List (String × Node))
    (h : lookup fs baseDir = some (.dir es)) :
    FindSubDirectories fs baseDir = (subdirNames es).map (fun name => Join baseDir name) := by
  simp only [FindSubDirectories, ReadDir, h, listing, subdirNames]
  induction es generalizing fs baseDir with
  | nil => simp
  | cons e rest ih =>
    simp only [List.map_cons, List.filter_cons]
    cases hd : e.2.isDir <;> simp [List.filter_map, Function.comp_def]

theorem foldl_child_none (p : Path) :
    p.foldl (fun cur name => cur.bind (fun (n : Node) => n.child name)) none = none := by
  induction p with
  | nil => rfl
  | cons a p ih => simpa using ih

theorem lookup_cons (n : Node) (name : String) (p : Path) :
    lookup n (name :: p) = (n.child name).bind (fun c => lookup c p) := by
  cases hc : n.child name with
  | none => simp [lookup, hc, foldl_child_none]
  | some c => simp [lookup, hc]

theorem lookup_append_bind (fs : Node) (p q : Path) :
    lookup fs (p ++ q) = (lookup fs p).bind (fun n => lookup n q) := by
  rw [lookup_append]
  cases hp : lookup fs p with
  | none => simp [foldl_child_none]
  | some n => simp [lookup]

theorem lookup_of_mem_nodup (es : List (String × Node)) (name : String) (n : Node)
    (hnd : (es.map Prod.fst).Nodup) (hm : (name, n) ∈ es) : es.lookup name = some n := by
  induction es with
  | nil => simp at hm
  | cons e rest ih =>
    obtain ⟨name', n'⟩ := e
    simp only [List.map_cons, List.nodup_cons, List.mem_map, not_exists, not_and] at hnd
    rcases List.mem_cons.1 hm with h | h
    · cases h
      simp [List.lookup]
    · have hne : ¬ name' = name := by
        intro heq
        exact hnd.1 (name, n) h heq.symm
      have hne2 : (name == name') = false := by
        simpa using fun h => hne h.symm
      simp [List.lookup, hne2, ih hnd.2 h]

theorem hasTargetDir_false (targetDir : String) (es : List (String × Node))
    (h : ∀ n, (targetDir, n) ∈ es → n.isDir = false) : hasTargetDir targetDir es = false := by
  induction es with
  | nil => rfl
  | cons e rest ih =>
    obtain ⟨name, n⟩ := e
    have ih2 := ih (fun n hn => h n (List.mem_cons_of_mem _ hn))
    by_cases hn : name = targetDir
    · subst hn
      have := h n (List.mem_cons_self _ _)
      simp [hasTargetDir, this, ih2]
    · simp [hasTargetDir, hn, ih2]

theorem WFList_mem (es : List (String × Node)) (h : Node.WFList es) :
    ∀ e ∈ es, e.2.WF := by
  induction es with
  | nil => simp
  | cons e rest ih =>
    obtain ⟨name, n⟩ := e
    simp only [Node.WFList] at h
    intro e he
    rcases List.mem_cons.1 he with h1 | h1
    · subst h1
      exact h.1
    · exact ih h.2 e h1

theorem mem_of_lookup (es : List (String × Node)) (name : String) (c : Node)
    (hc : es.lookup name = some c) : (name, c) ∈ es := by
  induction es with
  | nil => simp at hc
  | cons e rest ih =>
    obtain ⟨a, b⟩ := e
    by_cases hab : name = a
    · subst hab
      simp [List.lookup] at hc
      simp [hc]
    · have : (name == a) = false := by simpa using hab
      simp only [List.lookup, this] at hc
      exact List.mem_cons_of_mem _ (ih hc)

theorem hasDirNamedList_of_mem (targetDir : String) (es : List (String × Node))
    (name : String) (c : Node) (hm : (name, c) ∈ es)
    (h : (name == targetDir && c.isDir) = true ∨ hasDirNamed targetDir c = true) :
    hasDirNamedList targetDir es = true := by
  induction es with
  | nil => simp at hm
  | cons e rest ih =>
    obtain ⟨a, b⟩ := e
    rcases List.mem_cons.1 hm with h1 | h1
    · cases h1
      rcases h with h | h <;> simp [hasDirNamedList, h]
    · simp [hasDirNamedList, ih h1]

theorem noDirNamed_of_hasDirNamed (targetDir : String) (rel : Path) :
    ∀ n : Node, hasDirNamed targetDir n = false →
      ∀ es, lookup n (rel ++ [targetDir]) ≠ some (.dir es) := by
  induction rel with
  | nil =>
    intro n hn es hl
    cases n with
    | file m c => simp [lookup, Node.child] at hl
    | dir es0 =>
      simp only [List.nil_append, lookup, List.foldl_cons, List.foldl_nil, Option.some_bind,
        Node.child] at hl
      have := hasDirNamedList_of_mem targetDir es0 targetDir (.dir es) (mem_of_lookup _ _ _ hl)
        (Or.inl (by simp [Node.isDir]))
      simp [hasDirNamed, this] at hn
  | cons name rel ih =>
    intro n hn es hl
    rw [List.cons_append, lookup_cons] at hl
    cases n with
    | file m c => simp [Node.child] at hl
    | dir es0 =>
      cases hc : es0.lookup name with
      | none => simp [Node.child, hc] at hl
      | some c =>
        simp only [Node.child, hc, Option.some_bind] at hl
        cases hh : hasDirNamed targetDir c with
        | false => exact ih c hh es hl
        | true =>
          have := hasDirNamedList_of_mem targetDir es0 name c (mem_of_lookup _ _ _ hc)
            (Or.inr hh)
          simp [hasDirNamed, this] at hn

theorem noDirNamed_child (targetDir : String) (es : List (String × Node)) (name : String)
    (c : Node) (hnd : (es.map Prod.fst).Nodup) (hm : (name, c) ∈ es)
    (h : noDirNamed targetDir (.dir es)) : noDirNamed targetDir c := by
  intro rel sub hl
  apply h (name :: rel) sub
  rw [List.cons_append, lookup_cons]
  simp [Node.child, lookup_of_mem_nodup es name c hnd hm, hl]

mutual
theorem FindDirectoryNode_error (targetDir : String) :
    ∀ (n : Node) (baseDir : Path), n.WF → noDirNamed targetDir n →
      ∃ err, FindDirectoryNode baseDir targetDir n = .error err
  | .file _ _, baseDir, _, _ => ⟨.pathError "readdirent" baseDir .ENOTDIR, by
      simp [FindDirectoryNode]⟩
  | .dir es, baseDir, hwf, h => by
    simp only [Node.WF] at hwf
    have h1 : hasTargetDir targetDir es = false := by
      apply hasTargetDir_false
      intro n hn
      cases n with
      | file m c => rfl
      | dir sub =>
        exfalso
        apply h [] sub
        simp [lookup, Node.child, lookup_of_mem_nodup es targetDir _ hwf.1 hn]
    have h2 := FindDirectoryNext_error targetDir es baseDir (fun e he =>
      ⟨WFList_mem es hwf.2 e he, noDirNamed_child targetDir es e.1 e.2 hwf.1 he h⟩)
    simpa [FindDirectoryNode, h1] using h2
theorem FindDirectoryNext_error (targetDir : String) :
    ∀ (l : List (String × Node)) (baseDir : Path),
      (∀ e ∈ l, e.2.WF ∧ noDirNamed targetDir e.2) →
      ∃ err, FindDirectoryNext baseDir targetDir l = .error err
  | [], baseDir, _ => ⟨.errorf (targetDir ++ " not found"), by simp [FindDirectoryNext]⟩
  | (name, n) :: rest, baseDir, h => by
    have hrest := FindDirectoryNext_error targetDir rest baseDir
      (fun e he => h e (List.mem_cons_of_mem _ he))
    have hn := h (name, n) (List.mem_cons_self _ _)
    obtain ⟨e1, he1⟩ := FindDirectoryNode_error targetDir n (Join baseDir name) hn.1 hn.2
    simp only [FindDirectoryNext]
    split
    · exact hrest
    · simp only [he1]
      exact hrest
end

theorem WF_lookup (p : Path) : ∀ (fs n : Node), fs.WF → lookup fs p = some n → n.WF := by
  induction p with
  | nil =>
    intro fs n hwf h
    simp [lookup] at h
    exact h ▸ hwf
  | cons name p ih =>
    intro fs n hwf h
    rw [lookup_cons] at h
    cases fs with
    | file m c => simp [Node.child] at h
    | dir es =>
      cases hc : es.lookup name with
      | none => simp [Node.child, hc] at h
      | some c =>
        simp only [Node.child, hc, Option.some_bind] at h
        simp only [Node.WF] at hwf
        have hm : (name, c) ∈ es := by
          clear h hwf ih
          induction es with
          | nil => simp at hc
          | cons e rest ih2 =>
            obtain ⟨a, b⟩ := e
            by_cases hab : name = a
            · subst hab
              simp [List.lookup] at hc
              simp [hc]
            · have : (name == a) = false := by simpa using hab
              simp only [List.lookup, this] at hc
              exact List.mem_cons_of_mem _ (ih2 hc)
        exact ih c n (WFList_mem es hwf.2 _ hm) h

theorem FindDirectory_error (fs : Node) (baseDir : Path) (targetDir : String) (hwf : fs.WF)
    (h : ∀ (rel : Path) (es : List (String × Node)),
      lookup fs (baseDir ++ rel ++ [targetDir]) ≠ some (.dir es)) :
    ∃ err, FindDirectory fs baseDir targetDir = .error err := by
  cases hb : lookup fs baseDir with
  | none => exact ⟨.pathError "open" baseDir .ENOENT, by simp [FindDirectory, hb]⟩
  | some n =>
    have hn : noDirNamed targetDir n := by
      intro rel es hl
      apply h rel es
      rw [List.append_assoc, lookup_append_bind, hb]
      simpa using hl
    obtain ⟨err, he⟩ := FindDirectoryNode_error targetDir n baseDir (WF_lookup _ fs n hwf hb) hn
    exact ⟨err, by simp [FindDirectory, hb, he]⟩

/-! ## Command discovery -/

/-- C4: when the project root directly contains the command directory `cmd`, whose listing
is `es`, `determineCmdList` sets `ProcessList` to one `CmdRecord` per immediate subdirectory
of it, in listing order (so exactly as many as there are subdirectories, plain files being
skipped), and `GetBinaryname` of each record is the name of its subdirectory. -/
theorem determineCmdList_command_directory (fs : Node) (ctx : BuildContext)
    (es : List (String × Node))
    (h : lookup fs (Join ctx.ProjectBaseDir cmdDirname) = some (.dir es)) :
    (determineCmdList fs ctx).ProcessList
        = (subdirNames es).map
            (fun name => { Path := Join (Join ctx.ProjectBaseDir cmdDirname) name })
      ∧ (determineCmdList fs ctx).ProcessList.length = (subdirNames es).length
      ∧ (determineCmdList fs ctx).ProcessList.map CmdRecord.GetBinaryname = subdirNames es := by
  have hp : (determineCmdList fs ctx).ProcessList
      = (subdirNames es).map
          (fun name => { Path := Join (Join ctx.ProjectBaseDir cmdDirname) name }) := by
    simp [determineCmdList, FindDirectory_direct fs _ _ es h, FindSubDirectories_dir fs _ es h,
      Function.comp_def]
  refine ⟨hp, ?_, ?_⟩
  · simp [hp]
  · simp [hp, Function.comp_def, CmdRecord.GetBinaryname, Base_Join]

/-- Witness of C4: a project `/proj` whose `cmd` directory holds two command directories
and a plain file. -/
theorem determineCmdList_command_directory_witness :
    lookup fsCommands (Join ["proj"] cmdDirname)
        = some (.dir [("api", .dir [("api.go", .file 420 [])]), ("README.md", .file 420 []),
            ("worker", .dir [])])
      ∧ (determineCmdList fsCommands { ProjectBaseDir := ["proj"] }).ProcessList
        = [{ Path := ["proj", "cmd", "api"] }, { Path := ["proj", "cmd", "worker"] }] := by
  refine ⟨rfl, ?_⟩
  have h := (determineCmdList_command_directory fsCommands { ProjectBaseDir := ["proj"] }
    [("api", .dir [("api.go", .file 420 [])]), ("README.md", .file 420 []),
      ("worker", .dir [])] rfl).1
  rw [h]
  decide

/-- C5 as stated fails: in `/proj` no `cmd` directory lies directly under the project
root, yet `FindDirectory` descends into `internal`, finds `/proj/internal/cmd`, and the
process list becomes its subdirectories instead of the project root. -/
theorem determineCmdList_root_claim_fails :
    ¬ (∀ (fs : Node) (ctx : BuildContext),
        (∀ es, lookup fs (Join ctx.ProjectBaseDir cmdDirname) ≠ some (.dir es)) →
        (determineCmdList fs ctx).ProcessList = [{ Path := ctx.ProjectBaseDir }]) := by
  intro h
  have h0 : lookup fsNested (Join ["proj"] cmdDirname) = none := rfl
  have h1 := h fsNested { ProjectBaseDir := ["proj"] } (fun es he => by simp [h0] at he)
  revert h1
  decide

/-- C5, amended: when no directory called `cmd` lies at any depth below the project root
(in a file system whose directories hold distinct names), `determineCmdList` sets
`ProcessList` to exactly one `CmdRecord`, whose `Path` is the project root. -/
theorem determineCmdList_project_root (fs : Node) (ctx : BuildContext) (hwf : fs.WF)
    (h : ∀ (rel : Path) (es : List (String × Node)),
      lookup fs (ctx.ProjectBaseDir ++ rel ++ [cmdDirname]) ≠ some (.dir es)) :
    (determineCmdList fs ctx).ProcessList = [{ Path := ctx.ProjectBaseDir }] := by
  obtain ⟨err, he⟩ := FindDirectory_error fs ctx.ProjectBaseDir cmdDirname hwf h
  simp [determineCmdList, he]

/-- Witness of the amended C5: the project `/proj` of `fsPlain` has no `cmd` directory at
any depth, and its process list is the project root alone. -/
theorem determineCmdList_project_root_witness :
    (determineCmdList fsPlain { ProjectBaseDir := ["proj"] }).ProcessList
      = [{ Path := ["proj"] }] := by
  apply determineCmdList_project_root fsPlain { ProjectBaseDir := ["proj"] }
  · simp [fsPlain, Node.WF, Node.WFList]
  · intro rel es
    have h := noDirNamed_of_hasDirNamed cmdDirname (["proj"] ++ rel) fsPlain (by decide) es
    simpa using h

/-! ## Resource scan -/

theorem Base_cons_cons (a b : String) (r : Path) : Base (a :: b :: r) = Base (b :: r) := by
  simp [Base, List.getLast?_cons_cons]

theorem lookup_file_cons (m : Nat) (c : List Nat) (a : String) (r : Path) :
    lookup (.file m c) (a :: r) = none := by
  simp [lookup_cons, Node.child]

theorem keptBelow_dir (es : List (String × Node)) (hnd : (es.map Prod.fst).Nodup) (rel : Path) :
    keptBelow (.dir es) rel ↔
      ∃ name c rel', rel = name :: rel' ∧ (name, c) ∈ es ∧ keptEntry name c rel' := by
  constructor
  · rintro ⟨hne, ⟨m, c0, hl⟩, hdots, hsuf⟩
    cases rel with
    | nil => exact absurd rfl hne
    | cons name rel' =>
      rw [lookup_cons] at hl
      cases hc : es.lookup name with
      | none => simp [Node.child, hc] at hl
      | some c =>
        simp only [Node.child, hc, Option.some_bind] at hl
        refine ⟨name, c, rel', rfl, mem_of_lookup _ _ _ hc, hdots name (List.mem_cons_self _ _), ?_⟩
        cases rel' with
        | nil =>
          left
          simp [lookup] at hl
          subst hl
          exact ⟨rfl, rfl, by simpa [Base] using hsuf⟩
        | cons a r =>
          right
          cases c with
          | file m' c' => simp [lookup_file_cons] at hl
          | dir sub =>
            refine ⟨rfl, by simp, ⟨m, c0, hl⟩, ?_, ?_⟩
            · intro comp hcomp
              exact hdots comp (List.mem_cons_of_mem _ hcomp)
            · rw [Base_cons_cons] at hsuf
              exact hsuf
  · rintro ⟨name, c, rel', rfl, hm, hdot, hk⟩
    have hc := lookup_of_mem_nodup es name c hnd hm
    rcases hk with ⟨hfile, rfl, hsuf⟩ | ⟨hdir, hne, ⟨m, c0, hl⟩, hdots, hsuf⟩
    · cases c with
      | dir sub => simp [Node.isDir] at hfile
      | file m c0 =>
        refine ⟨by simp, ⟨m, c0, ?_⟩, ?_, by simpa [Base] using hsuf⟩
        · simp [lookup, Node.child, hc]
        · simpa using hdot
    · refine ⟨by simp, ⟨m, c0, ?_⟩, ?_, ?_⟩
      · rw [lookup_cons]
        simp [Node.child, hc, hl]
      · intro comp hcomp
        rcases List.mem_cons.1 hcomp with h | h
        · exact h ▸ hdot
        · exact hdots comp h
      · cases rel' with
        | nil => exact absurd rfl hne
        | cons a r => rw [Base_cons_cons]; exact hsuf

theorem keptEntry_hidden (name : String) (c : Node) (rel : Path)
    (h : startsWithDot name = true) : ¬ keptEntry name c rel := by
  intro hk
  simp [keptEntry, h] at hk

mutual
theorem findResourceNode_spec :
    ∀ (n : Node) (baseDir : Path), n.WF → n.isDir = true →
      (findResourceNode baseDir n).2 = none ∧ (findResourceNode baseDir n).1.Nodup
        ∧ ∀ p, p ∈ (findResourceNode baseDir n).1 ↔ ∃ rel, p = baseDir ++ rel ∧ keptBelow n rel
  | .file _ _, _, _, h => by simp [Node.isDir] at h
  | .dir es, baseDir, hwf, _ => by
    simp only [Node.WF] at hwf
    obtain ⟨h1, h2, h3⟩ := findResourceLoop_spec es baseDir hwf.1 hwf.2
    simp only [findResourceNode]
    refine ⟨h1, h2, fun p => ?_⟩
    rw [h3]
    constructor
    · rintro ⟨name, c, rel, hm, rfl, hk⟩
      exact ⟨name :: rel, rfl, (keptBelow_dir es hwf.1 _).2 ⟨name, c, rel, rfl, hm, hk⟩⟩
    · rintro ⟨rel, rfl, hk⟩
      obtain ⟨name, c, rel', rfl, hm, hk'⟩ := (keptBelow_dir es hwf.1 _).1 hk
      exact ⟨name, c, rel', hm, rfl, hk'⟩
theorem findResourceLoop_spec :
    ∀ (l : List (String × Node)) (baseDir : Path), (l.map Prod.fst).Nodup → Node.WFList l →
      (findResourceLoop baseDir l).2 = none ∧ (findResourceLoop baseDir l).1.Nodup
        ∧ ∀ p, p ∈ (findResourceLoop baseDir l).1 ↔
            ∃ name c rel, (name, c) ∈ l ∧ p = baseDir ++ name :: rel ∧ keptEntry name c rel
  | [], baseDir, _, _ => by simp [findResourceLoop]
  | (name, n) :: rest, baseDir, hnd, hwf => by
    simp only [List.map_cons, List.nodup_cons] at hnd
    simp only [Node.WFList] at hwf
    obtain ⟨r1, r2, r3⟩ := findResourceLoop_spec rest baseDir hnd.2 hwf.2
    have hfresh : ∀ rel, baseDir ++ name :: rel ∉ (findResourceLoop baseDir rest).1 := by
      intro rel hp
      obtain ⟨name', c', rel', hm, heq, _⟩ := (r3 _).1 hp
      have := List.append_cancel_left heq
      simp only [List.cons.injEq] at this
      apply hnd.1
      rw [this.1]
      exact List.mem_map_of_mem Prod.fst hm
    simp only [findResourceLoop]
    cases hdot : startsWithDot name with
    | true =>
      simp only [if_true]
      refine ⟨r1, r2, fun p => ?_⟩
      rw [r3]
      constructor
      · rintro ⟨name', c', rel, hm, rfl, hk⟩
        exact ⟨name', c', rel, List.mem_cons_of_mem _ hm, rfl, hk⟩
      · rintro ⟨name', c', rel, hm, rfl, hk⟩
        rcases List.mem_cons.1 hm with h | h
        · cases h
          exact absurd hk (keptEntry_hidden _ _ _ hdot)
        · exact ⟨name', c', rel, h, rfl, hk⟩
    | false =>
      cases hd : n.isDir with
      | true =>
        obtain ⟨n1, n2, n3⟩ := findResourceNode_spec n (Join baseDir name) hwf.1 hd
        rcases hres : findResourceNode (Join baseDir name) n with ⟨found, err⟩
        rw [hres] at n1 n2 n3
        simp only at n1 n2 n3
        subst n1
        simp only [Bool.false_eq_true, if_false, if_true]
        refine ⟨r1, ?_, fun p => ?_⟩
        · rw [List.nodup_append]
          refine ⟨n2, r2, ?_⟩
          intro p hp1 hp2
          obtain ⟨rel, rfl, _⟩ := (n3 p).1 hp1
          apply hfresh rel
          simpa [Join] using hp2
        · rw [List.mem_append, n3, r3]
          constructor
          · rintro (⟨rel, rfl, hk⟩ | ⟨name', c', rel, hm, rfl, hk⟩)
            · exact ⟨name, n, rel, List.mem_cons_self _ _, by simp [Join],
                hdot, Or.inr ⟨hd, hk⟩⟩
            · exact ⟨name', c', rel, List.mem_cons_of_mem _ hm, rfl, hk⟩
          · rintro ⟨name', c', rel, hm, rfl, hk⟩
            rcases List.mem_cons.1 hm with h | h
            · cases h
              left
              rcases hk.2 with ⟨hf, _⟩ | ⟨_, hk2⟩
              · simp [hd] at hf
              · exact ⟨rel, by simp [Join], hk2⟩
            · exact Or.inr ⟨name', c', rel, h, rfl, hk⟩
      | false =>
        cases hs : hasIncludeSuffix name with
        | true =>
          simp only [Bool.false_eq_true, if_false, if_true]
          refine ⟨r1, ?_, fun p => ?_⟩
          · rw [List.nodup_cons]
            exact ⟨by simpa [Join] using hfresh [], r2⟩
          · rw [List.mem_cons, r3]
            constructor
            · rintro (rfl | ⟨name', c', rel, hm, rfl, hk⟩)
              · exact ⟨name, n, [], List.mem_cons_self _ _, rfl, hdot, Or.inl ⟨hd, rfl, hs⟩⟩
              · exact ⟨name', c', rel, List.mem_cons_of_mem _ hm, rfl, hk⟩
            · rintro ⟨name', c', rel, hm, rfl, hk⟩
              rcases List.mem_cons.1 hm with h | h
              · cases h
                left
                rcases hk.2 with ⟨_, hrel, _⟩ | ⟨hf, _⟩
                · subst hrel
                  rfl
                · simp [hd] at hf
              · exact Or.inr ⟨name', c', rel, h, rfl, hk⟩
        | false =>
          simp only [Bool.false_eq_true, if_false]
          refine ⟨r1, r2, fun p => ?_⟩
          rw [r3]
          constructor
          · rintro ⟨name', c', rel, hm, rfl, hk⟩
            exact ⟨name', c', rel, List.mem_cons_of_mem _ hm, rfl, hk⟩
          · rintro ⟨name', c', rel, hm, rfl, hk⟩
            rcases List.mem_cons.1 hm with h | h
            · cases h
              rcases hk.2 with ⟨_, _, hs2⟩ | ⟨hf, _⟩
              · simp [hs] at hs2
              · simp [hd] at hf
            · exact ⟨name', c', rel, h, rfl, hk⟩
end

theorem Base_append (p rel : Path) (h : rel ≠ []) : Base (p ++ rel) = Base rel := by
  simp [Base, List.getLast?_append_of_ne_nil _ h]

/-- C9: for a directory `baseDir` of a well-formed tree, `findResourceFromDirectory` returns
no error, lists no path twice, and lists exactly the paths `baseDir ++ rel` of regular
files such that no component of `rel` begins with a dot and the file name ends in a
suffix of `includeSuffixList` (so no directory and nothing below a hidden directory). -/
theorem findResourceFromDirectory_exact (fs : Node) (baseDir : Path)
    (es : List (String × Node)) (hwf : fs.WF) (hb : lookup fs baseDir = some (.dir es)) :
    (findResourceFromDirectory fs baseDir).2 = none
      ∧ (findResourceFromDirectory fs baseDir).1.Nodup
      ∧ ∀ p, p ∈ (findResourceFromDirectory fs baseDir).1 ↔
          ∃ rel, p = baseDir ++ rel ∧ rel ≠ []
            ∧ (∃ m c, lookup fs p = some (.file m c))
            ∧ (∀ comp ∈ rel, startsWithDot comp = false)
            ∧ ∃ s ∈ includeSuffixList, HasSuffix (Base p) s = true := by
  obtain ⟨h1, h2, h3⟩ := findResourceNode_spec (.dir es) baseDir (WF_lookup _ fs _ hwf hb) rfl
  simp only [findResourceFromDirectory, hb]
  refine ⟨h1, h2, fun p => ?_⟩
  rw [h3]
  constructor
  · rintro ⟨rel, rfl, hne, ⟨m, c, hl⟩, hdots, hsuf⟩
    refine ⟨rel, rfl, hne, ⟨m, c, ?_⟩, hdots, ?_⟩
    · rw [lookup_append_bind, hb]
      simpa using hl
    · rw [Base_append _ _ hne]
      simpa [hasIncludeSuffix] using hsuf
  · rintro ⟨rel, rfl, hne, ⟨m, c, hl⟩, hdots, hsuf⟩
    refine ⟨rel, rfl, hne, ⟨m, c, ?_⟩, hdots, ?_⟩
    · rw [lookup_append_bind, hb] at hl
      simpa using hl
    · rw [Base_append _ _ hne] at hsuf
      simpa [hasIncludeSuffix] using hsuf

/-- Witness of C9: the scan of `/proj` in `fsResources` keeps the three resource files
outside hidden entries. -/
theorem findResourceFromDirectory_exact_witness :
    findResourceFromDirectory fsResources ["proj"]
        = ([["proj", "app.properties"], ["proj", "conf", "log.xml"], ["proj", "start.sh"]], none)
      ∧ (findResourceFromDirectory fsResources ["proj"]).1.Nodup := by
  refine ⟨by decide, ?_⟩
  exact (findResourceFromDirectory_exact fsResources ["proj"] _
    (by simp [fsResources, Node.WF, Node.WFList]) rfl).2.1

/-! ## The version-control root -/

theorem listing_find (es : List (String × Node)) (target : String) :
    (listing es).find? (fun file => file.Name == target)
      = (es.lookup target).map (fun n => { Name := target, IsDir := n.isDir }) := by
  induction es with
  | nil => simp [listing]
  | cons e rest ih =>
    obtain ⟨name, n⟩ := e
    simp only [listing, List.map_cons] at ih ⊢
    by_cases h : name = target
    · subst h
      simp [List.find?, List.lookup]
    · have h2 : (target == name) = false := by simpa using fun h' => h h'.symm
      have h3 : (name == target) = false := by simpa using h
      simp [List.find?, List.lookup, h3, h2, ih]

theorem EnsureFileInDirectory_iff (fs : Node) (dir : Path) (target : String) :
    EnsureFileInDirectory fs dir target = true
      ↔ ∃ m c, lookup fs (dir ++ [target]) = some (.file m c) := by
  have hj := lookup_join fs dir target
  simp only [Join] at hj
  rw [hj]
  simp only [EnsureFileInDirectory, ReadDir]
  cases hd : lookup fs dir with
  | none => simp
  | some n =>
    cases n with
    | file m c => simp [Node.child]
    | dir es =>
      simp only [listing_find, Option.some_bind, Node.child]
      cases hc : es.lookup target with
      | none => simp
      | some c =>
        cases c with
        | file m c => simp [Node.isDir]
        | dir sub => simp [Node.isDir]

theorem gitCheck_iff (fs : Node) (dir : Path) (es : List (String × Node))
    (hd : lookup fs dir = some (.dir es)) :
    (listing es).any (fun file => file.Name == gitDirname && (file.IsDir
        && EnsureFileInDirectory fs (Join dir file.Name) gitConfigfile)) = true
      ↔ isVcsRoot fs dir := by
  have hcfg : ∀ m c, (lookup fs (dir ++ [gitDirname, gitConfigfile]) = some (.file m c)
      ↔ lookup fs (Join dir gitDirname ++ [gitConfigfile]) = some (.file m c)) := by
    intro m c
    simp [Join]
  constructor
  · intro h
    rw [List.any_eq_true] at h
    obtain ⟨file, _, hf⟩ := h
    simp only [Bool.and_eq_true, beq_iff_eq] at hf
    obtain ⟨hname, _, hens⟩ := hf
    rw [hname] at hens
    obtain ⟨m, c, hl⟩ := (EnsureFileInDirectory_iff fs _ _).1 hens
    exact ⟨m, c, (hcfg m c).2 hl⟩
  · rintro ⟨m, c, hl⟩
    have hl2 := (hcfg m c).1 hl
    have hens := (EnsureFileInDirectory_iff fs (Join dir gitDirname) gitConfigfile).2 ⟨m, c, hl2⟩
    rw [lookup_append_bind, lookup_join, hd] at hl2
    simp only [Option.some_bind, Node.child] at hl2
    cases hg : es.lookup gitDirname with
    | none => simp [hg] at hl2
    | some g =>
      cases g with
      | file m' c' => simp [hg, lookup_file_cons] at hl2
      | dir ges =>
        rw [List.any_eq_true]
        refine ⟨{ Name := gitDirname, IsDir := true }, ?_, by simp [hens]⟩
        simp only [listing, List.mem_map]
        exact ⟨(gitDirname, .dir ges), mem_of_lookup _ _ _ hg, rfl⟩

theorem gopathCheck_iff (env : Env) (dir : Path) :
    (buildGopathMap env).any (fun gopath => joinGopathSrc gopath == some dir) = true
      ↔ isGopathSrc env dir := by
  simp [isGopathSrc, List.any_eq_true]

theorem lookup_parent_dir (fs : Node) (p : Path) (a : String) (n : Node)
    (h : lookup fs (p ++ [a]) = some n) : ∃ es, lookup fs p = some (.dir es) := by
  have hj := lookup_join fs p a
  simp only [Join] at hj
  rw [hj] at h
  cases hp : lookup fs p with
  | none => simp [hp] at h
  | some q =>
    cases q with
    | file m c => simp [hp, Node.child] at h
    | dir es => exact ⟨es, rfl⟩

theorem FindGitConfig_climb (env : Env) (fs : Node) (root : Path) (hgp : env.GOPATH ≠ "")
    (hroot : isVcsRoot fs root) :
    ∀ rel : Path, (∃ es, lookup fs (root ++ rel) = some (.dir es)) →
      (∀ r, r <+: rel → r ≠ [] → ¬ isVcsRoot fs (root ++ r)) →
      (∀ r, r <+: rel → ¬ isGopathSrc env (root ++ r)) →
      ∀ fuel, rel.length < fuel → FindGitConfig env fs fuel (root ++ rel) = some (.ok root) := by
  have hlen : (env.GOPATH.length == 0) = false := by
    cases hg : env.GOPATH with
    | mk data =>
      cases data with
      | nil => exact absurd hg hgp
      | cons c cs => simp [String.length]
  intro rel
  induction rel using List.reverseRecOn with
  | nil =>
    intro hdir _ hsrc fuel hfuel
    obtain ⟨es, hes⟩ := hdir
    cases fuel with
    | zero => simp at hfuel
    | succ fuel =>
      have h1 : (buildGopathMap env).any
          (fun gopath => joinGopathSrc gopath == some (root ++ [])) = false := by
        rw [Bool.eq_false_iff, Ne, gopathCheck_iff]
        exact hsrc [] (List.prefix_refl _)
      have h2 := (gitCheck_iff fs (root ++ []) es hes).2 (by simpa using hroot)
      simp only [FindGitConfig, hlen, h1, ReadDir, hes, h2]
      simp
  | append_singleton r a ih =>
    intro hdir hnear hsrc fuel hfuel
    obtain ⟨es, hes⟩ := hdir
    cases fuel with
    | zero => simp at hfuel
    | succ fuel =>
      have h1 : (buildGopathMap env).any
          (fun gopath => joinGopathSrc gopath == some (root ++ (r ++ [a]))) = false := by
        rw [Bool.eq_false_iff, Ne, gopathCheck_iff]
        exact hsrc _ (List.prefix_refl _)
      have h2 : (listing es).any (fun file => file.Name == gitDirname && (file.IsDir
          && EnsureFileInDirectory fs (Join (root ++ (r ++ [a])) file.Name) gitConfigfile))
          = false := by
        rw [Bool.eq_false_iff, Ne, gitCheck_iff fs _ es hes]
        exact hnear _ (List.prefix_refl _) (by simp)
      have hpar : Dir (root ++ (r ++ [a])) = root ++ r := by
        simp [Dir, ← List.append_assoc, List.dropLast_concat]
      have hfuel2 : r.length < fuel := by
        simp at hfuel
        omega
      have hrec := ih (lookup_parent_dir fs (root ++ r) a (.dir es)
          (by simpa [List.append_assoc] using hes))
        (fun q hq hne => hnear q (hq.trans (List.prefix_append _ _)) hne)
        (fun q hq => hsrc q (hq.trans (List.prefix_append _ _))) fuel hfuel2
      simp only [FindGitConfig, hlen, h1, ReadDir, hes, h2, hpar, hrec]
      simp

/-- C6 as stated fails for an empty (or unset) `GOPATH`: the guard at the head of
`FindGitConfig` returns `errGopathNotFound` although the directory is a version-control
root, so the search does not return the root for every value of `GOPATH`. -/
theorem FindGitConfig_every_gopath_fails :
    ¬ (∀ (env : Env) (fs : Node) (root rel : Path),
        isVcsRoot fs root → (∃ es, lookup fs (root ++ rel) = some (.dir es)) →
        (∀ r, r <+: rel → r ≠ [] → ¬ isVcsRoot fs (root ++ r)) →
        (∀ r, r <+: rel → ¬ isGopathSrc env (root ++ r)) →
        ∃ fuel, FindGitConfig env fs fuel (root ++ rel) = some (.ok root)) := by
  intro h
  have hsrc : ∀ r : Path, ¬ isGopathSrc ⟨"", []⟩ (["home", "u", "work", "repo"] ++ r) := by
    intro r hr
    rw [← gopathCheck_iff] at hr
    revert hr
    have hm : buildGopathMap ⟨"", []⟩ = [""] := by decide
    rw [hm]
    simp [joinGopathSrc, isAbs]
  obtain ⟨fuel, hf⟩ := h ⟨"", []⟩ fsGit ["home", "u", "work", "repo"] [] ⟨420, [], rfl⟩
    ⟨_, rfl⟩ (fun r hr hne => absurd (List.prefix_nil.1 hr) hne) (fun r _ => hsrc r)
  cases fuel with
  | zero => simp [FindGitConfig] at hf
  | succ fuel => simp [FindGitConfig] at hf

/-- C6, amended: when `GOPATH` is not empty, the working directory `root ++ rel` is a
directory, `root` is the nearest version-control root at or above it, and no directory
from the working directory up to `root` is the `src` directory of a `GOPATH` entry, then
`FindGitConfig` returns `root` without error (with any fuel beyond the number of levels
climbed), and `determineProjectBaseDir` sets `ProjectBaseDir` to `root` and `GitSupport`
to true, returning no error. -/
theorem FindGitConfig_nearest_root (env : Env) (fs : Node) (root rel : Path)
    (hgp : env.GOPATH ≠ "") (hcwd : env.cwd = root ++ rel)
    (hroot : isVcsRoot fs root) (hdir : ∃ es, lookup fs (root ++ rel) = some (.dir es))
    (hnear : ∀ r, r <+: rel → r ≠ [] → ¬ isVcsRoot fs (root ++ r))
    (hsrc : ∀ r, r <+: rel → ¬ isGopathSrc env (root ++ r))
    (fuel : Nat) (hfuel : rel.length < fuel) :
    FindGitConfig env fs fuel (root ++ rel) = some (.ok root)
      ∧ ∀ ctx : BuildContext, determineProjectBaseDir env fs fuel ctx
          = some ({ ctx with ProjectBaseDir := root, GitSupport := true }, none) := by
  have h := FindGitConfig_climb env fs root hgp hroot rel hdir hnear hsrc fuel hfuel
  refine ⟨h, fun ctx => ?_⟩
  simp [determineProjectBaseDir, hcwd, h]

/-- Witness of the amended C6: from `/home/u/work/repo/pkg/util` with
`GOPATH=/home/u/go` the search climbs two levels to the repository root. -/
theorem FindGitConfig_nearest_root_witness :
    FindGitConfig ⟨"/home/u/go", ["home", "u", "work", "repo", "pkg", "util"]⟩ fsGit 3
        (["home", "u", "work", "repo"] ++ ["pkg", "util"])
      = some (.ok ["home", "u", "work", "repo"]) := by
  have hpre : ∀ r : Path, r <+: ["pkg", "util"] → r = [] ∨ r = ["pkg"] ∨ r = ["pkg", "util"] := by
    intro r hr
    have := (List.mem_inits r ["pkg", "util"]).2 hr
    simpa [List.inits] using this
  have hm : buildGopathMap ⟨"/home/u/go", ["home", "u", "work", "repo", "pkg", "util"]⟩
      = ["/home/u/go"] := by decide
  have hj : joinGopathSrc "/home/u/go" = some ["home", "u", "go", "src"] := by decide
  refine (FindGitConfig_nearest_root
    ⟨"/home/u/go", ["home", "u", "work", "repo", "pkg", "util"]⟩ fsGit
    ["home", "u", "work", "repo"] ["pkg", "util"] (by decide) rfl ⟨420, [], rfl⟩ ⟨_, rfl⟩
    ?_ ?_ 3 (by decide)).1
  · intro r hr hne
    rcases hpre r hr with h | h | h
    · exact absurd h hne
    · subst h
      rintro ⟨m, c, hl⟩
      have h0 : lookup fsGit (["home", "u", "work", "repo"] ++ ["pkg"]
          ++ [gitDirname, gitConfigfile]) = none := rfl
      rw [h0] at hl
      cases hl
    · subst h
      rintro ⟨m, c, hl⟩
      have h0 : lookup fsGit (["home", "u", "work", "repo"] ++ ["pkg", "util"]
          ++ [gitDirname, gitConfigfile]) = none := rfl
      rw [h0] at hl
      cases hl
  · intro r hr hs
    obtain ⟨gopath, hg, hjoin⟩ := hs
    rw [hm] at hg
    simp only [List.mem_singleton] at hg
    subst hg
    rw [hj] at hjoin
    rcases hpre r hr with h | h | h <;> subst h <;> simp at hjoin

/-! ## The log of a run -/

theorem Same.refl (w : World) : Same w w := ⟨rfl, [], by simp, by simp⟩

theorem Same.trans {w1 w2 w3 : World} (h1 : Same w1 w2) (h2 : Same w2 w3) : Same w1 w3 := by
  obtain ⟨s1, c1, l1, t1⟩ := h1
  obtain ⟨s2, c2, l2, t2⟩ := h2
  refine ⟨s2.trans s1, c1 ++ c2, by rw [l2, l1, List.append_assoc], ?_⟩
  intro c hc
  rcases List.mem_append.1 hc with h | h
  · exact t1 c h
  · exact (t2 c h).trans s1

theorem Same_did (w : World) (op : Op) (ok : Bool) : Same w (w.did op ok) :=
  ⟨rfl, [{ step := w.step, op := op, ok := ok }], rfl, by simp⟩

theorem Same_fs (w : World) (fs : Node) : Same w { w with fs := fs } :=
  ⟨rfl, [], by simp, by simp⟩

theorem Same_did_fs (w : World) (op : Op) (ok : Bool) (fs : Node) :
    Same w { (w.did op ok) with fs := fs } :=
  ⟨rfl, [{ step := w.step, op := op, ok := ok }], rfl, by simp⟩

theorem Same_Stat (os : OS) (w : World) (path : Path) : Same w (Stat os w path).2 := by
  unfold Stat
  split
  · exact Same_did _ _ _
  · split <;> exact Same_did _ _ _

theorem Same_change (os : OS) (w : World) (op : Op) (name : String) (path : Path)
    (result : Except Errno Node) : Same w (change os w op name path result).2 := by
  unfold change
  split
  · exact Same_did _ _ _
  · split
    · exact Same_did _ _ _
    · exact Same_did_fs _ _ _ _

theorem Same_MkdirAll (os : OS) (w : World) (path : Path) (perm : Nat) :
    Same w (MkdirAll os w path perm).2 := Same_change _ _ _ _ _ _

theorem Same_Chmod (os : OS) (w : World) (path : Path) (mode : Nat) :
    Same w (Chmod os w path mode).2 := Same_change _ _ _ _ _ _

theorem Same_WriteFile (os : OS) (w : World) (path : Path) (data : List Nat) (perm : Nat) :
    Same w (WriteFile os w path data perm).2 := Same_change _ _ _ _ _ _

theorem Same_Create (os : OS) (w : World) (path : Path) :
    Same w (Create os w path).2 := Same_change _ _ _ _ _ _

theorem Same_Open (os : OS) (w : World) (path : Path) : Same w (Open os w path).2 := by
  unfold Open
  split
  · exact Same_did _ _ _
  · split <;> exact Same_did _ _ _

theorem Same_ExecuteShell (os : OS) (w : World) (wd : Path) (command : String) :
    Same w (ExecuteShell os w wd command).2.2 := by
  unfold ExecuteShell
  split
  · exact Same.refl _
  · exact Same_did_fs _ _ _ _

theorem Same_CheckFileExist (os : OS) (w : World) (path : Path) :
    Same w (CheckFileExist os w path).2 := by
  have h := Same_Stat os w path
  unfold CheckFileExist
  split
  · rename_i err w1 heq
    rw [heq] at h
    split <;> exact h
  · rename_i isDir w1 heq
    rw [heq] at h
    exact h

theorem Same_CheckDirExist (os : OS) (w : World) (path : Path) :
    Same w (CheckDirExist os w path).2 := by
  have h := Same_Stat os w path
  unfold CheckDirExist
  split
  · rename_i err w1 heq
    rw [heq] at h
    split <;> exact h
  · rename_i isDir w1 heq
    rw [heq] at h
    split <;> exact h

theorem Same_EnsureDirectory (os : OS) (w : World) (dir : Path) :
    Same w (EnsureDirectory os w dir).2 := by
  have h := Same_Stat os w dir
  unfold EnsureDirectory
  split
  · rename_i err w1 heq
    rw [heq] at h
    split
    · exact h.trans (Same_MkdirAll _ _ _ _)
    · exact h
  · rename_i isDir w1 heq
    rw [heq] at h
    exact h

theorem Same_CopyFile (os : OS) (w : World) (src dst : Path) :
    Same w (CopyFile os w src dst).2 := by
  have h1 := Same_Open os w src
  unfold CopyFile
  split
  · rename_i err w1 heq
    rw [heq] at h1
    exact h1
  · rename_i sFile w1 heq
    rw [heq] at h1
    have h2 := Same_Create os w1 dst
    split
    · rename_i err w2 heq2
      rw [heq2] at h2
      exact h1.trans h2
    · rename_i w2 heq2
      rw [heq2] at h2
      split
      · exact h1.trans h2
      · rename_i m data
        have h3 := Same_change os w2 (.Write dst data) "write" dst (writeNode w2.fs dst 0o666 data)
        split
        · rename_i err w3 heq3
          rw [heq3] at h3
          exact (h1.trans h2).trans h3
        · rename_i w3 heq3
          rw [heq3] at h3
          split <;> exact ((h1.trans h2).trans h3).trans (Same_did _ _ _)

theorem Same_compileBinary (os : OS) (w : World) (request : BinCompileRequest) :
    Same w (compileBinary os w request).2 := by
  have h1 := Same_MkdirAll os w request.TargetDir 0o744
  unfold compileBinary
  rcases hm : MkdirAll os w request.TargetDir 0o744 with ⟨err, w1⟩
  rw [hm] at h1
  simp only
  split
  · exact h1
  · have h2 := Same_ExecuteShell os w1 request.BinSourcePath (compileCommand request)
    split
    · rename_i out e w2 heq
      rw [heq] at h2
      exact h1.trans h2
    · rename_i out w2 heq
      rw [heq] at h2
      split
      · exact h1.trans h2
      · exact (h1.trans h2).trans (Same_Chmod _ _ _ _)

theorem Same_compilePlatforms (os : OS) (b : BuildContext) (cmdRecord : CmdRecord) :
    ∀ (platforms : List PlatformItem) (compileError : Nat) (w : World),
      Same w (compilePlatforms os b cmdRecord platforms compileError w).2 := by
  intro platforms
  induction platforms with
  | nil => intro c w; exact Same.refl _
  | cons p rest ih =>
    intro c w
    simp only [compilePlatforms]
    exact (Same_compileBinary os w _).trans (ih _ _)

theorem Same_compileRecords (os : OS) (buildPlatformList : YamlBuildPlatformConfig)
    (b : BuildContext) :
    ∀ (records : List CmdRecord) (w : World),
      Same w (compileRecords os buildPlatformList b records w).2 := by
  intro records
  induction records with
  | nil => intro w; exact Same.refl _
  | cons r rest ih =>
    intro w
    simp only [compileRecords]
    have h := Same_compilePlatforms os b r buildPlatformList.Platforms 0 w
    split
    · exact h
    · exact h.trans (ih _)

theorem Same_copyResources (os : OS) (b : BuildContext) :
    ∀ (files : List Path) (w : World), Same w (copyResources os b files w).2 := by
  intro files
  induction files with
  | nil => intro w; exact Same.refl _
  | cons f rest ih =>
    intro w
    simp only [copyResources]
    have h := Same_CopyFile os w f (Join b.workingDir (Base f))
    split
    · rename_i err w1 heq
      rw [heq] at h
      exact h
    · rename_i w1 heq
      rw [heq] at h
      split
      · exact (h.trans (Same_Chmod _ _ _ _)).trans (ih _)
      · exact h.trans (ih _)

theorem Same_loadResourceFiles (os : OS) (b : BuildContext) (w : World) :
    Same w (loadResourceFiles os b w).2 := by
  unfold loadResourceFiles
  split
  · unfold loadResourceFromProject
    split
    · exact Same.refl _
    · exact Same_copyResources _ _ _ _
  · rename_i resourceDir _
    unfold loadResourceFromDesginatedDir
    have h := Same_ExecuteShell os w resourceDir ("cp -r * " ++ renderPath b.workingDir)
    split
    · rename_i out err w1 heq
      rw [heq] at h
      exact h
    · rename_i out w1 heq
      rw [heq] at h
      split <;> exact h

theorem Same_copyIntoZip (os : OS) (w : World) (archive : Path) (path : String) (f : fileMeta) :
    Same w (copyIntoZip os w archive path f).2.2 := by
  unfold copyIntoZip
  simp only
  split
  · exact Same_did _ _ _
  · have h1 := Same_did w (.ZipHeader archive path (zipEntryMode path)) true
    split
    · exact h1
    · have h2 := Same_Open os (w.did (.ZipHeader archive path (zipEntryMode path)) true) f.Path
      split
      · rename_i err w2 heq
        rw [heq] at h2
        exact h1.trans h2
      · rename_i file w2 heq
        rw [heq] at h2
        split
        · exact (h1.trans h2).trans (Same_did _ _ _)
        · split <;> exact (h1.trans h2).trans (Same_did _ _ _)

theorem Same_zipLoop (os : OS) (archive baseDir : Path) :
    ∀ (files : List fileMeta) (w : World), Same w (zipLoop os archive baseDir files w).2.2 := by
  intro files
  induction files with
  | nil => intro w; exact Same.refl _
  | cons f rest ih =>
    intro w
    simp only [zipLoop]
    have h := Same_copyIntoZip os w archive (zipEntryName baseDir f) f
    split
    · rename_i err entry w1 heq
      rw [heq] at h
      exact h
    · rename_i entry w1 heq
      rw [heq] at h
      exact h.trans (ih _)

theorem Same_closeArchive (os : OS) (w : World) (archive : Path) (entries : List ZipEntry) :
    Same w (closeArchive os w archive entries) := by
  unfold closeArchive
  split
  · exact Same_did _ _ _
  · split
    · exact Same_did_fs _ _ _ _
    · exact Same_did _ _ _

theorem Same_ZipArtifact (os : OS) (w : World) (baseDir artifactFile : Path) :
    Same w (ZipArtifact os w baseDir artifactFile).2.2 := by
  unfold ZipArtifact
  split
  · exact Same.refl _
  · rename_i n _
    have h1 := Same_Create os w artifactFile
    simp only
    split
    · rename_i err w1 heq
      rw [heq] at h1
      exact h1
    · rename_i w1 heq
      rw [heq] at h1
      have h2 := Same_zipLoop os artifactFile baseDir (walkNode baseDir n) w1
      split
      · rename_i err entries w2 heq2
        rw [heq2] at h2
        exact (h1.trans h2).trans (Same_closeArchive _ _ _ _)
      · rename_i entries w2 heq2
        rw [heq2] at h2
        exact (h1.trans h2).trans (Same_closeArchive _ _ _ _)

theorem Same_MkdirTemp (os : OS) (w : World) (pattern : String) :
    Same w (MkdirTemp os w pattern).2 := by
  unfold MkdirTemp
  simp only
  split
  · exact Same_did _ _ _
  · split
    · exact Same_did _ _ _
    · split
      · exact Same_did _ _ _
      · exact Same_did_fs _ _ _ _

theorem Same_RemoveAll (os : OS) (w : World) (path : Path) :
    Same w (RemoveAll os w path).2 := by
  unfold RemoveAll
  split
  · exact Same_did _ _ _
  · exact Same_did_fs _ _ _ _

theorem Forward.start (w : World) : Forward w w :=
  ⟨le_refl _, [], by simp, by simp, by simp⟩

theorem Forward.step {w w1 w2 : World} (s : Step) (h : Forward w w1)
    (hs : codeRank w1.step ≤ codeRank s) (h2 : Same (w1.enter s) w2) : Forward w w2 := by
  obtain ⟨r1, c1, l1, p1, b1⟩ := h
  obtain ⟨s2, c2, l2, t2⟩ := h2
  have hstep : w2.step = s := s2
  have t2' : ∀ c ∈ c2, c.step = s := t2
  refine ⟨?_, c1 ++ c2, ?_, ?_, ?_⟩
  · rw [hstep]; exact le_trans r1 hs
  · rw [l2]
    show w1.log ++ c2 = w.log ++ (c1 ++ c2)
    rw [l1, List.append_assoc]
  · rw [List.map_append, List.pairwise_append]
    refine ⟨p1, ?_, ?_⟩
    · rw [List.pairwise_map]
      have htrue : c2.Pairwise (fun _ _ => True) := List.pairwise_of_forall (fun _ _ => trivial)
      refine List.Pairwise.imp_of_mem ?_ htrue
      intro a b ha hb _
      rw [t2' a ha, t2' b hb]
    · intro x hx y hy
      obtain ⟨a, ha, rfl⟩ := List.mem_map.1 hx
      obtain ⟨c, hc, rfl⟩ := List.mem_map.1 hy
      rw [t2' c hc]
      exact le_trans (b1 a ha).2 hs
  · intro c hc
    rw [hstep]
    rcases List.mem_append.1 hc with h | h
    · exact ⟨(b1 c h).1, le_trans (b1 c h).2 hs⟩
    · rw [t2' c h]
      exact ⟨le_trans r1 hs, le_refl _⟩

theorem Step_prepareBinary (os : OS) (buildPlatformList : YamlBuildPlatformConfig)
    (b : BuildContext) (w : World) :
    Same (w.enter .compile) (prepareBinary os buildPlatformList b w).2 := by
  unfold prepareBinary
  split
  · exact Same.refl _
  · exact Same_compileRecords _ _ _ _ _

theorem Step_prepareResource (os : OS) (b : BuildContext) (w : World) :
    ∃ wm, Same (w.enter .resources) wm
      ∧ ((prepareResource os b w).2.2 = wm
        ∨ Same (wm.enter .classify) (prepareResource os b w).2.2) := by
  have h1 := Same_loadResourceFiles os b (w.enter .resources)
  unfold prepareResource
  rcases hl : loadResourceFiles os b (w.enter .resources) with ⟨err, w1⟩
  rw [hl] at h1
  refine ⟨w1, h1, ?_⟩
  cases err with
  | some e => exact Or.inl rfl
  | none =>
    right
    simp only
    have h2 := Same_CheckFileExist os (w1.enter .classify)
      (Join b.workingDir (b.ExposeProcessName ++ ".ui.xml"))
    split
    · rename_i w2 heq
      rw [heq] at h2
      exact h2
    · rename_i e w2 heq
      rw [heq] at h2
      exact h2

theorem Step_createDeployment (os : OS) (env : Env) (b : BuildContext) (w : World) :
    Same (w.enter .manifest) (createDeployment os env b w).2 := by
  have h1 := Same_ExecuteShell os (w.enter .manifest) env.cwd "whoami"
  unfold createDeployment
  simp only
  rcases hs : ExecuteShell os (w.enter .manifest) env.cwd "whoami" with ⟨user, err, w1⟩
  rw [hs] at h1
  simp only
  have h2 : Same (w.enter .manifest) (if b.GitSupport = true then
      w1.did (.GitOpen b.ProjectBaseDir)
        (if b.GitSupport = true then os.readGitInfo w1 b.ProjectBaseDir else {}).Valid
      else w1) := by
    split
    · exact h1.trans (Same_did _ _ _)
    · exact h1
  split
  · exact h2
  · split
    · rename_i e w3 heq
      have h3 := congrArg Prod.snd heq
      simp only at h3
      rw [← h3]
      exact h2.trans (Same_WriteFile _ _ _ _ _)
    · rename_i w3 heq
      have h3 := congrArg Prod.snd heq
      simp only at h3
      rw [← h3]
      exact h2.trans (Same_WriteFile _ _ _ _ _)

theorem Step_compress (os : OS) (env : Env) (b : BuildContext) (w : World) :
    Same (w.enter .archive) (compress os env b w).2.2.2 := by
  unfold compress
  simp only
  have h1 := Same_EnsureDirectory os (w.enter .archive)
    (Join (Join (gopathDir env (getGOPath env)) "far") b.ExposeProcessName)
  split
  · rename_i err w1 heq
    rw [heq] at h1
    exact h1
  · rename_i w1 heq
    rw [heq] at h1
    have h2 := Same_ZipArtifact os w1 b.workingDir
      (Join (Join (Join (gopathDir env (getGOPath env)) "far") b.ExposeProcessName)
        (b.ExposeProcessName ++ ".far"))
    split
    · rename_i err entries w2 heq2
      rw [heq2] at h2
      exact h1.trans h2
    · rename_i ret entries w2 _ heq2
      rw [heq2] at h2
      exact h1.trans h2

theorem Forward_packagingSteps (os : OS) (env : Env)
    (buildPlatformList : YamlBuildPlatformConfig) (b : BuildContext) (w : World)
    (hw : codeRank w.step ≤ 2) :
    Forward w (packagingSteps os env buildPlatformList b w).2.2
      ∧ codeRank (packagingSteps os env buildPlatformList b w).2.2.step ≤ 6 := by
  have hb := Step_prepareBinary os buildPlatformList b w
  have f1 : Forward w (prepareBinary os buildPlatformList b w).2 :=
    (Forward.start w).step .compile hw hb
  have s1 : (prepareBinary os buildPlatformList b w).2.step = .compile := hb.1
  unfold packagingSteps
  rcases hpb : prepareBinary os buildPlatformList b w with ⟨e1, w1⟩
  rw [hpb] at f1 s1
  simp only at f1 s1
  cases e1 with
  | some e => exact ⟨f1, by simp [s1, codeRank]⟩
  | none =>
    simp only
    obtain ⟨wm, hm, hr⟩ := Step_prepareResource os b w1
    have fm : Forward w wm := f1.step .resources (by simp [s1, codeRank]) hm
    have sm : wm.step = .resources := hm.1
    rcases hpr : prepareResource os b w1 with ⟨e2, b2, w2⟩
    rw [hpr] at hr
    simp only at hr
    have f2 : Forward w w2 ∧ codeRank w2.step ≤ 4 := by
      rcases hr with h | h
      · subst h
        exact ⟨fm, by simp [sm, codeRank]⟩
      · exact ⟨fm.step .classify (by simp [sm, codeRank]) h, by
          have : w2.step = .classify := h.1
          simp [this, codeRank]⟩
    cases e2 with
    | some e => exact ⟨f2.1, le_trans f2.2 (by decide)⟩
    | none =>
      simp only
      have hd := Step_createDeployment os env b2 w2
      have f3 : Forward w (createDeployment os env b2 w2).2 :=
        f2.1.step .manifest (le_trans f2.2 (by decide)) hd
      have s3 : (createDeployment os env b2 w2).2.step = .manifest := hd.1
      rcases hcd : createDeployment os env b2 w2 with ⟨e3, w3⟩
      rw [hcd] at f3 s3
      simp only at f3 s3
      cases e3 with
      | some e => exact ⟨f3, by simp [s3, codeRank]⟩
      | none =>
        simp only
        have hc := Step_compress os env b2 w3
        have f4 : Forward w (compress os env b2 w3).2.2.2 :=
          f3.step .archive (by simp [s3, codeRank]) hc
        have s4 : (compress os env b2 w3).2.2.2.step = .archive := hc.1
        exact ⟨f4, by simp [s4, codeRank]⟩

theorem Forward_Packaging (os : OS) (env : Env) (buildPlatformList : YamlBuildPlatformConfig)
    (b : BuildContext) (w : World) :
    Forward (w.enter .allocate) (Packaging os env buildPlatformList b w).2.2 := by
  have ha := Same_MkdirTemp os (w.enter .allocate) b.ExposeProcessName
  have f0 : Forward (w.enter .allocate) (MkdirTemp os (w.enter .allocate) b.ExposeProcessName).2 :=
    (Forward.start _).step .allocate (le_refl _) ha
  have s0 : (MkdirTemp os (w.enter .allocate) b.ExposeProcessName).2.step = .allocate := ha.1
  unfold Packaging
  rcases hmt : MkdirTemp os (w.enter .allocate) b.ExposeProcessName with ⟨r, w1⟩
  rw [hmt] at f0 s0
  simp only at f0 s0
  cases r with
  | error e => exact f0
  | ok dir =>
    simp only
    obtain ⟨f1, r1⟩ := Forward_packagingSteps os env buildPlatformList
      { b with workingDir := dir } w1 (by simp [s0, codeRank])
    have f2 : Forward w1 (RemoveAll os ((packagingSteps os env buildPlatformList
        { b with workingDir := dir } w1).2.2.enter .cleanup)
        (packagingSteps os env buildPlatformList
          { b with workingDir := dir } w1).2.1.workingDir).2 :=
      f1.step .cleanup (le_trans r1 (by decide)) (Same_RemoveAll _ _ _)
    obtain ⟨q1, c1, l1, p1, b1⟩ := f0
    obtain ⟨q2, c2, l2, p2, b2⟩ := f2
    refine ⟨le_trans q1 q2, c1 ++ c2, by rw [l2, l1, List.append_assoc], ?_, ?_⟩
    · rw [List.map_append, List.pairwise_append]
      refine ⟨p1, p2, ?_⟩
      intro x hx y hy
      obtain ⟨a, ha, rfl⟩ := List.mem_map.1 hx
      obtain ⟨c, hc, rfl⟩ := List.mem_map.1 hy
      exact le_trans (b1 a ha).2 (b2 c hc).1
    · intro c hc
      rcases List.mem_append.1 hc with h | h
      · exact ⟨(b1 c h).1, le_trans (b1 c h).2 q2⟩
      · exact ⟨le_trans q1 (b2 c h).1, (b2 c h).2⟩

/-- C1 as stated fails: in the sample run, with one command, the calls of the compile task
come before the calls that stage the resources and classify the process type, so the
steps of the log are not in the order of the specification. -/
theorem Packaging_spec_order_fails :
    ¬ (∀ (os : OS) (env : Env) (buildPlatformList : YamlBuildPlatformConfig)
        (b : BuildContext) (w : World), b.ProcessList ≠ [] →
        ∃ calls, (Packaging os env buildPlatformList b w).2.2.log = w.log ++ calls
          ∧ (calls.map (fun c => specRank c.step)).Pairwise (· ≤ ·)) := by
  intro h
  obtain ⟨calls, hl, hp⟩ := h osQuiet envRun platsRun ctxRun { fs := fsRun } (by decide)
  simp only [List.nil_append] at hl
  rw [← hl] at hp
  revert hp
  decide

/-- C1, amended: in every run of `Packaging` the calls are made in the order of the steps
allocate staging directory, compile binaries, stage resources, classify process type,
write the manifest, archive, and remove the staging directory: the step of the calls
never goes back in this order, so every call of a compile task is made before any
resource is staged or the process type classified. -/
theorem Packaging_step_order (os : OS) (env : Env)
    (buildPlatformList : YamlBuildPlatformConfig) (b : BuildContext) (w : World) :
    ∃ calls, (Packaging os env buildPlatformList b w).2.2.log = w.log ++ calls
      ∧ (calls.map (fun c => codeRank c.step)).Pairwise (· ≤ ·)
      ∧ ∀ c ∈ calls, codeRank Step.allocate ≤ codeRank c.step := by
  obtain ⟨_, calls, hl, hp, hb⟩ := Forward_Packaging os env buildPlatformList b w
  exact ⟨calls, hl, hp, fun c hc => (hb c hc).1⟩

/-! ## Removal of the staging directory -/

theorem lookup_eraseEntry (es : List (String × Node)) (name : String) :
    (eraseEntry es name).lookup name = none := by
  induction es with
  | nil => rfl
  | cons e rest ih =>
    obtain ⟨a, x⟩ := e
    unfold eraseEntry at ih ⊢
    by_cases h : a = name
    · subst h
      simpa [List.filter] using ih
    · have h1 : (a == name) = false := by simpa using h
      have h2 : (name == a) = false := by simpa using fun h' => h h'.symm
      simp [List.filter, h1, List.lookup, h2, ih]

theorem lookup_map_setEntry (es : List (String × Node)) (name : String) (n : Node)
    (h : (es.lookup name).isSome) :
    (es.map (fun e => if e.1 == name then (name, n) else e)).lookup name = some n := by
  induction es with
  | nil => simp at h
  | cons e rest ih =>
    obtain ⟨a, x⟩ := e
    by_cases ha : a = name
    · subst ha
      have h0 : (if ((a, x).1 == a) = true then (a, n) else (a, x)) = (a, n) := by simp
      rw [List.map_cons, h0]
      simp [List.lookup]
    · have h1 : (a == name) = false := by simpa using ha
      have h2 : (name == a) = false := by simpa using fun h' => ha h'.symm
      simp only [List.lookup, h2] at h
      have h0 : (if ((a, x).1 == name) = true then (name, n) else (a, x)) = (a, x) := by
        simp [h1]
      rw [List.map_cons, h0]
      simp only [List.lookup, h2]
      exact ih h

theorem lookup_append_new (es : List (String × Node)) (name : String) (n : Node)
    (h : es.lookup name = none) : (es ++ [(name, n)]).lookup name = some n := by
  induction es with
  | nil => simp [List.lookup]
  | cons e rest ih =>
    obtain ⟨a, x⟩ := e
    by_cases ha : name = a
    · subst ha
      simp [List.lookup] at h
    · have h2 : (name == a) = false := by simpa using ha
      simp only [List.lookup, h2] at h
      simp [List.lookup, h2, ih h]

theorem lookup_setEntry (es : List (String × Node)) (name : String) (n : Node) :
    (setEntry es name n).lookup name = some n := by
  unfold setEntry
  split
  · rename_i h
    exact lookup_map_setEntry es name n h
  · rename_i h
    exact lookup_append_new es name n (Option.not_isSome_iff_eq_none.1 h)

theorem lookup_map_ne (es : List (String × Node)) (name b : String) (n : Node)
    (h : b ≠ name) :
    (es.map (fun e => if e.1 == name then (name, n) else e)).lookup b = es.lookup b := by
  have hbn : (b == name) = false := by simpa using h
  induction es with
  | nil => rfl
  | cons e rest ih =>
    obtain ⟨a, x⟩ := e
    by_cases ha : a = name
    · subst ha
      have h0 : (if ((a, x).1 == a) = true then (a, n) else (a, x)) = (a, n) := by simp
      rw [List.map_cons, h0]
      simp only [List.lookup, hbn]
      exact ih
    · have h1 : (a == name) = false := by simpa using ha
      have h0 : (if ((a, x).1 == name) = true then (name, n) else (a, x)) = (a, x) := by
        simp [h1]
      rw [List.map_cons, h0]
      simp only [List.lookup]
      cases hba : b == a with
      | true => rfl
      | false => exact ih

theorem lookup_append_ne (es : List (String × Node)) (name b : String) (n : Node)
    (h : b ≠ name) : (es ++ [(name, n)]).lookup b = es.lookup b := by
  have hbn : (b == name) = false := by simpa using h
  induction es with
  | nil => simp [List.lookup, hbn]
  | cons e rest ih =>
    obtain ⟨a, x⟩ := e
    simp only [List.cons_append, List.lookup]
    cases hba : b == a with
    | true => rfl
    | false => exact ih

theorem lookup_setEntry_ne (es : List (String × Node)) (name b : String) (n : Node)
    (h : b ≠ name) : (setEntry es name n).lookup b = es.lookup b := by
  unfold setEntry
  split
  · exact lookup_map_ne es name b n h
  · exact lookup_append_ne es name b n h

theorem writeNode_frame (perm : Nat) (data : List Nat) :
    ∀ (a : Path) (fs fs' : Node), writeNode fs a perm data = .ok fs' →
      ∀ (p : Path) (x : Node), ¬ p <+: a → lookup fs p = some x → lookup fs' p = some x := by
  intro a
  induction a with
  | nil =>
    intro fs fs' hw p x hp hl
    cases p with
    | nil => exact absurd (List.prefix_refl _) hp
    | cons b q =>
      cases fs with
      | file m c => simp [lookup_file_cons] at hl
      | dir es => simp [writeNode, updateAt] at hw
  | cons name rest ih =>
    intro fs fs' hw p x hp hl
    cases fs with
    | file m c => simp [writeNode, updateAt] at hw
    | dir es =>
      cases p with
      | nil => exact absurd List.nil_prefix hp
      | cons b q =>
        rw [lookup_cons] at hl ⊢
        simp only [Node.child] at hl
        cases rest with
        | nil =>
          simp only [writeNode, updateAt] at hw
          by_cases hb : b = name
          · subst hb
            cases q with
            | nil => exact absurd (List.prefix_refl _) hp
            | cons q0 q1 =>
              cases hc : es.lookup b with
              | none => simp [hc] at hl
              | some c =>
                cases c with
                | file m c => simp [hc, lookup_file_cons] at hl
                | dir sub => simp [hc] at hw
          · cases hc : es.lookup name with
            | none =>
              simp only [hc] at hw
              cases hw
              simp only [Node.child, lookup_setEntry_ne es name b _ hb]
              exact hl
            | some c =>
              cases c with
              | dir sub => simp [hc] at hw
              | file m c =>
                simp only [hc] at hw
                cases hw
                simp only [Node.child, lookup_setEntry_ne es name b _ hb]
                exact hl
        | cons next rest' =>
          simp only [writeNode, updateAt] at hw
          cases hc : es.lookup name with
          | none => simp [hc] at hw
          | some c =>
            simp only [hc] at hw
            split at hw
            · cases hw
            · rename_i c' hu
              cases hw
              by_cases hb : b = name
              · subst hb
                simp only [hc, Option.some_bind] at hl
                simp only [Node.child, lookup_setEntry, Option.some_bind]
                refine ih c c' hu q x ?_ hl
                intro hq
                exact hp ((List.prefix_cons_inj b).2 hq)
              · simp only [Node.child, lookup_setEntry_ne es name b _ hb]
                exact hl

theorem lookup_removeAllNode (path : Path) :
    ∀ fs : Node, path ≠ [] → lookup (removeAllNode fs path) path = none := by
  induction path with
  | nil => intro fs h; exact absurd rfl h
  | cons name rest ih =>
    intro fs _
    cases fs with
    | file m c =>
      simp [removeAllNode, updateAt, lookup_cons, Node.child]
    | dir es =>
      cases rest with
      | nil =>
        simp [removeAllNode, updateAt, lookup_cons, Node.child, lookup_eraseEntry]
      | cons next rest =>
        have ih' := ih
        cases hc : es.lookup name with
        | none => simp [removeAllNode, updateAt, hc, lookup_cons, Node.child]
        | some c =>
          have hi := ih c (by simp)
          unfold removeAllNode at hi ⊢
          simp only [updateAt, hc]
          cases hu : updateAt c (next :: rest) (fun _ => Except.ok none) with
          | error e =>
            rw [hu] at hi
            simp only at hi
            simp only [lookup_cons _ name, Node.child, hc, Option.some_bind]
            exact hi
          | ok c' =>
            rw [hu] at hi
            simp only at hi
            simp only [lookup_cons _ name, Node.child, lookup_setEntry, Option.some_bind]
            exact hi

theorem writeNode_at (perm : Nat) (data : List Nat) :
    ∀ (a : Path) (fs fs' : Node), writeNode fs a perm data = .ok fs' →
      ∃ m, lookup fs' a = some (.file m data) := by
  intro a
  induction a with
  | nil =>
    intro fs fs' hw
    cases fs with
    | dir es => simp [writeNode, updateAt] at hw
    | file m c =>
      simp only [writeNode, updateAt, Except.ok.injEq] at hw
      subst hw
      exact ⟨m, rfl⟩
  | cons name rest ih =>
    intro fs fs' hw
    cases fs with
    | file m c => simp [writeNode, updateAt] at hw
    | dir es =>
      cases rest with
      | nil =>
        simp only [writeNode, updateAt] at hw
        cases hc : es.lookup name with
        | none =>
          simp only [hc, Except.ok.injEq] at hw
          subst hw
          exact ⟨perm, by simp [lookup_cons, Node.child, lookup_setEntry, lookup]⟩
        | some c =>
          cases c with
          | dir sub => simp [hc] at hw
          | file m c =>
            simp only [hc, Except.ok.injEq] at hw
            subst hw
            exact ⟨m, by simp [lookup_cons, Node.child, lookup_setEntry, lookup]⟩
      | cons next rest' =>
        simp only [writeNode, updateAt] at hw
        cases hc : es.lookup name with
        | none => simp [hc] at hw
        | some c =>
          simp only [hc] at hw
          split at hw
          · cases hw
          · rename_i c' hu
            cases hw
            obtain ⟨m, hm⟩ := ih c c' hu
            exact ⟨m, by simp [lookup_cons _ name, Node.child, lookup_setEntry, hm]⟩

theorem writeNode_file (perm : Nat) (data : List Nat) :
    ∀ (a : Path) (fs : Node) (m : Nat) (c : List Nat), lookup fs a = some (.file m c) →
      ∃ fs', writeNode fs a perm data = .ok fs' := by
  intro a
  induction a with
  | nil =>
    intro fs m c hl
    simp only [lookup, List.foldl_nil, Option.some.injEq] at hl
    subst hl
    exact ⟨_, rfl⟩
  | cons name rest ih =>
    intro fs m c hl
    cases fs with
    | file m' c' => simp [lookup_file_cons] at hl
    | dir es =>
      rw [lookup_cons] at hl
      simp only [Node.child] at hl
      cases hc : es.lookup name with
      | none => simp [hc] at hl
      | some x =>
        simp only [hc, Option.some_bind] at hl
        cases rest with
        | nil =>
          simp only [lookup, List.foldl_nil, Option.some.injEq] at hl
          subst hl
          exact ⟨.dir (setEntry es name (.file m data)), by simp [writeNode, updateAt, hc]⟩
        | cons next rest' =>
          obtain ⟨x', hx'⟩ := ih x m c hl
          simp only [writeNode] at hx'
          exact ⟨.dir (setEntry es name x'), by simp [writeNode, updateAt, hc, hx']⟩

theorem lookup_eraseEntry_ne (es : List (String × Node)) (name b : String) (h : b ≠ name) :
    (eraseEntry es name).lookup b = es.lookup b := by
  induction es with
  | nil => rfl
  | cons e rest ih =>
    obtain ⟨a, x⟩ := e
    unfold eraseEntry at ih ⊢
    by_cases ha : a = name
    · subst ha
      have hba : (b == a) = false := by simpa using h
      simp only [List.filter, beq_self_eq_true, Bool.not_true, List.lookup, hba]
      exact ih
    · have h1 : (a == name) = false := by simpa using ha
      simp only [List.filter, h1, Bool.not_false, List.lookup]
      cases hba : b == a with
      | true => rfl
      | false => exact ih

theorem removeAllNode_frame :
    ∀ (a : Path) (fs : Node) (p : Path) (m : Nat) (c : List Nat), ¬ a <+: p →
      lookup fs p = some (.file m c) → lookup (removeAllNode fs a) p = some (.file m c) := by
  intro a
  induction a with
  | nil =>
    intro fs p m c hp _
    exact absurd List.nil_prefix hp
  | cons name rest ih =>
    intro fs p m c hp hl
    cases fs with
    | file m' c' =>
      simpa [removeAllNode, updateAt] using hl
    | dir es =>
      cases p with
      | nil => simp [lookup] at hl
      | cons b q =>
        cases rest with
        | nil =>
          have hb : b ≠ name := by
            intro hb
            subst hb
            exact hp ((List.prefix_cons_inj b).2 List.nil_prefix)
          simp only [removeAllNode, updateAt]
          rw [lookup_cons] at hl ⊢
          simp only [Node.child, lookup_eraseEntry_ne es name b hb]
          exact hl
        | cons next rest' =>
          simp only [removeAllNode, updateAt]
          cases hc : es.lookup name with
          | none => simpa using hl
          | some x =>
            simp only
            have hi := ih x
            simp only [removeAllNode] at hi
            cases hu : updateAt x (next :: rest') (fun _ => Except.ok none) with
            | error e => simpa using hl
            | ok x' =>
              simp only
              rw [lookup_cons] at hl ⊢
              simp only [Node.child] at hl ⊢
              by_cases hb : b = name
              · subst hb
                simp only [hc, Option.some_bind] at hl
                simp only [lookup_setEntry, Option.some_bind]
                have := hi q m c (fun hq => hp ((List.prefix_cons_inj b).2 hq)) hl
                rw [hu] at this
                exact this
              · simp only [lookup_setEntry_ne es name b _ hb]
                exact hl

theorem Open_fs (os : OS) (w : World) (path : Path) : (Open os w path).2.fs = w.fs := by
  unfold Open
  split
  · rfl
  · split <;> rfl

theorem copyIntoZip_fs (os : OS) (w : World) (archive : Path) (path : String) (f : fileMeta) :
    (copyIntoZip os w archive path f).2.2.fs = w.fs := by
  unfold copyIntoZip
  simp only
  split
  · rfl
  · split
    · rfl
    · have ho := Open_fs os (w.did (.ZipHeader archive path (zipEntryMode path)) true) f.Path
      rcases hop : Open os (w.did (.ZipHeader archive path (zipEntryMode path)) true) f.Path
        with ⟨r, w2⟩
      rw [hop] at ho
      simp only at ho
      cases r with
      | error err => exact ho
      | ok file =>
        simp only
        split
        · exact ho
        · split <;> exact ho

theorem zipLoop_fs (os : OS) (archive baseDir : Path) :
    ∀ (files : List fileMeta) (w : World), (zipLoop os archive baseDir files w).2.2.fs = w.fs := by
  intro files
  induction files with
  | nil => intro w; rfl
  | cons f rest ih =>
    intro w
    have hc := copyIntoZip_fs os w archive (zipEntryName baseDir f) f
    simp only [zipLoop]
    rcases hcz : copyIntoZip os w archive (zipEntryName baseDir f) f with ⟨err, entry, w1⟩
    rw [hcz] at hc
    cases err with
    | some e => exact hc
    | none =>
      simp only
      rw [ih w1]
      exact hc

theorem closeArchive_file (os : OS) (w : World) (archive : Path) (entries : List ZipEntry)
    (m : Nat) (d : List Nat) (h : lookup w.fs archive = some (.file m d)) :
    ∃ m' data c, lookup (closeArchive os w archive entries).fs archive = some (.file m' data)
      ∧ (closeArchive os w archive entries).log.getLast? = some c
      ∧ c.op = .Write archive (os.zipBytes entries)
      ∧ (c.ok = true → data = os.zipBytes entries) := by
  unfold closeArchive
  split
  · exact ⟨m, d, ⟨w.step, .Write archive (os.zipBytes entries), false⟩, h,
      by simp [World.did], rfl, fun hc => by cases hc⟩
  · split
    · rename_i fs' hw
      obtain ⟨m', hm'⟩ := writeNode_at _ _ archive w.fs fs' hw
      exact ⟨m', _, ⟨w.step, .Write archive (os.zipBytes entries), true⟩, hm',
        by simp [World.did], rfl, fun _ => rfl⟩
    · exact ⟨m, d, ⟨w.step, .Write archive (os.zipBytes entries), false⟩, h,
        by simp [World.did], rfl, fun hc => by cases hc⟩

theorem prepareResource_workingDir (os : OS) (b : BuildContext) (w : World) :
    (prepareResource os b w).2.1.workingDir = b.workingDir := by
  unfold prepareResource
  split
  · rfl
  · simp only
    split <;> rfl

theorem compress_workingDir (os : OS) (env : Env) (b : BuildContext) (w : World) :
    (compress os env b w).2.1.workingDir = b.workingDir := by
  unfold compress
  simp only
  split
  · rfl
  · split <;> rfl

theorem packagingSteps_workingDir (os : OS) (env : Env)
    (buildPlatformList : YamlBuildPlatformConfig) (b : BuildContext) (w : World) :
    (packagingSteps os env buildPlatformList b w).2.1.workingDir = b.workingDir := by
  unfold packagingSteps
  split
  · rfl
  · rename_i w1 _
    have h2 := prepareResource_workingDir os b w1
    split
    · rename_i e b2 w2 heq
      rw [heq] at h2
      exact h2
    · rename_i b2 w2 heq
      rw [heq] at h2
      split
      · exact h2
      · rename_i w3 _
        have h4 := compress_workingDir os env b2 w3
        simp only
        rw [h4]
        exact h2

theorem MkdirTemp_ne_nil (os : OS) (w : World) (pattern : String) (dir : Path)
    (h : (MkdirTemp os w pattern).1 = .ok dir) : dir ≠ [] := by
  unfold MkdirTemp at h
  simp only at h
  split at h
  · simp at h
  · split at h
    · simp at h
    · split at h
      · simp at h
      · simp only [Except.ok.injEq] at h
        rw [← h]
        simp [Join]

/-- C3 as stated fails: the resource directory holds `conf`, a directory without write
permission, which `cp -r` copies to the staging directory with its mode. `Packaging`
returns nil; the deferred `os.RemoveAll` of the staging directory fails with `EACCES`
(nothing can be unlinked in `conf`), its error is discarded, and the staging directory
is still there when `Packaging` has returned. -/
theorem Packaging_leaves_staging :
    (MkdirTemp osReadOnly (({ fs := fsReadOnly } : World).enter .allocate)
        ctxResources.ExposeProcessName).1 = .ok ["tmp", "proj123"]
      ∧ (Packaging osReadOnly envRun platsRun ctxResources { fs := fsReadOnly }).1 = .nil
      ∧ (Packaging osReadOnly envRun platsRun ctxResources { fs := fsReadOnly }).2.2.log.getLast?
          = some { step := .cleanup, op := .RemoveAll ["tmp", "proj123"], ok := false }
      ∧ lookup (Packaging osReadOnly envRun platsRun ctxResources { fs := fsReadOnly }).2.2.fs
          ["tmp", "proj123", "conf", "db.xml"] = some (.file 420 [2])
      ∧ ¬ (∀ (os : OS) (env : Env) (buildPlatformList : YamlBuildPlatformConfig)
            (b : BuildContext) (w : World) (dir : Path),
            (MkdirTemp os (w.enter .allocate) b.ExposeProcessName).1 = .ok dir →
            lookup (Packaging os env buildPlatformList b w).2.2.fs dir = none) := by
  refine ⟨rfl, by decide, by decide, rfl, fun h => ?_⟩
  have h1 := h osReadOnly envRun platsRun ctxResources { fs := fsReadOnly } ["tmp", "proj123"]
    rfl
  have h2 : ∃ es, lookup
      (Packaging osReadOnly envRun platsRun ctxResources { fs := fsReadOnly }).2.2.fs
      ["tmp", "proj123"] = some (.dir es) := ⟨_, rfl⟩
  obtain ⟨es, h2⟩ := h2
  rw [h1] at h2
  cases h2

/-- C3, amended: in every run of `Packaging` in which the staging directory was allocated
(`os.MkdirTemp` returned `dir`), however the body ends (nil, an error of any step, or a
panic), `b.workingDir` is `dir`, what `Packaging` returns is what the body returned, and
the last call of the run is the deferred `os.RemoveAll(dir)`. That call succeeds exactly
when the environment lets it, and then no object is left at `dir`; when it fails the
error is discarded. -/
theorem Packaging_removes_staging (os : OS) (env : Env)
    (buildPlatformList : YamlBuildPlatformConfig) (b : BuildContext) (w : World) (dir : Path)
    (h : (MkdirTemp os (w.enter .allocate) b.ExposeProcessName).1 = .ok dir) :
    (Packaging os env buildPlatformList b w).2.1.workingDir = dir
      ∧ (Packaging os env buildPlatformList b w).1
          = (packagingSteps os env buildPlatformList { b with workingDir := dir }
              (MkdirTemp os (w.enter .allocate) b.ExposeProcessName).2).1
      ∧ ∃ ok, (Packaging os env buildPlatformList b w).2.2.log.getLast?
            = some { step := .cleanup, op := .RemoveAll dir, ok := ok }
          ∧ (ok = true ↔ os.fault
              ((packagingSteps os env buildPlatformList { b with workingDir := dir }
                (MkdirTemp os (w.enter .allocate) b.ExposeProcessName).2).2.2.enter .cleanup)
              (.RemoveAll dir) = none)
          ∧ (ok = true → lookup (Packaging os env buildPlatformList b w).2.2.fs dir = none) := by
  have hne := MkdirTemp_ne_nil os _ _ dir h
  rcases hmt : MkdirTemp os (w.enter .allocate) b.ExposeProcessName with ⟨r, w1⟩
  rw [hmt] at h
  simp only at h
  subst h
  have hwd := packagingSteps_workingDir os env buildPlatformList { b with workingDir := dir } w1
  simp only at hwd
  have hPk : Packaging os env buildPlatformList b w
      = ((packagingSteps os env buildPlatformList { b with workingDir := dir } w1).1,
          (packagingSteps os env buildPlatformList { b with workingDir := dir } w1).2.1,
          (RemoveAll os ((packagingSteps os env buildPlatformList
            { b with workingDir := dir } w1).2.2.enter .cleanup) dir).2) := by
    simp only [Packaging, hmt, hwd]
  rw [hPk]
  refine ⟨hwd, rfl, ?_⟩
  simp only
  unfold RemoveAll
  cases hf : os.fault ((packagingSteps os env buildPlatformList
      { b with workingDir := dir } w1).2.2.enter .cleanup) (.RemoveAll dir) with
  | some errno =>
    refine ⟨false, by simp [World.did, World.enter], by simp, fun hc => by cases hc⟩
  | none =>
    refine ⟨true, by simp [World.did, World.enter], by simp, fun _ => ?_⟩
    exact lookup_removeAllNode dir _ hne

/-- Witness of the amended C3: on a machine whose calls do not fail, the run allocates
`/tmp/proj123` and removes it. -/
theorem Packaging_removes_staging_witness :
    (MkdirTemp osTools (({ fs := fsRun } : World).enter .allocate) ctxRun.ExposeProcessName).1
        = .ok ["tmp", "proj123"]
      ∧ lookup fsRun ["tmp"] = some (.dir [])
      ∧ lookup (Packaging osTools envRun platsRun ctxRun { fs := fsRun }).2.2.fs ["tmp", "proj123"]
        = none := by
  refine ⟨rfl, rfl, ?_⟩
  obtain ⟨ok, _, hiff, hgone⟩ := (Packaging_removes_staging osTools envRun platsRun ctxRun
    { fs := fsRun } ["tmp", "proj123"] rfl).2.2
  exact hgone (hiff.2 rfl)

/-! ## Errors and the artifact -/

theorem log_did (w : World) (op : Op) (ok : Bool) :
    (w.did op ok).log = w.log ++ [{ step := w.step, op := op, ok := ok }] := rfl

theorem calls_change_error (os : OS) (w : World) (op : Op) (name : String) (path : Path)
    (result : Except Errno Node) (err : Error)
    (h : (change os w op name path result).1 = some err) :
    (change os w op name path result).2.log = w.log ++ [{ step := w.step, op := op, ok := false }] := by
  unfold change at h ⊢
  split
  · rfl
  · split
    · rfl
    · rename_i hf fs' hr
      simp [hf] at h

theorem calls_Stat (os : OS) (w : World) (path : Path) :
    ∃ ok, (Stat os w path).2.log = w.log ++ [{ step := w.step, op := .Stat path, ok := ok }] := by
  unfold Stat
  split
  · exact ⟨false, rfl⟩
  · split
    · exact ⟨false, rfl⟩
    · exact ⟨true, rfl⟩

theorem calls_change (os : OS) (w : World) (op : Op) (name : String) (path : Path)
    (result : Except Errno Node) :
    ∃ ok, (change os w op name path result).2.log
      = w.log ++ [{ step := w.step, op := op, ok := ok }] := by
  unfold change
  split
  · exact ⟨false, rfl⟩
  · split
    · exact ⟨false, rfl⟩
    · exact ⟨true, rfl⟩

theorem calls_EnsureDirectory (os : OS) (w : World) (dir : Path) :
    ∃ calls, (EnsureDirectory os w dir).2.log = w.log ++ calls
      ∧ ∀ c ∈ calls, c.op.isCreate = false := by
  obtain ⟨ok, hs⟩ := calls_Stat os w dir
  unfold EnsureDirectory
  split
  · rename_i err w1 heq
    rw [heq] at hs
    simp only at hs
    split
    · obtain ⟨ok2, hm⟩ := calls_change os w1 (.MkdirAll dir 0o755) "mkdir" dir
        (mkdirAllNode w1.fs dir)
      refine ⟨[{ step := w.step, op := .Stat dir, ok := ok },
        { step := w1.step, op := .MkdirAll dir 0o755, ok := ok2 }], ?_, ?_⟩
      · unfold MkdirAll
        rw [hm, hs]
        simp
      · intro c hc
        simp only [List.mem_cons, List.mem_singleton, List.not_mem_nil, or_false] at hc
        rcases hc with h | h <;> subst h <;> rfl
    · refine ⟨_, hs, ?_⟩
      intro c hc
      simp only [List.mem_singleton] at hc
      subst hc
      rfl
  · rename_i isDir w1 heq
    rw [heq] at hs
    refine ⟨_, hs, ?_⟩
    intro c hc
    simp only [List.mem_singleton] at hc
    subst hc
    rfl

theorem calls_Open (os : OS) (w : World) (path : Path) :
    ∃ ok, (Open os w path).2.log = w.log ++ [{ step := w.step, op := .Open path, ok := ok }]
      ∧ (Open os w path).2.step = w.step
      ∧ ∀ e, (Open os w path).1 = .error e → ok = false := by
  unfold Open
  split
  · exact ⟨false, rfl, rfl, fun _ _ => rfl⟩
  · split
    · exact ⟨true, rfl, rfl, fun e he => by simp at he⟩
    · exact ⟨false, rfl, rfl, fun _ _ => rfl⟩

theorem calls_copyIntoZip_error (os : OS) (w : World) (archive : Path) (path : String)
    (f : fileMeta) (err : Error) (h : (copyIntoZip os w archive path f).1 = some err) :
    ∃ calls, (copyIntoZip os w archive path f).2.2.log = w.log ++ calls
      ∧ ∃ c ∈ calls, c.ok = false ∧ c.op.isEntry = true := by
  unfold copyIntoZip at h ⊢
  simp only at h ⊢
  cases hf : os.fault w (.ZipHeader archive path (zipEntryMode path)) with
  | some errno =>
    exact ⟨[{ step := w.step, op := .ZipHeader archive path (zipEntryMode path), ok := false }],
      rfl, _, List.mem_singleton.2 rfl, rfl, rfl⟩
  | none =>
    simp only [hf] at h ⊢
    cases hd : f.IsDir with
    | true => simp [hd] at h
    | false =>
      simp only [hd, Bool.false_eq_true, if_false] at h ⊢
      obtain ⟨ok, hlog, hstep, hok⟩ :=
        calls_Open os (w.did (.ZipHeader archive path (zipEntryMode path)) true) f.Path
      rcases ho : Open os (w.did (.ZipHeader archive path (zipEntryMode path)) true) f.Path
        with ⟨r, w2⟩
      rw [ho] at hlog hstep hok h
      simp only at hlog hstep hok h ⊢
      cases r with
      | error e =>
        have hfalse := hok e rfl
        subst hfalse
        refine ⟨[{ step := w.step, op := .ZipHeader archive path (zipEntryMode path), ok := true },
          { step := w.step, op := .Open f.Path, ok := false }], ?_, _,
          List.mem_cons_of_mem _ (List.mem_singleton.2 rfl), rfl, rfl⟩
        simp only
        rw [hlog]
        simp [log_did, World.did]
      | ok file =>
        simp only at h ⊢
        have hcopy : ∀ okc, okc = false →
            ∃ calls, (w2.did (.ZipCopy archive f.Path) okc).log = w.log ++ calls
              ∧ ∃ c ∈ calls, c.ok = false ∧ c.op.isEntry = true := by
          intro okc hokc
          subst hokc
          refine ⟨[⟨w.step, .ZipHeader archive path (zipEntryMode path), true⟩,
            ⟨w.step, .Open f.Path, ok⟩, ⟨w2.step, .ZipCopy archive f.Path, false⟩], ?_, _,
            List.mem_cons_of_mem _ (List.mem_cons_of_mem _ (List.mem_singleton.2 rfl)),
            rfl, rfl⟩
          rw [log_did, hlog]
          simp [log_did, World.did]
        cases hfc : os.fault w2 (.ZipCopy archive f.Path) with
        | some errno =>
          simp only [hfc] at h ⊢
          exact hcopy false rfl
        | none =>
          simp only [hfc] at h ⊢
          cases file with
          | dir es => exact hcopy false rfl
          | file m data => simp at h

theorem calls_zipLoop_error (os : OS) (archive baseDir : Path) :
    ∀ (files : List fileMeta) (w : World) (err : Error),
      (zipLoop os archive baseDir files w).1 = some err →
      ∃ calls, (zipLoop os archive baseDir files w).2.2.log = w.log ++ calls
        ∧ ∃ c ∈ calls, c.ok = false ∧ c.op.isEntry = true := by
  intro files
  induction files with
  | nil => intro w err h; simp [zipLoop] at h
  | cons f rest ih =>
    intro w err h
    simp only [zipLoop] at h ⊢
    have hsame := Same_copyIntoZip os w archive (zipEntryName baseDir f) f
    have herr := calls_copyIntoZip_error os w archive (zipEntryName baseDir f) f
    rcases hc : copyIntoZip os w archive (zipEntryName baseDir f) f with ⟨e1, entry, w1⟩
    rw [hc] at hsame herr h
    simp only at hsame herr h ⊢
    cases e1 with
    | some e => exact herr e rfl
    | none =>
      simp only at h ⊢
      obtain ⟨_, c1, hl1, _⟩ := hsame
      obtain ⟨c2, hl2, c, hcm, hok, hop⟩ := ih w1 err h
      exact ⟨c1 ++ c2, by rw [hl2, hl1, List.append_assoc], c, List.mem_append_right _ hcm,
        hok, hop⟩

theorem change_ok (os : OS) (w : World) (op : Op) (name : String) (path : Path)
    (result : Except Errno Node) (w1 : World) (h : change os w op name path result = (none, w1)) :
    os.fault w op = none ∧ result = .ok w1.fs ∧ w1.log = w.log ++ [⟨w.step, op, true⟩] := by
  unfold change at h
  split at h
  · simp at h
  · rename_i hf
    split at h
    · simp at h
    · simp only [Prod.mk.injEq, true_and] at h
      subst h
      exact ⟨hf, rfl, rfl⟩

theorem calls_ZipArtifact_error (os : OS) (w : World) (baseDir artifactFile : Path)
    (e : Error) (h : (ZipArtifact os w baseDir artifactFile).1 = .err e) :
    ∃ calls, (ZipArtifact os w baseDir artifactFile).2.2.log = w.log ++ calls
      ∧ ((∀ c ∈ calls, (c.ok && c.op.isCreate) = false)
        ∨ ((∃ c ∈ calls, c.ok = false ∧ c.op.isEntry = true)
          ∧ ArtifactLeft os baseDir artifactFile e
              (ZipArtifact os w baseDir artifactFile).2.2)) := by
  cases hl : lookup w.fs baseDir with
  | none => simp [ZipArtifact, hl] at h
  | some n =>
    have hce := calls_change_error os w (.Create artifactFile) "open" artifactFile
      (writeNode w.fs artifactFile 0o666 [])
    have hcs := Same_Create os w artifactFile
    rcases hc : Create os w artifactFile with ⟨e1, w1⟩
    have hc' : change os w (.Create artifactFile) "open" artifactFile
      (writeNode w.fs artifactFile 0o666 []) = (e1, w1) := hc
    rw [hc] at hcs
    rw [hc'] at hce
    simp only at hce hcs
    cases e1 with
    | some err =>
      have hz : ZipArtifact os w baseDir artifactFile = (.err err, [], w1) := by
        simp [ZipArtifact, hl, hc]
      rw [hz]
      refine ⟨_, hce err rfl, Or.inl ?_⟩
      intro c hcm
      simp only [List.mem_singleton] at hcm
      subst hcm
      rfl
    | none =>
      have hz := calls_zipLoop_error os artifactFile baseDir (walkNode baseDir n) w1
      have hzf := zipLoop_fs os artifactFile baseDir (walkNode baseDir n) w1
      rcases hzl : zipLoop os artifactFile baseDir (walkNode baseDir n) w1
        with ⟨e2, entries, w2⟩
      rw [hzl] at hz hzf
      simp only at hz hzf
      cases e2 with
      | none => simp [ZipArtifact, hl, hc, hzl] at h
      | some err =>
        have hza : ZipArtifact os w baseDir artifactFile
            = (.err err, entries, closeArchive os w2 artifactFile entries) := by
          simp [ZipArtifact, hl, hc, hzl]
        rw [hza] at h ⊢
        simp only [Ret.err.injEq] at h
        subst h
        obtain ⟨c2, hl2, c, hcm, hok, hop⟩ := hz err rfl
        obtain ⟨_, c1, hl1, _⟩ := hcs
        obtain ⟨_, c3, hl3, _⟩ := Same_closeArchive os w2 artifactFile entries
        obtain ⟨_, hw1, _⟩ := change_ok os w _ _ _ _ w1 hc'
        obtain ⟨m0, hm0⟩ := writeNode_at _ _ artifactFile w.fs w1.fs hw1
        rw [← hzf] at hm0
        obtain ⟨m', data, cl, h1, h2, h3, h4⟩ :=
          closeArchive_file os w2 artifactFile entries m0 [] hm0
        refine ⟨c1 ++ (c2 ++ c3), ?_, Or.inr ⟨⟨c, ?_, hok, hop⟩, ?_⟩⟩
        · simp only
          rw [hl3, hl2, hl1]
          simp [List.append_assoc]
        · exact List.mem_append_right _ (List.mem_append_left _ hcm)
        · exact ⟨w, entries, hza, m', data, cl, h1, h2, h3, h4⟩

theorem calls_compress_error (os : OS) (env : Env) (b : BuildContext) (w : World) (e : Error)
    (h : (compress os env b w).1 = .err e) :
    ∃ calls, (compress os env b w).2.2.2.log = w.log ++ calls
      ∧ (∀ c ∈ calls, c.step = .archive)
      ∧ ((∀ c ∈ calls, c.createdArtifact = false)
        ∨ ((∃ c ∈ calls, c.entryFailed = true)
          ∧ ∃ err : Error, e = .errorf ("fail to compress : " ++ err.msg)
            ∧ ArtifactLeft os b.workingDir (compress os env b w).2.1.farPath err
                (compress os env b w).2.2.2)) := by
  obtain ⟨_, calls, hlog, hsteps⟩ := Step_compress os env b w
  have hsteps' : ∀ c ∈ calls, c.step = .archive := hsteps
  have hlog' : (compress os env b w).2.2.2.log = w.log ++ calls := hlog
  refine ⟨calls, hlog', hsteps', ?_⟩
  obtain ⟨ce, hle, hce⟩ := calls_EnsureDirectory os (w.enter .archive)
    (Join (Join (gopathDir env (getGOPath env)) "far") b.ExposeProcessName)
  rcases hed : EnsureDirectory os (w.enter .archive)
    (Join (Join (gopathDir env (getGOPath env)) "far") b.ExposeProcessName) with ⟨e1, w1⟩
  rw [hed] at hle
  simp only at hle
  cases e1 with
  | some err =>
    have hcp : compress os env b w
        = (.err (.errorf ("fail to prepare far dir : " ++ err.msg)), b, [], w1) := by
      simp [compress, hed]
    rw [hcp] at hlog'
    simp only at hlog'
    left
    have : calls = ce := List.append_cancel_left (hlog'.symm.trans hle)
    subst this
    intro c hc
    simp [Call.createdArtifact, hce c hc]
  | none =>
    have hz := calls_ZipArtifact_error os w1 b.workingDir
      (Join (Join (Join (gopathDir env (getGOPath env)) "far") b.ExposeProcessName)
        (b.ExposeProcessName ++ ".far"))
    rcases hza : ZipArtifact os w1 b.workingDir
      (Join (Join (Join (gopathDir env (getGOPath env)) "far") b.ExposeProcessName)
        (b.ExposeProcessName ++ ".far")) with ⟨r, entries, w2⟩
    rw [hza] at hz
    simp only at hz
    cases r with
    | nil => simp [compress, hed, hza] at h
    | panic msg => simp [compress, hed, hza] at h
    | err err =>
      have hcp : compress os env b w
          = (.err (.errorf ("fail to compress : " ++ err.msg)),
              { b with farPath := Join (Join (Join (gopathDir env (getGOPath env)) "far")
                b.ExposeProcessName) (b.ExposeProcessName ++ ".far") }, entries, w2) := by
        simp [compress, hed, hza]
      rw [hcp] at h hlog' ⊢
      simp only [Ret.err.injEq] at h
      simp only at hlog' ⊢
      obtain ⟨cz, hlz, hcz⟩ := hz err rfl
      have hcalls : calls = ce ++ cz := by
        have hboth : w.log ++ calls = w.log ++ (ce ++ cz) := by
          rw [← hlog', hlz, hle]
          simp [World.enter, List.append_assoc]
        exact List.append_cancel_left hboth
      rcases hcz with hno | ⟨⟨c, hcm, hok, hop⟩, hleft⟩
      · left
        intro c hc
        rw [hcalls] at hc
        rcases List.mem_append.1 hc with hc1 | hc2
        · simp [Call.createdArtifact, hce c hc1]
        · have := hno c hc2
          simp [Call.createdArtifact, this]
      · right
        refine ⟨⟨c, ?_, ?_⟩, err, h.symm, hleft⟩
        · rw [hcalls]
          exact List.mem_append_right _ hcm
        · have hst := hsteps' c (by rw [hcalls]; exact List.mem_append_right _ hcm)
          simp [Call.entryFailed, hst, hok, hop]

theorem createdArtifact_of_rank (c : Call) (h : codeRank c.step ≠ 6) :
    c.createdArtifact = false := by
  cases hs : c.step <;> simp [hs, codeRank] at h <;> simp [Call.createdArtifact, hs]

theorem packagingSteps_error_artifact (os : OS) (env : Env)
    (buildPlatformList : YamlBuildPlatformConfig) (b : BuildContext) (w : World) (e : Error)
    (hw : codeRank w.step ≤ 2)
    (h : (packagingSteps os env buildPlatformList b w).1 = .err e) :
    ∃ calls, (packagingSteps os env buildPlatformList b w).2.2.log = w.log ++ calls
      ∧ ((∀ c ∈ calls, c.createdArtifact = false)
        ∨ ((∃ c ∈ calls, c.entryFailed = true)
          ∧ ∃ err : Error, e = .errorf ("fail to compress : " ++ err.msg)
            ∧ ArtifactLeft os b.workingDir
                (packagingSteps os env buildPlatformList b w).2.1.farPath err
                (packagingSteps os env buildPlatformList b w).2.2)) := by
  have early : ∀ wk : World, Forward w wk → codeRank wk.step ≤ 5 →
      ∃ calls, wk.log = w.log ++ calls ∧ ∀ c ∈ calls, c.createdArtifact = false := by
    intro wk hf hr
    obtain ⟨_, calls, hl, _, hb⟩ := hf
    refine ⟨calls, hl, ?_⟩
    intro c hc
    apply createdArtifact_of_rank
    have := (hb c hc).2
    omega
  have hb := Step_prepareBinary os buildPlatformList b w
  have f1 : Forward w (prepareBinary os buildPlatformList b w).2 :=
    (Forward.start w).step .compile hw hb
  have s1 : (prepareBinary os buildPlatformList b w).2.step = .compile := hb.1
  rcases hpb : prepareBinary os buildPlatformList b w with ⟨e1, w1⟩
  rw [hpb] at f1 s1
  simp only at f1 s1
  cases e1 with
  | some e' =>
    have hP : packagingSteps os env buildPlatformList b w = (.err e', b, w1) := by
      simp [packagingSteps, hpb]
    rw [hP]
    obtain ⟨calls, hl, hno⟩ := early w1 f1 (by simp [s1, codeRank])
    exact ⟨calls, hl, Or.inl hno⟩
  | none =>
    obtain ⟨wm, hm, hr⟩ := Step_prepareResource os b w1
    have fm : Forward w wm := f1.step .resources (by simp [s1, codeRank]) hm
    have sm : wm.step = .resources := hm.1
    have hwd := prepareResource_workingDir os b w1
    rcases hpr : prepareResource os b w1 with ⟨e2, b2, w2⟩
    rw [hpr] at hr hwd
    simp only at hr hwd
    have f2 : Forward w w2 ∧ codeRank w2.step ≤ 4 := by
      rcases hr with h' | h'
      · subst h'
        exact ⟨fm, by simp [sm, codeRank]⟩
      · exact ⟨fm.step .classify (by simp [sm, codeRank]) h', by
          have : w2.step = .classify := h'.1
          simp [this, codeRank]⟩
    cases e2 with
    | some e' =>
      have hP : packagingSteps os env buildPlatformList b w = (.err e', b2, w2) := by
        simp [packagingSteps, hpb, hpr]
      rw [hP]
      obtain ⟨calls, hl, hno⟩ := early w2 f2.1 (le_trans f2.2 (by decide))
      exact ⟨calls, hl, Or.inl hno⟩
    | none =>
      have hd := Step_createDeployment os env b2 w2
      have f3 : Forward w (createDeployment os env b2 w2).2 :=
        f2.1.step .manifest (le_trans f2.2 (by decide)) hd
      have s3 : (createDeployment os env b2 w2).2.step = .manifest := hd.1
      rcases hcd : createDeployment os env b2 w2 with ⟨e3, w3⟩
      rw [hcd] at f3 s3
      simp only at f3 s3
      cases e3 with
      | some e' =>
        have hP : packagingSteps os env buildPlatformList b w = (.err e', b2, w3) := by
          simp [packagingSteps, hpb, hpr, hcd]
        rw [hP]
        obtain ⟨calls, hl, hno⟩ := early w3 f3 (by simp [s3, codeRank])
        exact ⟨calls, hl, Or.inl hno⟩
      | none =>
        have hP : packagingSteps os env buildPlatformList b w
            = ((compress os env b2 w3).1, (compress os env b2 w3).2.1,
                (compress os env b2 w3).2.2.2) := by
          simp [packagingSteps, hpb, hpr, hcd]
        rw [hP] at h ⊢
        simp only at h ⊢
        obtain ⟨c0, hl0, hc0⟩ := early w3 f3 (by simp [s3, codeRank])
        obtain ⟨cz, hlz, _, hcz⟩ := calls_compress_error os env b2 w3 e h
        refine ⟨c0 ++ cz, by rw [hlz, hl0, List.append_assoc], ?_⟩
        rcases hcz with hno | ⟨⟨c, hcm, hfail⟩, err, herr, hleft⟩
        · left
          intro c hc
          rcases List.mem_append.1 hc with h1 | h2
          · exact hc0 c h1
          · exact hno c h2
        · right
          rw [hwd] at hleft
          exact ⟨⟨c, List.mem_append_right _ hcm, hfail⟩, err, herr, hleft⟩

theorem RemoveAll_frame (os : OS) (w : World) (dir p : Path) (m : Nat) (c : List Nat)
    (hp : ¬ dir <+: p) (h : lookup w.fs p = some (.file m c)) :
    lookup (RemoveAll os w dir).2.fs p = some (.file m c) := by
  unfold RemoveAll
  split
  · exact h
  · exact removeAllNode_frame dir w.fs p m c hp h

/-- C2 as stated fails: the resource directory holds `link.xml`, a symbolic link whose
target is missing, which `cp -r` copies to the staging directory as a link. The archiver
creates the artifact file, writes the entries before the link, and fails when it opens
`link.xml`. `Packaging` returns the error `fail to compress : ...`, and the artifact
file, which was not there before the run, is left at the destination path with the
entries written up to the failure. -/
theorem Packaging_partial_artifact :
    (Packaging osDangling envRun platsRun ctxResources { fs := fsLinked }).1
        = .err (.errorf
            "fail to compress : open /tmp/proj123/link.xml: no such file or directory")
      ∧ lookup fsLinked ["home", "u", "go", "far", "proj", "proj.far"] = none
      ∧ (Packaging osDangling envRun platsRun ctxResources { fs := fsLinked }).2.1.farPath
          = ["home", "u", "go", "far", "proj", "proj.far"]
      ∧ (∃ data, data ≠ [] ∧ lookup
          (Packaging osDangling envRun platsRun ctxResources { fs := fsLinked }).2.2.fs
            ["home", "u", "go", "far", "proj", "proj.far"] = some (.file 0o666 data))
      ∧ ¬ (∀ (os : OS) (env : Env) (buildPlatformList : YamlBuildPlatformConfig)
            (b : BuildContext) (w : World) (e : Error),
            (Packaging os env buildPlatformList b w).1 = .err e →
            ∀ c ∈ (Packaging os env buildPlatformList b w).2.2.log,
              c.createdArtifact = false) := by
  refine ⟨by decide, rfl, rfl, ⟨_, ?_, rfl⟩, fun h => ?_⟩
  · decide
  · have h1 := h osDangling envRun platsRun ctxResources { fs := fsLinked }
      (.errorf "fail to compress : open /tmp/proj123/link.xml: no such file or directory")
      (by decide)
      { step := .archive, op := .Create ["home", "u", "go", "far", "proj", "proj.far"],
        ok := true }
      (by decide)
    revert h1
    decide

/-- C2, amended: when `Packaging` returns an error, the run stopped at the step that
failed (allocation, compile, resources, manifest or archive): the world is the one that
step left, with only the deferred removal of the staging directory after it. The
archiver has not created or truncated the artifact file, unless it failed after
`ZipArtifact` created the file, on the write of an archive entry: the error is then
`fail to compress : ...`, and (the artifact path not being inside the staging directory)
the artifact file is there when `Packaging` returns; the last call of `ZipArtifact` is
the closing write of the bytes of the entries written so far, and the file holds these
bytes when that write succeeded. -/
theorem Packaging_error_stops (os : OS) (env : Env)
    (buildPlatformList : YamlBuildPlatformConfig) (b : BuildContext) (w : World) (e : Error)
    (h : (Packaging os env buildPlatformList b w).1 = .err e) :
    ((∃ e0 w1, MkdirTemp os (w.enter .allocate) b.ExposeProcessName = (.error e0, w1)
        ∧ (Packaging os env buildPlatformList b w).2.2 = w1)
      ∨ ∃ dir w1, MkdirTemp os (w.enter .allocate) b.ExposeProcessName = (.ok dir, w1)
        ∧ ((∃ w2, prepareBinary os buildPlatformList { b with workingDir := dir } w1
              = (some e, w2)
            ∧ (Packaging os env buildPlatformList b w).2.2
              = (RemoveAll os (w2.enter .cleanup) dir).2)
          ∨ ∃ w2, prepareBinary os buildPlatformList { b with workingDir := dir } w1
              = (none, w2)
            ∧ ((∃ b3 w3, prepareResource os { b with workingDir := dir } w2 = (some e, b3, w3)
                ∧ (Packaging os env buildPlatformList b w).2.2
                  = (RemoveAll os (w3.enter .cleanup) dir).2)
              ∨ ∃ b3 w3, prepareResource os { b with workingDir := dir } w2 = (none, b3, w3)
                ∧ ((∃ w4, createDeployment os env b3 w3 = (some e, w4)
                    ∧ (Packaging os env buildPlatformList b w).2.2
                      = (RemoveAll os (w4.enter .cleanup) dir).2)
                  ∨ ∃ w4, createDeployment os env b3 w3 = (none, w4)
                    ∧ (compress os env b3 w4).1 = .err e
                    ∧ (Packaging os env buildPlatformList b w).2.2
                      = (RemoveAll os ((compress os env b3 w4).2.2.2.enter .cleanup) dir).2))))
      ∧ ∃ calls, (Packaging os env buildPlatformList b w).2.2.log = w.log ++ calls
        ∧ ((∀ c ∈ calls, c.createdArtifact = false)
          ∨ ((∃ c ∈ calls, c.entryFailed = true)
            ∧ ∃ err : Error, e = .errorf ("fail to compress : " ++ err.msg)
              ∧ ∃ wz entries wz',
                ZipArtifact os wz (Packaging os env buildPlatformList b w).2.1.workingDir
                    (Packaging os env buildPlatformList b w).2.1.farPath
                  = (.err err, entries, wz')
                ∧ (Packaging os env buildPlatformList b w).2.2
                  = (RemoveAll os (wz'.enter .cleanup)
                      (Packaging os env buildPlatformList b w).2.1.workingDir).2
                ∧ (¬ (Packaging os env buildPlatformList b w).2.1.workingDir
                      <+: (Packaging os env buildPlatformList b w).2.1.farPath →
                  ∃ m data c,
                    lookup (Packaging os env buildPlatformList b w).2.2.fs
                        (Packaging os env buildPlatformList b w).2.1.farPath
                      = some (.file m data)
                    ∧ wz'.log.getLast? = some c
                    ∧ c.op = .Write (Packaging os env buildPlatformList b w).2.1.farPath
                        (os.zipBytes entries)
                    ∧ (c.ok = true → data = os.zipBytes entries)))) := by
  obtain ⟨hs0, cm, hlm, hcm⟩ := Same_MkdirTemp os (w.enter .allocate) b.ExposeProcessName
  have hcm' : ∀ c ∈ cm, c.createdArtifact = false := by
    intro c hc
    apply createdArtifact_of_rank
    have : c.step = .allocate := hcm c hc
    simp [this, codeRank]
  rcases hmt : MkdirTemp os (w.enter .allocate) b.ExposeProcessName with ⟨r, w1⟩
  rw [hmt] at hs0 hlm
  simp only at hs0 hlm
  cases r with
  | error e0 =>
    have hP : (Packaging os env buildPlatformList b w).2.2 = w1 := by
      simp [Packaging, hmt]
    refine ⟨Or.inl ⟨e0, w1, rfl, hP⟩, cm, ?_, Or.inl hcm'⟩
    rw [hP, hlm]
    rfl
  | ok dir =>
    have hwd := packagingSteps_workingDir os env buildPlatformList
      { b with workingDir := dir } w1
    simp only at hwd
    have hPk : Packaging os env buildPlatformList b w
        = ((packagingSteps os env buildPlatformList { b with workingDir := dir } w1).1,
            (packagingSteps os env buildPlatformList { b with workingDir := dir } w1).2.1,
            (RemoveAll os ((packagingSteps os env buildPlatformList
              { b with workingDir := dir } w1).2.2.enter .cleanup) dir).2) := by
      simp only [Packaging, hmt, hwd]
    have hP : (Packaging os env buildPlatformList b w).2.2
        = (RemoveAll os ((packagingSteps os env buildPlatformList
            { b with workingDir := dir } w1).2.2.enter .cleanup) dir).2 := by
      rw [hPk]
    have hE : (packagingSteps os env buildPlatformList { b with workingDir := dir } w1).1
        = .err e := by
      rw [hPk] at h
      exact h
    constructor
    · right
      refine ⟨dir, w1, rfl, ?_⟩
      rw [hP]
      rcases hpb : prepareBinary os buildPlatformList { b with workingDir := dir } w1
        with ⟨e1, w2⟩
      cases e1 with
      | some e' =>
        have h1 : (packagingSteps os env buildPlatformList { b with workingDir := dir } w1)
            = (.err e', { b with workingDir := dir }, w2) := by
          simp [packagingSteps, hpb]
        rw [h1] at hE ⊢
        simp only [Ret.err.injEq] at hE
        subst hE
        exact Or.inl ⟨w2, rfl, rfl⟩
      | none =>
        right
        refine ⟨w2, rfl, ?_⟩
        rcases hpr : prepareResource os { b with workingDir := dir } w2 with ⟨e2, b3, w3⟩
        cases e2 with
        | some e' =>
          have h1 : (packagingSteps os env buildPlatformList { b with workingDir := dir } w1)
              = (.err e', b3, w3) := by
            simp [packagingSteps, hpb, hpr]
          rw [h1] at hE ⊢
          simp only [Ret.err.injEq] at hE
          subst hE
          exact Or.inl ⟨b3, w3, rfl, rfl⟩
        | none =>
          right
          refine ⟨b3, w3, rfl, ?_⟩
          rcases hcd : createDeployment os env b3 w3 with ⟨e3, w4⟩
          cases e3 with
          | some e' =>
            have h1 : (packagingSteps os env buildPlatformList { b with workingDir := dir } w1)
                = (.err e', b3, w4) := by
              simp [packagingSteps, hpb, hpr, hcd]
            rw [h1] at hE ⊢
            simp only [Ret.err.injEq] at hE
            subst hE
            exact Or.inl ⟨w4, rfl, rfl⟩
          | none =>
            have h1 : (packagingSteps os env buildPlatformList { b with workingDir := dir } w1)
                = ((compress os env b3 w4).1, (compress os env b3 w4).2.1,
                    (compress os env b3 w4).2.2.2) := by
              simp [packagingSteps, hpb, hpr, hcd]
            rw [h1] at hE ⊢
            exact Or.inr ⟨w4, rfl, hE, rfl⟩
    · have hrank : codeRank w1.step ≤ 2 := by
        rw [hs0]
        exact Nat.le_succ 1
      obtain ⟨cs, hls, hcs⟩ := packagingSteps_error_artifact os env buildPlatformList
        { b with workingDir := dir } w1 e hrank hE
      obtain ⟨hsr, cr, hlr, hcr⟩ := Same_RemoveAll os ((packagingSteps os env buildPlatformList
        { b with workingDir := dir } w1).2.2.enter .cleanup) dir
      have hcr' : ∀ c ∈ cr, c.createdArtifact = false := by
        intro c hc
        apply createdArtifact_of_rank
        have : c.step = .cleanup := hcr c hc
        simp [this, codeRank]
      refine ⟨cm ++ cs ++ cr, ?_, ?_⟩
      · rw [hP, hlr]
        simp only [World.enter]
        rw [hls, hlm]
        simp [World.enter, List.append_assoc]
      · rcases hcs with hno | ⟨⟨c, hc, hfail⟩, err, herr, hleft⟩
        · left
          intro c hc
          simp only [List.mem_append] at hc
          rcases hc with (h1 | h2) | h3
          · exact hcm' c h1
          · exact hno c h2
          · exact hcr' c h3
        · right
          refine ⟨⟨c, by simp [hc], hfail⟩, err, herr, ?_⟩
          obtain ⟨wz, entries, hZ, m, data, cl, hlook, hlast, hop, hok⟩ := hleft
          rw [hPk]
          simp only at hZ ⊢
          rw [hwd]
          refine ⟨wz, entries, _, hZ, rfl, fun hout => ?_⟩
          exact ⟨m, data, cl, RemoveAll_frame os _ dir _ m data hout hlook, hlast, hop, hok⟩

/-- Witness of the amended C2: in the run that fails on the dangling link `link.xml`, the
artifact file is left with the bytes of the entries written before the failure. -/
theorem Packaging_error_stops_witness :
    (Packaging osDangling envRun platsRun ctxResources { fs := fsLinked }).1
        = .err (.errorf
            "fail to compress : open /tmp/proj123/link.xml: no such file or directory")
      ∧ ∃ calls,
        (Packaging osDangling envRun platsRun ctxResources { fs := fsLinked }).2.2.log
          = [] ++ calls
        ∧ ((∀ c ∈ calls, c.createdArtifact = false)
          ∨ ((∃ c ∈ calls, c.entryFailed = true)
            ∧ ∃ err : Error,
              Error.errorf
                  "fail to compress : open /tmp/proj123/link.xml: no such file or directory"
                = .errorf ("fail to compress : " ++ err.msg)
              ∧ ∃ wz entries wz',
                ZipArtifact osDangling wz ["tmp", "proj123"]
                    ["home", "u", "go", "far", "proj", "proj.far"]
                  = (.err err, entries, wz')
                ∧ (Packaging osDangling envRun platsRun ctxResources { fs := fsLinked }).2.2
                  = (RemoveAll osDangling (wz'.enter .cleanup) ["tmp", "proj123"]).2
                ∧ (¬ ["tmp", "proj123"] <+: ["home", "u", "go", "far", "proj", "proj.far"] →
                  ∃ m data c,
                    lookup
                        (Packaging osDangling envRun platsRun ctxResources
                          { fs := fsLinked }).2.2.fs
                        ["home", "u", "go", "far", "proj", "proj.far"]
                      = some (.file m data)
                    ∧ wz'.log.getLast? = some c
                    ∧ c.op = .Write ["home", "u", "go", "far", "proj", "proj.far"]
                        (osDangling.zipBytes entries)
                    ∧ (c.ok = true → data = osDangling.zipBytes entries)))) :=
  ⟨by decide, (Packaging_error_stops osDangling envRun platsRun ctxResources { fs := fsLinked }
    _ (by decide)).2⟩

/-! ## Compile tasks -/

theorem compileCommand_length (request : BinCompileRequest) :
    ((compileCommand request).length == 0) = false := by
  unfold compileCommand
  simp only
  have h1 : "GOOS=".length = 5 := by decide
  have h2 : "CC=".length = 3 := by decide
  split
  · simp only [String.length_append, h1, beq_eq_false_iff_ne, ne_eq]
    omega
  · simp only [String.length_append, h2, beq_eq_false_iff_ne, ne_eq]
    omega

theorem calls_ExecuteShell (os : OS) (w : World) (wd : Path) (command : String)
    (h : (command.length == 0) = false) :
    (ExecuteShell os w wd command).2.2.log
      = w.log ++ [⟨w.step, .Shell wd command, (ExecuteShell os w wd command).2.1.isNone⟩]
      ∧ (ExecuteShell os w wd command).2.2.step = w.step := by
  unfold ExecuteShell
  simp [h, World.did]

theorem length_filter_taskOps (request : BinCompileRequest) :
    ((taskOps request).filter Op.isShell).length = 1 := rfl

theorem length_shell_flatMap (b : BuildContext) (platforms : List PlatformItem)
    (records : List CmdRecord) :
    ((records.flatMap (fun u =>
        platforms.flatMap (fun p => taskOps (compileRequest b u p)))).filter Op.isShell).length
      = records.length * platforms.length := by
  have inner : ∀ u : CmdRecord,
      ((platforms.flatMap (fun p => taskOps (compileRequest b u p))).filter Op.isShell).length
        = platforms.length := by
    intro u
    induction platforms with
    | nil => rfl
    | cons p rest ih =>
      rw [List.flatMap_cons, List.filter_append, List.length_append, ih, length_filter_taskOps,
        List.length_cons]
      omega
  induction records with
  | nil => simp
  | cons u rest ih =>
    rw [List.flatMap_cons, List.filter_append, List.length_append, ih, inner, List.length_cons]
    ring

theorem mkdirAllNode_frame :
    ∀ (path : Path) (fs fs' : Node), mkdirAllNode fs path = .ok fs' →
      ∀ (q : Path) (m : Nat) (c : List Nat), lookup fs q = some (.file m c) →
        lookup fs' q = some (.file m c) := by
  intro path
  induction path with
  | nil =>
    intro fs fs' h q m c hl
    cases fs with
    | file m' c' => simp [mkdirAllNode] at h
    | dir es =>
      simp only [mkdirAllNode, Except.ok.injEq] at h
      subst h
      exact hl
  | cons name rest ih =>
    intro fs fs' h q m c hl
    cases fs with
    | file m' c' => simp [mkdirAllNode] at h
    | dir es =>
      cases q with
      | nil => simp [lookup] at hl
      | cons b q' =>
        rw [lookup_cons] at hl ⊢
        simp only [Node.child] at hl
        simp only [mkdirAllNode] at h
        cases hc : es.lookup name with
        | some x =>
          simp only [hc] at h
          cases hr : mkdirAllNode x rest with
          | error e => simp [hr] at h
          | ok x' =>
            simp only [hr, Except.ok.injEq] at h
            subst h
            simp only [Node.child]
            by_cases hb : b = name
            · subst hb
              simp only [hc, Option.some_bind] at hl
              simp only [lookup_setEntry, Option.some_bind]
              exact ih x x' hr q' m c hl
            · rw [lookup_setEntry_ne es name b _ hb]
              exact hl
        | none =>
          simp only [hc] at h
          cases hr : mkdirAllNode (.dir []) rest with
          | error e => simp [hr] at h
          | ok x' =>
            simp only [hr, Except.ok.injEq] at h
            subst h
            simp only [Node.child]
            by_cases hb : b = name
            · subst hb
              simp [hc] at hl
            · rw [lookup_append_ne es name b _ hb]
              exact hl

theorem change_frame (os : OS) (w : World) (op : Op) (name : String) (path : Path)
    (result : Except Errno Node) (q : Path) (m : Nat) (c : List Nat)
    (hr : ∀ fs', result = .ok fs' → lookup w.fs q = some (.file m c) →
      lookup fs' q = some (.file m c))
    (h : lookup w.fs q = some (.file m c)) :
    lookup (change os w op name path result).2.fs q = some (.file m c) := by
  unfold change
  split
  · exact h
  · cases hres : result with
    | error e => exact h
    | ok fs' => exact hr fs' hres h

theorem MkdirAll_frame (os : OS) (w : World) (path : Path) (perm : Nat) (q : Path) (m : Nat)
    (c : List Nat) (h : lookup w.fs q = some (.file m c)) :
    lookup (MkdirAll os w path perm).2.fs q = some (.file m c) :=
  change_frame os w _ _ _ _ q m c (fun fs' hr hl => mkdirAllNode_frame path w.fs fs' hr q m c hl) h

theorem chmodNode_frame (mode : Nat) :
    ∀ (a : Path) (fs fs' : Node), chmodNode fs a mode = .ok fs' →
      ∀ (q : Path) (m : Nat) (c : List Nat), q ≠ a → lookup fs q = some (.file m c) →
        lookup fs' q = some (.file m c) := by
  intro a
  induction a with
  | nil =>
    intro fs fs' h q m c hq hl
    cases fs with
    | dir es =>
      simp only [chmodNode, updateAt, Except.ok.injEq] at h
      subst h
      exact hl
    | file m' c' =>
      cases q with
      | nil => exact absurd rfl hq
      | cons b q' => simp [lookup_file_cons] at hl
  | cons name rest ih =>
    intro fs fs' h q m c hq hl
    cases fs with
    | file m' c' => simp [chmodNode, updateAt] at h
    | dir es =>
      cases q with
      | nil => simp [lookup] at hl
      | cons b q' =>
        rw [lookup_cons] at hl ⊢
        simp only [Node.child] at hl
        cases rest with
        | nil =>
          simp only [chmodNode, updateAt] at h
          cases hc : es.lookup name with
          | none => simp [hc] at h
          | some x =>
            by_cases hb : b = name
            · subst hb
              simp only [hc, Option.some_bind] at hl
              cases x with
              | dir sub =>
                simp only [hc, Except.ok.injEq] at h
                subst h
                simp only [Node.child, lookup_setEntry, Option.some_bind]
                exact hl
              | file mx cx =>
                cases q' with
                | nil => exact absurd rfl hq
                | cons q0 q1 => simp [lookup_file_cons] at hl
            · cases x with
              | dir sub =>
                simp only [hc, Except.ok.injEq] at h
                subst h
                simp only [Node.child, lookup_setEntry_ne es name b _ hb]
                exact hl
              | file mx cx =>
                simp only [hc, Except.ok.injEq] at h
                subst h
                simp only [Node.child, lookup_setEntry_ne es name b _ hb]
                exact hl
        | cons next rest' =>
          simp only [chmodNode, updateAt] at h
          cases hc : es.lookup name with
          | none => simp [hc] at h
          | some x =>
            simp only [hc] at h
            split at h
            · cases h
            · rename_i x' hu
              cases h
              by_cases hb : b = name
              · subst hb
                simp only [hc, Option.some_bind] at hl
                simp only [Node.child, lookup_setEntry, Option.some_bind]
                refine ih x x' hu q' m c ?_ hl
                intro hq'
                exact hq (by rw [hq'])
              · simp only [Node.child, lookup_setEntry_ne es name b _ hb]
                exact hl

theorem chmodNode_at (mode : Nat) :
    ∀ (a : Path) (fs : Node) (m : Nat) (c : List Nat), lookup fs a = some (.file m c) →
      ∃ fs', chmodNode fs a mode = .ok fs' ∧ lookup fs' a = some (.file mode c) := by
  intro a
  induction a with
  | nil =>
    intro fs m c hl
    simp only [lookup, List.foldl_nil, Option.some.injEq] at hl
    subst hl
    exact ⟨.file mode c, rfl, rfl⟩
  | cons name rest ih =>
    intro fs m c hl
    cases fs with
    | file m' c' => simp [lookup_file_cons] at hl
    | dir es =>
      rw [lookup_cons] at hl
      simp only [Node.child] at hl
      cases hc : es.lookup name with
      | none => simp [hc] at hl
      | some x =>
        simp only [hc, Option.some_bind] at hl
        cases rest with
        | nil =>
          simp only [lookup, List.foldl_nil, Option.some.injEq] at hl
          subst hl
          refine ⟨.dir (setEntry es name (.file mode c)), by simp [chmodNode, updateAt, hc], ?_⟩
          simp [lookup_cons, Node.child, lookup_setEntry, lookup]
        | cons next rest' =>
          obtain ⟨x', hx', hlx⟩ := ih x m c hl
          simp only [chmodNode] at hx'
          refine ⟨.dir (setEntry es name x'), by simp [chmodNode, updateAt, hc, hx'], ?_⟩
          simp [lookup_cons _ name, Node.child, lookup_setEntry, hlx]

theorem Chmod_frame (os : OS) (w : World) (t : Path) (mode : Nat) (q : Path) (m : Nat)
    (c : List Nat) (hq : q ≠ t) (h : lookup w.fs q = some (.file m c)) :
    lookup (Chmod os w t mode).2.fs q = some (.file m c) :=
  change_frame os w _ _ _ _ q m c (fun fs' hr hl => chmodNode_frame mode t w.fs fs' hr q m c hq hl) h

theorem Chmod_marks (os : OS) (w : World) (t : Path) (mode m : Nat) (c : List Nat)
    (hf : os.fault w (.Chmod t mode) = none) (h : lookup w.fs t = some (.file m c)) :
    lookup (Chmod os w t mode).2.fs t = some (.file mode c)
      ∧ (Chmod os w t mode).2.log = w.log ++ [⟨w.step, .Chmod t mode, true⟩] := by
  obtain ⟨fs', hfs, hl⟩ := chmodNode_at mode t w.fs m c h
  simp [Chmod, change, hf, hfs, hl, World.did]

/-- A compile task, exit by exit: the world it leaves, what it adds to the counter, and the
calls it made. -/
theorem compileBinary_task (os : OS) (w : World) (r : BinCompileRequest) :
    ∃ ok1, (MkdirAll os w r.TargetDir 0o744).2.log
        = w.log ++ [⟨w.step, .MkdirAll r.TargetDir 0o744, ok1⟩]
      ∧ (MkdirAll os w r.TargetDir 0o744).2.step = w.step
      ∧ ((mkdirFailed (MkdirAll os w r.TargetDir 0o744).1 = true
          ∧ compileBinary os w r = (1, (MkdirAll os w r.TargetDir 0o744).2))
        ∨ (mkdirFailed (MkdirAll os w r.TargetDir 0o744).1 = false
          ∧ (ExecuteShell os (MkdirAll os w r.TargetDir 0o744).2 r.BinSourcePath
              (compileCommand r)).2.2.log
            = w.log ++ [⟨w.step, .MkdirAll r.TargetDir 0o744, ok1⟩,
                ⟨w.step, .Shell r.BinSourcePath (compileCommand r),
                  (os.run (MkdirAll os w r.TargetDir 0o744).2 r.BinSourcePath
                    (compileCommand r)).err.isNone⟩]
          ∧ (ExecuteShell os (MkdirAll os w r.TargetDir 0o744).2 r.BinSourcePath
              (compileCommand r)).2.2.fs
            = (os.run (MkdirAll os w r.TargetDir 0o744).2 r.BinSourcePath
                (compileCommand r)).fs
          ∧ (ExecuteShell os (MkdirAll os w r.TargetDir 0o744).2 r.BinSourcePath
              (compileCommand r)).2.2.step = w.step
          ∧ ((((os.run (MkdirAll os w r.TargetDir 0o744).2 r.BinSourcePath
                  (compileCommand r)).err.isSome = true
                ∨ (os.run (MkdirAll os w r.TargetDir 0o744).2 r.BinSourcePath
                  (compileCommand r)).out.length > 0)
              ∧ compileBinary os w r
                = (1, (ExecuteShell os (MkdirAll os w r.TargetDir 0o744).2 r.BinSourcePath
                    (compileCommand r)).2.2))
            ∨ ((os.run (MkdirAll os w r.TargetDir 0o744).2 r.BinSourcePath
                  (compileCommand r)).err = none
              ∧ (os.run (MkdirAll os w r.TargetDir 0o744).2 r.BinSourcePath
                  (compileCommand r)).out.length = 0
              ∧ compileBinary os w r
                = (0, (Chmod os (ExecuteShell os (MkdirAll os w r.TargetDir 0o744).2
                    r.BinSourcePath (compileCommand r)).2.2
                    (Join r.TargetDir r.BinName) 0o755).2))))) := by
  obtain ⟨ok1, hm⟩ := calls_change os w (.MkdirAll r.TargetDir 0o744) "mkdir"
    r.TargetDir (mkdirAllNode w.fs r.TargetDir)
  have hms := (Same_MkdirAll os w r.TargetDir 0o744).1
  have hm' : (MkdirAll os w r.TargetDir 0o744).2.log
      = w.log ++ [⟨w.step, .MkdirAll r.TargetDir 0o744, ok1⟩] := hm
  refine ⟨ok1, hm', hms, ?_⟩
  rcases hmk : MkdirAll os w r.TargetDir 0o744 with ⟨err, w1⟩
  rw [hmk] at hm' hms
  simp only at hm' hms ⊢
  cases hf : mkdirFailed err with
  | true =>
    left
    exact ⟨rfl, by simp [compileBinary, hmk, hf]⟩
  | false =>
    right
    have hlen := compileCommand_length r
    have hsh : ExecuteShell os w1 r.BinSourcePath (compileCommand r)
        = ((os.run w1 r.BinSourcePath (compileCommand r)).out,
            (os.run w1 r.BinSourcePath (compileCommand r)).err,
            { (w1.did (.Shell r.BinSourcePath (compileCommand r))
                (os.run w1 r.BinSourcePath (compileCommand r)).err.isNone) with
              fs := (os.run w1 r.BinSourcePath (compileCommand r)).fs }) := by
      simp [ExecuteShell, hlen]
    refine ⟨rfl, ?_, ?_, ?_, ?_⟩
    · rw [hsh]
      simp only [World.did]
      rw [hm', hms]
      simp
    · rw [hsh]
    · rw [hsh]
      exact hms
    · cases he : (os.run w1 r.BinSourcePath (compileCommand r)).err with
      | some e' =>
        left
        refine ⟨Or.inl rfl, ?_⟩
        simp [compileBinary, hmk, hf, hsh, he]
      | none =>
        by_cases ho : (os.run w1 r.BinSourcePath (compileCommand r)).out.length > 0
        · left
          refine ⟨Or.inr ho, ?_⟩
          simp [compileBinary, hmk, hf, hsh, he, ho]
        · right
          refine ⟨rfl, by omega, ?_⟩
          simp [compileBinary, hmk, hf, hsh, he, ho]

theorem compileBinary_outcome (os : OS) (w : World) (r : BinCompileRequest) :
    ((compileBinary os w r).1 = 0 ∨ (compileBinary os w r).1 = 1)
      ∧ ((compileBinary os w r).1 = 1 ↔
          (mkdirFailed (MkdirAll os w r.TargetDir 0o744).1 = true
            ∨ (ExecuteShell os (MkdirAll os w r.TargetDir 0o744).2 r.BinSourcePath
                (compileCommand r)).2.1.isSome = true
            ∨ (ExecuteShell os (MkdirAll os w r.TargetDir 0o744).2 r.BinSourcePath
                (compileCommand r)).1.length > 0)) := by
  have hlen := compileCommand_length r
  have hsh : ∀ w1, ExecuteShell os w1 r.BinSourcePath (compileCommand r)
      = ((os.run w1 r.BinSourcePath (compileCommand r)).out,
          (os.run w1 r.BinSourcePath (compileCommand r)).err,
          { (w1.did (.Shell r.BinSourcePath (compileCommand r))
              (os.run w1 r.BinSourcePath (compileCommand r)).err.isNone) with
            fs := (os.run w1 r.BinSourcePath (compileCommand r)).fs }) := by
    intro w1
    simp [ExecuteShell, hlen]
  obtain ⟨ok1, _, _, h⟩ := compileBinary_task os w r
  rw [hsh]
  simp only
  rcases h with ⟨hf, hc⟩ | ⟨hf, _, _, _, ⟨hfail, hc⟩ | ⟨he, ho, hc⟩⟩
  · rw [hc]
    exact ⟨Or.inr rfl, by simp [hf]⟩
  · rw [hc]
    refine ⟨Or.inr rfl, ?_⟩
    simp only [true_iff]
    rcases hfail with h1 | h1
    · exact Or.inr (Or.inl h1)
    · exact Or.inr (Or.inr h1)
  · rw [hc]
    refine ⟨Or.inl rfl, ?_⟩
    simp [hf, he, ho]

theorem compileBinary_trace (os : OS) (w : World) (r : BinCompileRequest) :
    (compileBinary os w r).2.step = w.step
      ∧ ∃ seg, (compileBinary os w r).2.log = w.log ++ seg
        ∧ (∀ c ∈ seg, c.step = w.step)
        ∧ taskEnded r (compileBinary os w r).1 seg := by
  obtain ⟨ok1, hm, hms, h⟩ := compileBinary_task os w r
  rcases h with ⟨hf, hc⟩ | ⟨hf, hl, _, hss, ⟨hfail, hc⟩ | ⟨he, ho, hc⟩⟩
  · rw [hc]
    exact ⟨hms, _, hm, by simp, Or.inl ⟨rfl, rfl⟩⟩
  · rw [hc]
    exact ⟨hss, _, hl, by simp, Or.inr (Or.inl ⟨rfl, rfl⟩)⟩
  · rw [hc]
    obtain ⟨ok3, hch⟩ := calls_change os
      (ExecuteShell os (MkdirAll os w r.TargetDir 0o744).2 r.BinSourcePath
        (compileCommand r)).2.2
      (.Chmod (Join r.TargetDir r.BinName) 0o755) "chmod" (Join r.TargetDir r.BinName)
      (chmodNode (ExecuteShell os (MkdirAll os w r.TargetDir 0o744).2 r.BinSourcePath
        (compileCommand r)).2.2.fs (Join r.TargetDir r.BinName) 0o755)
    have hcs := (Same_Chmod os (ExecuteShell os (MkdirAll os w r.TargetDir 0o744).2
      r.BinSourcePath (compileCommand r)).2.2 (Join r.TargetDir r.BinName) 0o755).1
    have hch' : (Chmod os (ExecuteShell os (MkdirAll os w r.TargetDir 0o744).2
        r.BinSourcePath (compileCommand r)).2.2 (Join r.TargetDir r.BinName) 0o755).2.log
        = _ := hch
    refine ⟨hcs.trans hss,
      [⟨w.step, .MkdirAll r.TargetDir 0o744, ok1⟩,
        ⟨w.step, .Shell r.BinSourcePath (compileCommand r),
          (os.run (MkdirAll os w r.TargetDir 0o744).2 r.BinSourcePath
            (compileCommand r)).err.isNone⟩,
        ⟨w.step, .Chmod (Join r.TargetDir r.BinName) 0o755, ok3⟩], ?_, ?_,
      Or.inr (Or.inr ⟨rfl, ?_⟩)⟩
    · simp only
      rw [hch', hl, hss, List.append_assoc]
      rfl
    · simp
    · simp [taskOps, taskStart]

theorem unitOutcomes_trace (os : OS) (b : BuildContext) (u : CmdRecord) :
    ∀ (platforms : List PlatformItem) (w : World),
      (unitOutcomes os b u platforms w).1.length = platforms.length
        ∧ (∀ x ∈ (unitOutcomes os b u platforms w).1, x = 0 ∨ x = 1)
        ∧ (unitOutcomes os b u platforms w).2.step = w.step
        ∧ ∃ segs : List (List Call),
            (unitOutcomes os b u platforms w).2.log = w.log ++ segs.flatten
            ∧ (∀ seg ∈ segs, ∀ c ∈ seg, c.step = w.step)
            ∧ List.Forall₂ (fun po seg => taskEnded (compileRequest b u po.1) po.2 seg)
                (platforms.zip (unitOutcomes os b u platforms w).1) segs := by
  intro platforms
  induction platforms with
  | nil =>
    intro w
    exact ⟨rfl, by simp [unitOutcomes], rfl, [], by simp [unitOutcomes], by simp,
      by simp [unitOutcomes]⟩
  | cons p rest ih =>
    intro w
    obtain ⟨hst, seg, hl, hsteps, hend⟩ := compileBinary_trace os w (compileRequest b u p)
    obtain ⟨h01, _⟩ := compileBinary_outcome os w (compileRequest b u p)
    obtain ⟨ilen, i01, ist, segs, il, isteps, iall⟩ :=
      ih (compileBinary os w (compileRequest b u p)).2
    simp only [unitOutcomes]
    refine ⟨by simp [ilen], ?_, ist.trans hst, seg :: segs, ?_, ?_, ?_⟩
    · intro x hx
      rcases List.mem_cons.1 hx with h | h
      · rw [h]
        exact h01
      · exact i01 x h
    · rw [il, hl]
      simp [List.append_assoc]
    · intro s hs c hc
      rcases List.mem_cons.1 hs with h | h
      · subst h
        exact hsteps c hc
      · rw [← hst]
        exact isteps s h c hc
    · simp only [List.zip_cons_cons]
      exact List.Forall₂.cons hend iall

theorem sum_zero_one (l : List Nat) (h : ∀ x ∈ l, x = 0 ∨ x = 1) :
    l.sum ≤ l.length ∧ (l.sum > 0 ↔ ∃ x ∈ l, x ≠ 0) := by
  induction l with
  | nil => simp
  | cons a rest ih =>
    obtain ⟨i1, i2⟩ := ih (fun x hx => h x (List.mem_cons_of_mem _ hx))
    have ha := h a (List.mem_cons_self _ _)
    simp only [List.sum_cons, List.length_cons]
    refine ⟨by rcases ha with h0 | h0 <;> omega, ?_⟩
    constructor
    · intro hpos
      rcases ha with h0 | h0
      · have : rest.sum > 0 := by omega
        obtain ⟨x, hx, hne⟩ := i2.1 this
        exact ⟨x, List.mem_cons_of_mem _ hx, hne⟩
      · exact ⟨a, List.mem_cons_self _ _, by omega⟩
    · rintro ⟨x, hx, hne⟩
      rcases List.mem_cons.1 hx with h0 | h0
      · subst h0
        omega
      · have := i2.2 ⟨x, h0, hne⟩
        omega

theorem compilePlatforms_eq (os : OS) (b : BuildContext) (u : CmdRecord) :
    ∀ (platforms : List PlatformItem) (compileError : Nat) (w : World),
      compileError < 2 ^ 32 →
      compilePlatforms os b u platforms compileError w
        = ((compileError + (unitOutcomes os b u platforms w).1.sum) % 2 ^ 32,
            (unitOutcomes os b u platforms w).2) := by
  intro platforms
  induction platforms with
  | nil =>
    intro c w hc
    simp only [compilePlatforms, unitOutcomes, List.sum_nil, Nat.add_zero]
    rw [Nat.mod_eq_of_lt hc]
  | cons p rest ih =>
    intro c w hc
    simp only [compilePlatforms, unitOutcomes, List.sum_cons]
    rw [ih _ _ (Nat.mod_lt _ (by decide))]
    simp only [Prod.mk.injEq, and_true]
    rw [Nat.add_mod, Nat.mod_mod, ← Nat.add_mod, Nat.add_assoc]

/-- The counter of one command after `wg.Wait()`: positive exactly when some task failed. -/
theorem compilePlatforms_counter (os : OS) (buildPlatformList : YamlBuildPlatformConfig)
    (b : BuildContext) (hK : buildPlatformList.Platforms.length < 2 ^ 32) (u : CmdRecord)
    (w : World) :
    (compilePlatforms os b u buildPlatformList.Platforms 0 w).2
        = (unitOutcomes os b u buildPlatformList.Platforms w).2
      ∧ ((compilePlatforms os b u buildPlatformList.Platforms 0 w).1 > 0
          ↔ ∃ x ∈ (unitOutcomes os b u buildPlatformList.Platforms w).1, x ≠ 0) := by
  obtain ⟨hlen, h01, _⟩ := unitOutcomes_trace os b u buildPlatformList.Platforms w
  obtain ⟨hle, hpos⟩ := sum_zero_one _ h01
  rw [compilePlatforms_eq os b u _ 0 w (by decide)]
  refine ⟨rfl, ?_⟩
  simp only [Nat.zero_add]
  rw [Nat.mod_eq_of_lt (by rw [hlen] at hle; exact lt_of_le_of_lt hle hK)]
  exact hpos

theorem unitsRun_append (os : OS) (buildPlatformList : YamlBuildPlatformConfig)
    (b : BuildContext) : ∀ (pre : List CmdRecord) (u : CmdRecord) (w : World),
      unitsRun os buildPlatformList b (pre ++ [u]) w
        = (unitOutcomes os b u buildPlatformList.Platforms
            (unitsRun os buildPlatformList b pre w)).2 := by
  intro pre
  induction pre with
  | nil => intro u w; rfl
  | cons a rest ih =>
    intro u w
    simp only [List.cons_append, unitsRun]
    exact ih u _

theorem compileRecords_run (os : OS) (buildPlatformList : YamlBuildPlatformConfig)
    (b : BuildContext) (hK : buildPlatformList.Platforms.length < 2 ^ 32) :
    ∀ (records : List CmdRecord) (w : World),
      ((compileRecords os buildPlatformList b records w).1 = none
          ↔ ∀ pre u post, records = pre ++ u :: post →
              ∀ x ∈ (unitOutcomes os b u buildPlatformList.Platforms
                (unitsRun os buildPlatformList b pre w)).1, x = 0)
        ∧ ((compileRecords os buildPlatformList b records w).1 = none →
            (compileRecords os buildPlatformList b records w).2
              = unitsRun os buildPlatformList b records w)
        ∧ ∀ pre u post, records = pre ++ u :: post →
            (∀ pre' u' post', pre = pre' ++ u' :: post' →
              ∀ x ∈ (unitOutcomes os b u' buildPlatformList.Platforms
                (unitsRun os buildPlatformList b pre' w)).1, x = 0) →
            (∃ x ∈ (unitOutcomes os b u buildPlatformList.Platforms
                (unitsRun os buildPlatformList b pre w)).1, x ≠ 0) →
            compileRecords os buildPlatformList b records w
              = (some (.errorf ("fail to prepare binary " ++ u.GetBinaryname ++ "\n")),
                  (unitOutcomes os b u buildPlatformList.Platforms
                    (unitsRun os buildPlatformList b pre w)).2) := by
  intro records
  induction records with
  | nil =>
    intro w
    refine ⟨?_, fun _ => rfl, ?_⟩
    · simp [compileRecords]
    · intro pre u post h
      simp at h
  | cons u0 rest ih =>
    intro w
    obtain ⟨hw, hpos⟩ := compilePlatforms_counter os buildPlatformList b hK u0 w
    obtain ⟨i1, i2, i3⟩ := ih (unitOutcomes os b u0 buildPlatformList.Platforms w).2
    rcases hcp : compilePlatforms os b u0 buildPlatformList.Platforms 0 w with ⟨ce, w1⟩
    rw [hcp] at hw hpos
    simp only at hw hpos
    subst hw
    by_cases hce : ce > 0
    · have hres : compileRecords os buildPlatformList b (u0 :: rest) w
          = (some (.errorf ("fail to prepare binary " ++ u0.GetBinaryname ++ "\n")),
              (unitOutcomes os b u0 buildPlatformList.Platforms w).2) := by
        simp [compileRecords, hcp, hce]
      obtain ⟨x, hx, hne⟩ := hpos.1 hce
      rw [hres]
      refine ⟨?_, ?_, ?_⟩
      · simp only [reduceCtorEq, false_iff]
        intro hall
        exact hne (hall [] u0 rest rfl x hx)
      · intro h
        cases h
      · intro pre u post hsplit hprev hfail
        cases pre with
        | nil =>
          simp only [List.nil_append, List.cons.injEq] at hsplit
          obtain ⟨rfl, _⟩ := hsplit
          rfl
        | cons a pre' =>
          simp only [List.cons_append, List.cons.injEq] at hsplit
          obtain ⟨rfl, _⟩ := hsplit
          exact absurd (hprev [] u0 pre' rfl x hx) hne
    · have hzero : ∀ x ∈ (unitOutcomes os b u0 buildPlatformList.Platforms w).1, x = 0 := by
        intro x hx
        by_contra hne
        exact hce (hpos.2 ⟨x, hx, hne⟩)
      have hres : compileRecords os buildPlatformList b (u0 :: rest) w
          = compileRecords os buildPlatformList b rest
              (unitOutcomes os b u0 buildPlatformList.Platforms w).2 := by
        simp [compileRecords, hcp, hce]
      rw [hres]
      refine ⟨?_, ?_, ?_⟩
      · rw [i1]
        constructor
        · intro hall pre u post hsplit
          cases pre with
          | nil =>
            simp only [List.nil_append, List.cons.injEq] at hsplit
            obtain ⟨rfl, _⟩ := hsplit
            exact hzero
          | cons a pre' =>
            simp only [List.cons_append, List.cons.injEq] at hsplit
            obtain ⟨rfl, hrest⟩ := hsplit
            exact hall pre' u post hrest
        · intro hall pre u post hsplit
          exact hall (u0 :: pre) u post (by rw [hsplit]; rfl)
      · intro hn
        rw [i2 hn]
        rfl
      · intro pre u post hsplit hprev hfail
        cases pre with
        | nil =>
          simp only [List.nil_append, List.cons.injEq] at hsplit
          obtain ⟨rfl, _⟩ := hsplit
          obtain ⟨x, hx, hne⟩ := hfail
          exact absurd (hzero x hx) hne
        | cons a pre' =>
          simp only [List.cons_append, List.cons.injEq] at hsplit
          obtain ⟨rfl, hrest⟩ := hsplit
          exact i3 pre' u post hrest
            (fun p2 u2 q2 hp2 => hprev (u0 :: p2) u2 q2 (by rw [hp2]; rfl)) hfail

theorem Packaging_compile_error (os : OS) (env : Env)
    (buildPlatformList : YamlBuildPlatformConfig) (b : BuildContext) (w0 : World)
    (dir : Path) (w1 : World) (e : Error)
    (hmt : MkdirTemp os (w0.enter .allocate) b.ExposeProcessName = (.ok dir, w1))
    (he : (prepareCmdRecordBinary os buildPlatformList { b with workingDir := dir }
      (w1.enter .compile)).1 = some e) :
    (Packaging os env buildPlatformList b w0).1 = .err e
      ∧ ∃ calls, (Packaging os env buildPlatformList b w0).2.2.log = w0.log ++ calls
        ∧ ∀ c ∈ calls, c.step = .allocate ∨ c.step = .compile ∨ c.step = .cleanup := by
  have hlen : (b.ProcessList.length == 0) = false := by
    cases hp : b.ProcessList with
    | nil =>
      simp [prepareCmdRecordBinary, hp, compileRecords] at he
    | cons a l => rfl
  have hpb : prepareBinary os buildPlatformList { b with workingDir := dir } w1
      = (some e, (prepareCmdRecordBinary os buildPlatformList { b with workingDir := dir }
          (w1.enter .compile)).2) := by
    unfold prepareBinary
    simp only [hlen, Bool.false_eq_true, if_false]
    rw [← he]
  have hP : Packaging os env buildPlatformList b w0
      = (.err e, { b with workingDir := dir },
          (RemoveAll os ((prepareCmdRecordBinary os buildPlatformList
            { b with workingDir := dir } (w1.enter .compile)).2.enter .cleanup) dir).2) := by
    simp [Packaging, hmt, packagingSteps, hpb]
  rw [hP]
  refine ⟨rfl, ?_⟩
  obtain ⟨_, cm, hlm, hcm⟩ := Same_MkdirTemp os (w0.enter .allocate) b.ExposeProcessName
  rw [hmt] at hlm
  obtain ⟨_, cc, hlc, hcc⟩ := Same_compileRecords os buildPlatformList
    { b with workingDir := dir } b.ProcessList (w1.enter .compile)
  obtain ⟨_, cr, hlr, hcr⟩ := Same_RemoveAll os ((prepareCmdRecordBinary os buildPlatformList
    { b with workingDir := dir } (w1.enter .compile)).2.enter .cleanup) dir
  have hlm' : w1.log = w0.log ++ cm := hlm
  have hlc' : (prepareCmdRecordBinary os buildPlatformList { b with workingDir := dir }
      (w1.enter .compile)).2.log = w1.log ++ cc := hlc
  refine ⟨cm ++ cc ++ cr, ?_, ?_⟩
  · simp only
    rw [hlr]
    show (prepareCmdRecordBinary os buildPlatformList { b with workingDir := dir }
      (w1.enter .compile)).2.log ++ cr = _
    rw [hlc', hlm']
    simp [List.append_assoc]
  · intro c hc
    simp only [List.mem_append] at hc
    rcases hc with (h1 | h2) | h3
    · exact Or.inl (hcm c h1)
    · exact Or.inr (Or.inl (hcc c h2))
    · exact Or.inr (Or.inr (hcr c h3))

/-- C8: with fewer than 2^32 platforms. A task adds 0 or 1 to the failure counter, and 1
exactly when `os.MkdirAll` of its platform directory fails (with an error other than
`os.ErrExist`), the build command returns an error, or it prints anything. The K tasks
of a command, run each to its end (`unitOutcomes`), leave a log made of K segments, one
per task in the order of the platforms, each the calls of a task that ran to one of its
exits. `prepareCmdRecordBinary` returns nil exactly when every task of every command has
outcome 0, the tasks of a command starting in the world the commands before it left.
Otherwise, for the first command with a task of outcome 1, it returns the error naming
that command and the world in which all K tasks of that command, and of the commands
before it, have run to their end and nothing else was done: no task of a later command
was started. When the compile step of `Packaging` returns an error, `Packaging` returns
that error, and the calls of the run are those of the allocation, of the compile tasks
and of the removal of the staging directory: the archiver is not invoked. -/
theorem prepareCmdRecordBinary_first_failure (os : OS)
    (buildPlatformList : YamlBuildPlatformConfig)
    (hK : buildPlatformList.Platforms.length < 2 ^ 32) (b : BuildContext) (w : World) :
    (∀ (wt : World) (r : BinCompileRequest),
        ((compileBinary os wt r).1 = 0 ∨ (compileBinary os wt r).1 = 1)
          ∧ ((compileBinary os wt r).1 = 1 ↔
              (mkdirFailed (MkdirAll os wt r.TargetDir 0o744).1 = true
                ∨ (ExecuteShell os (MkdirAll os wt r.TargetDir 0o744).2 r.BinSourcePath
                    (compileCommand r)).2.1.isSome = true
                ∨ (ExecuteShell os (MkdirAll os wt r.TargetDir 0o744).2 r.BinSourcePath
                    (compileCommand r)).1.length > 0)))
      ∧ (∀ (u : CmdRecord) (wu : World),
          (unitOutcomes os b u buildPlatformList.Platforms wu).1.length
              = buildPlatformList.Platforms.length
            ∧ ∃ segs : List (List Call),
                (unitOutcomes os b u buildPlatformList.Platforms wu).2.log
                  = wu.log ++ segs.flatten
                ∧ List.Forall₂
                    (fun po seg => taskEnded (compileRequest b u po.1) po.2 seg)
                    (buildPlatformList.Platforms.zip
                      (unitOutcomes os b u buildPlatformList.Platforms wu).1) segs)
      ∧ ((prepareCmdRecordBinary os buildPlatformList b w).1 = none
          ↔ ∀ pre u post, b.ProcessList = pre ++ u :: post →
              ∀ x ∈ (unitOutcomes os b u buildPlatformList.Platforms
                (unitsRun os buildPlatformList b pre w)).1, x = 0)
      ∧ (∀ pre u post, b.ProcessList = pre ++ u :: post →
          (∀ pre' u' post', pre = pre' ++ u' :: post' →
            ∀ x ∈ (unitOutcomes os b u' buildPlatformList.Platforms
              (unitsRun os buildPlatformList b pre' w)).1, x = 0) →
          (∃ x ∈ (unitOutcomes os b u buildPlatformList.Platforms
              (unitsRun os buildPlatformList b pre w)).1, x ≠ 0) →
          prepareCmdRecordBinary os buildPlatformList b w
            = (some (.errorf ("fail to prepare binary " ++ u.GetBinaryname ++ "\n")),
                (unitOutcomes os b u buildPlatformList.Platforms
                  (unitsRun os buildPlatformList b pre w)).2))
      ∧ (∀ (env : Env) (w0 : World) (dir : Path) (w1 : World) (e : Error),
          MkdirTemp os (w0.enter .allocate) b.ExposeProcessName = (.ok dir, w1) →
          (prepareCmdRecordBinary os buildPlatformList { b with workingDir := dir }
            (w1.enter .compile)).1 = some e →
          (Packaging os env buildPlatformList b w0).1 = .err e
            ∧ ∃ calls, (Packaging os env buildPlatformList b w0).2.2.log = w0.log ++ calls
              ∧ ∀ c ∈ calls, c.step = .allocate ∨ c.step = .compile ∨ c.step = .cleanup) := by
  obtain ⟨h1, _, h3⟩ := compileRecords_run os buildPlatformList b hK b.ProcessList w
  refine ⟨fun wt r => compileBinary_outcome os wt r, ?_, h1, h3, ?_⟩
  · intro u wu
    obtain ⟨hlen, _, _, segs, hl, _, hall⟩ :=
      unitOutcomes_trace os b u buildPlatformList.Platforms wu
    exact ⟨hlen, segs, hl, hall⟩
  · intro env w0 dir w1 e hmt he
    exact Packaging_compile_error os env buildPlatformList b w0 dir w1 e hmt he

/-- Witness of C8: two commands, two platforms; the build of `api` for `linux/amd64`
fails. The error names `api`; the task of `api` for `linux/arm64`, started after the
failed one, made all its calls and left its binary; no task of `worker` was started. -/
theorem prepareCmdRecordBinary_first_failure_witness :
    (unitOutcomes osNoAmd ctxTwo { Path := ["proj", "cmd", "api"] } platsTwo.Platforms
        { fs := fsCommands }).1 = [1, 0]
      ∧ prepareCmdRecordBinary osNoAmd platsTwo ctxTwo { fs := fsCommands }
        = (some (.errorf "fail to prepare binary api\n"),
            (unitOutcomes osNoAmd ctxTwo { Path := ["proj", "cmd", "api"] } platsTwo.Platforms
              { fs := fsCommands }).2)
      ∧ (prepareCmdRecordBinary osNoAmd platsTwo ctxTwo { fs := fsCommands }).2.log
        = [⟨.setup, .MkdirAll ["tmp", "proj123", "platform", "linux_amd64"] 0o744, true⟩,
            ⟨.setup, .Shell ["proj", "cmd", "api"]
              "GOOS=linux GOARCH=amd64 go build -o /tmp/proj123/platform/linux_amd64/api",
              false⟩,
            ⟨.setup, .MkdirAll ["tmp", "proj123", "platform", "linux_arm64"] 0o744, true⟩,
            ⟨.setup, .Shell ["proj", "cmd", "api"]
              "GOOS=linux GOARCH=arm64 go build -o /tmp/proj123/platform/linux_arm64/api",
              true⟩,
            ⟨.setup, .Chmod ["tmp", "proj123", "platform", "linux_arm64", "api"] 0o755, true⟩]
      ∧ lookup (prepareCmdRecordBinary osNoAmd platsTwo ctxTwo { fs := fsCommands }).2.fs
          ["tmp", "proj123", "platform", "linux_arm64", "api"]
        = some (.file 0o755 [127, 69, 76, 70]) :=
  ⟨by decide,
    (prepareCmdRecordBinary_first_failure osNoAmd platsTwo (by decide) ctxTwo
      { fs := fsCommands }).2.2.2.1 [] { Path := ["proj", "cmd", "api"] }
      [{ Path := ["proj", "cmd", "worker"] }] rfl
      (fun pre' u' post' h => absurd h (by simp))
      ⟨1, by decide, by decide⟩,
    by decide, rfl⟩

theorem binaryPath_eq (b : BuildContext) (u : CmdRecord) (p : PlatformItem) :
    Join (compileRequest b u p).TargetDir (compileRequest b u p).BinName = binaryPath b u p := by
  simp [Join, binaryPath, compileRequest, PlatformItem.getPlatformDirectory]

theorem binaryPath_length (b : BuildContext) (u : CmdRecord) (p : PlatformItem) :
    (binaryPath b u p).length = b.workingDir.length + 3 := by
  simp [binaryPath]

theorem binaryPath_below (b : BuildContext) (u : CmdRecord) (p : PlatformItem) :
    b.workingDir <+: binaryPath b u p := List.prefix_append _ _

/-- A compile task that adds nothing to the failure counter: its calls, and what it
leaves in the tree when the toolchain and `os.Chmod` do their part. -/
theorem compileBinary_marks (os : OS) (buildPlatformList : YamlBuildPlatformConfig)
    (b : BuildContext) (u : CmdRecord) (p : PlatformItem) (hu : u ∈ b.ProcessList)
    (hp : p ∈ buildPlatformList.Platforms) (w : World)
    (h0 : (compileBinary os w (compileRequest b u p)).1 = 0) :
    (compileBinary os w (compileRequest b u p)).2.step = w.step
      ∧ ∃ ok1 ok3,
        (compileBinary os w (compileRequest b u p)).2.log
          = w.log ++ [⟨w.step, .MkdirAll (compileRequest b u p).TargetDir 0o744, ok1⟩,
              ⟨w.step, .Shell u.Path (compileCommand (compileRequest b u p)), true⟩,
              ⟨w.step, .Chmod (binaryPath b u p) 0o755, ok3⟩]
        ∧ (BuildWrites os buildPlatformList b → ChmodAllowed os →
            ok3 = true
            ∧ (∃ data, lookup (compileBinary os w (compileRequest b u p)).2.fs
                (binaryPath b u p) = some (.file 0o755 data))
            ∧ ∀ q m c, b.workingDir <+: q → ¬ q <+: binaryPath b u p →
                lookup w.fs q = some (.file m c) →
                lookup (compileBinary os w (compileRequest b u p)).2.fs q
                  = some (.file m c)) := by
  obtain ⟨ok1, hm, hms, h⟩ := compileBinary_task os w (compileRequest b u p)
  have hbp := binaryPath_eq b u p
  have hsrc : (compileRequest b u p).BinSourcePath = u.Path := rfl
  rcases h with ⟨_, hc⟩ | ⟨_, _, _, _, ⟨_, hc⟩ | ⟨he, ho, hc⟩⟩
  · rw [hc] at h0
    cases h0
  · rw [hc] at h0
    cases h0
  · rename_i hl hfs hss
    rw [hc]
    simp only
    rw [hbp, hsrc] at *
    obtain ⟨ok3, hch⟩ := calls_change os
      (ExecuteShell os (MkdirAll os w (compileRequest b u p).TargetDir 0o744).2 u.Path
        (compileCommand (compileRequest b u p))).2.2
      (.Chmod (binaryPath b u p) 0o755) "chmod" (binaryPath b u p)
      (chmodNode (ExecuteShell os (MkdirAll os w (compileRequest b u p).TargetDir 0o744).2
        u.Path (compileCommand (compileRequest b u p))).2.2.fs (binaryPath b u p) 0o755)
    have hcs := (Same_Chmod os (ExecuteShell os
      (MkdirAll os w (compileRequest b u p).TargetDir 0o744).2 u.Path
      (compileCommand (compileRequest b u p))).2.2 (binaryPath b u p) 0o755).1
    have hch' : (Chmod os (ExecuteShell os
        (MkdirAll os w (compileRequest b u p).TargetDir 0o744).2 u.Path
        (compileCommand (compileRequest b u p))).2.2 (binaryPath b u p) 0o755).2.log
        = _ := hch
    rw [hl, hss, he] at hch'
    refine ⟨hcs.trans hss, ok1, ok3, ?_, ?_⟩
    · rw [hch']
      simp
    · intro hbw hca
      obtain ⟨⟨mode, data, hfile⟩, hframe⟩ := hbw
        (MkdirAll os w (compileRequest b u p).TargetDir 0o744).2 u hu p hp he ho
      rw [← hfs] at hfile hframe
      obtain ⟨hmark, hlog⟩ := Chmod_marks os _ (binaryPath b u p) 0o755 mode data
        (hca _ _ _) hfile
      refine ⟨?_, ⟨data, hmark⟩, ?_⟩
      · rw [hlog, hl, hss, he] at hch'
        have := List.append_cancel_left hch'
        simp only [List.append_cancel_left_eq, Option.isNone_none, List.cons.injEq,
          Call.mk.injEq, true_and, and_true] at this
        simpa using this.symm
      · intro q m c hq hnq hlq
        have h1 := MkdirAll_frame os w (compileRequest b u p).TargetDir 0o744 q m c hlq
        have h2 := hframe q m c hq hnq h1
        refine Chmod_frame os _ (binaryPath b u p) 0o755 q m c ?_ h2
        intro heq
        exact hnq (by rw [heq])

theorem StayMarked.chain {b : BuildContext} {f1 f2 f3 : Node} (h1 : StayMarked b f1 f2)
    (h2 : StayMarked b f2 f3) : StayMarked b f1 f3 :=
  fun q hq hlen hm => h2 q hq hlen (h1 q hq hlen hm)

theorem StayMarked_task (b : BuildContext) (u : CmdRecord) (p : PlatformItem) (fs fs' : Node)
    (hmark : ∃ data, lookup fs' (binaryPath b u p) = some (.file 0o755 data))
    (hframe : ∀ q m c, b.workingDir <+: q → ¬ q <+: binaryPath b u p →
      lookup fs q = some (.file m c) → lookup fs' q = some (.file m c)) :
    StayMarked b fs fs' := by
  intro q hq hlen ⟨data, hd⟩
  by_cases heq : q = binaryPath b u p
  · rw [heq]
    exact hmark
  · refine ⟨data, hframe q _ data hq ?_ hd⟩
    intro hpre
    exact heq (hpre.eq_of_length (by rw [hlen, binaryPath_length]))

/-- The tasks of one command when none fails: their calls, and what they leave in the tree
when the toolchain and `os.Chmod` do their part. -/
theorem unitOutcomes_marks (os : OS) (buildPlatformList : YamlBuildPlatformConfig)
    (b : BuildContext) (u : CmdRecord) (hu : u ∈ b.ProcessList) :
    ∀ (platforms : List PlatformItem), (∀ p ∈ platforms, p ∈ buildPlatformList.Platforms) →
      ∀ (w : World), (∀ x ∈ (unitOutcomes os b u platforms w).1, x = 0) →
      ∃ calls, (unitOutcomes os b u platforms w).2.log = w.log ++ calls
        ∧ calls.map Call.op = platforms.flatMap (fun p => taskOps (compileRequest b u p))
        ∧ (∀ c ∈ calls, c.op.isShell = true → c.ok = true)
        ∧ (BuildWrites os buildPlatformList b → ChmodAllowed os →
            (∀ c ∈ calls, c.op.isChmod = true → c.ok = true)
            ∧ (∀ p ∈ platforms, ∃ data,
                lookup (unitOutcomes os b u platforms w).2.fs (binaryPath b u p)
                  = some (.file 0o755 data))
            ∧ StayMarked b w.fs (unitOutcomes os b u platforms w).2.fs) := by
  intro platforms
  induction platforms with
  | nil =>
    intro _ w _
    exact ⟨[], by simp [unitOutcomes], rfl, by simp, fun _ _ =>
      ⟨by simp, by simp, fun q _ _ h => h⟩⟩
  | cons p rest ih =>
    intro hsub w hzero
    have hp := hsub p (List.mem_cons_self _ _)
    simp only [unitOutcomes] at hzero ⊢
    have h0 : (compileBinary os w (compileRequest b u p)).1 = 0 :=
      hzero _ (List.mem_cons_self _ _)
    obtain ⟨hst, ok1, ok3, hl, hcond⟩ :=
      compileBinary_marks os buildPlatformList b u p hu hp w h0
    obtain ⟨cr, hlr, hor, hsr, hcr⟩ := ih (fun q hq => hsub q (List.mem_cons_of_mem _ hq))
      (compileBinary os w (compileRequest b u p)).2
      (fun x hx => hzero x (List.mem_cons_of_mem _ hx))
    refine ⟨[⟨w.step, .MkdirAll (compileRequest b u p).TargetDir 0o744, ok1⟩,
        ⟨w.step, .Shell u.Path (compileCommand (compileRequest b u p)), true⟩,
        ⟨w.step, .Chmod (binaryPath b u p) 0o755, ok3⟩] ++ cr,
      by rw [hlr, hl, List.append_assoc], ?_, ?_, ?_⟩
    · rw [List.map_append, hor, List.flatMap_cons]
      have ht : taskOps (compileRequest b u p)
          = [.MkdirAll (compileRequest b u p).TargetDir 0o744,
              .Shell u.Path (compileCommand (compileRequest b u p)),
              .Chmod (binaryPath b u p) 0o755] := by
        rw [← binaryPath_eq]
        rfl
      rw [ht]
      rfl
    · intro c hc hs
      rcases List.mem_append.1 hc with h | h
      · simp only [List.mem_cons, List.mem_singleton, List.not_mem_nil, or_false] at h
        rcases h with rfl | rfl | rfl
        · simp [Op.isShell] at hs
        · rfl
        · simp [Op.isShell] at hs
      · exact hsr c h hs
    · intro hbw hca
      obtain ⟨hok3, hmark, hframe⟩ := hcond hbw hca
      obtain ⟨hcr1, hcr2, hcr3⟩ := hcr hbw hca
      have hstay := StayMarked_task b u p _ _ hmark hframe
      refine ⟨?_, ?_, hstay.chain hcr3⟩
      · intro c hc hs
        rcases List.mem_append.1 hc with h | h
        · simp only [List.mem_cons, List.mem_singleton, List.not_mem_nil, or_false] at h
          rcases h with rfl | rfl | rfl
          · simp [Op.isChmod] at hs
          · simp [Op.isChmod] at hs
          · exact hok3
        · exact hcr1 c h hs
      · intro q hq
        rcases List.mem_cons.1 hq with h | h
        · subst h
          exact hcr3 _ (binaryPath_below b u q) (binaryPath_length b u q) hmark
        · exact hcr2 q h

/-- The tasks of the commands of a list when none fails. -/
theorem unitsRun_marks (os : OS) (buildPlatformList : YamlBuildPlatformConfig)
    (b : BuildContext) :
    ∀ (records : List CmdRecord), (∀ u ∈ records, u ∈ b.ProcessList) → ∀ (w : World),
      (∀ pre u post, records = pre ++ u :: post →
        ∀ x ∈ (unitOutcomes os b u buildPlatformList.Platforms
          (unitsRun os buildPlatformList b pre w)).1, x = 0) →
      ∃ calls, (unitsRun os buildPlatformList b records w).log = w.log ++ calls
        ∧ calls.map Call.op = records.flatMap (fun u =>
            buildPlatformList.Platforms.flatMap (fun p => taskOps (compileRequest b u p)))
        ∧ (∀ c ∈ calls, c.op.isShell = true → c.ok = true)
        ∧ (BuildWrites os buildPlatformList b → ChmodAllowed os →
            (∀ c ∈ calls, c.op.isChmod = true → c.ok = true)
            ∧ (∀ u ∈ records, ∀ p ∈ buildPlatformList.Platforms, ∃ data,
                lookup (unitsRun os buildPlatformList b records w).fs (binaryPath b u p)
                  = some (.file 0o755 data))
            ∧ StayMarked b w.fs (unitsRun os buildPlatformList b records w).fs) := by
  intro records
  induction records with
  | nil =>
    intro _ w _
    exact ⟨[], by simp [unitsRun], rfl, by simp, fun _ _ =>
      ⟨by simp, by simp, fun q _ _ h => h⟩⟩
  | cons u0 rest ih =>
    intro hsub w hzero
    have hu0 := hsub u0 (List.mem_cons_self _ _)
    obtain ⟨c0, hl0, ho0, hs0, hc0⟩ := unitOutcomes_marks os buildPlatformList b u0 hu0
      buildPlatformList.Platforms (fun p hp => hp) w (hzero [] u0 rest rfl)
    obtain ⟨cr, hlr, hor, hsr, hcr⟩ := ih (fun q hq => hsub q (List.mem_cons_of_mem _ hq))
      (unitOutcomes os b u0 buildPlatformList.Platforms w).2
      (fun pre u post hsplit => hzero (u0 :: pre) u post (by rw [hsplit]; rfl))
    simp only [unitsRun]
    refine ⟨c0 ++ cr, by rw [hlr, hl0, List.append_assoc], ?_, ?_, ?_⟩
    · rw [List.map_append, ho0, hor, List.flatMap_cons]
    · intro c hc hs
      rcases List.mem_append.1 hc with h | h
      · exact hs0 c h hs
      · exact hsr c h hs
    · intro hbw hca
      obtain ⟨a1, a2, a3⟩ := hc0 hbw hca
      obtain ⟨r1, r2, r3⟩ := hcr hbw hca
      refine ⟨?_, ?_, a3.chain r3⟩
      · intro c hc hs
        rcases List.mem_append.1 hc with h | h
        · exact a1 c h hs
        · exact r1 c h hs
      · intro u hu p hp
        rcases List.mem_cons.1 hu with h | h
        · subst h
          exact r3 _ (binaryPath_below b u p) (binaryPath_length b u p) (a2 p hp)
        · exact r2 u h p hp

/-- C7: when `prepareCmdRecordBinary` returns no error (no compile task failed; fewer than
2^32 platforms), it has run exactly one task per command and platform, commands in the
order of `ProcessList` and platforms in the order of the list: the calls it made are, task
after task, `MkdirAll` of `<workingDir>/platform/<os>_<arch>`, the build command run in the
directory of the command, and `Chmod` to mode 0755 of
`<workingDir>/platform/<os>_<arch>/<GetBinaryname>`; so M * K builds were run, and each
returned no error. When moreover the toolchain does its part (a build that returns no
error and prints nothing has written its output file and left the other files of the
staging directory alone) and the environment lets `os.Chmod` through, every `Chmod`
succeeded, and when `prepareCmdRecordBinary` returns, the output path of every command
and platform holds a regular file with mode 0755. -/
theorem prepareCmdRecordBinary_tasks (os : OS) (buildPlatformList : YamlBuildPlatformConfig)
    (b : BuildContext) (w : World) (hK : buildPlatformList.Platforms.length < 2 ^ 32)
    (h : (prepareCmdRecordBinary os buildPlatformList b w).1 = none) :
    ∃ calls, (prepareCmdRecordBinary os buildPlatformList b w).2.log = w.log ++ calls
      ∧ calls.map Call.op = b.ProcessList.flatMap (fun u =>
          buildPlatformList.Platforms.flatMap (fun p => taskOps (compileRequest b u p)))
      ∧ ((calls.map Call.op).filter Op.isShell).length
          = b.ProcessList.length * buildPlatformList.Platforms.length
      ∧ (∀ (u : CmdRecord) (p : PlatformItem), taskOps (compileRequest b u p)
          = [.MkdirAll (b.workingDir ++ [PlatformDirName, p.Os ++ "_" ++ p.Arch]) 0o744,
             .Shell u.Path (compileCommand (compileRequest b u p)),
             .Chmod (b.workingDir ++ [PlatformDirName, p.Os ++ "_" ++ p.Arch, u.GetBinaryname])
               0o755])
      ∧ (∀ c ∈ calls, c.op.isShell = true → c.ok = true)
      ∧ (BuildWrites os buildPlatformList b → ChmodAllowed os →
          (∀ c ∈ calls, c.op.isChmod = true → c.ok = true)
          ∧ ∀ u ∈ b.ProcessList, ∀ p ∈ buildPlatformList.Platforms, ∃ data,
              lookup (prepareCmdRecordBinary os buildPlatformList b w).2.fs
                (b.workingDir ++ [PlatformDirName, p.Os ++ "_" ++ p.Arch, u.GetBinaryname])
              = some (.file 0o755 data)) := by
  obtain ⟨h1, h2, _⟩ := compileRecords_run os buildPlatformList b hK b.ProcessList w
  have hrun : (prepareCmdRecordBinary os buildPlatformList b w).2
      = unitsRun os buildPlatformList b b.ProcessList w := h2 h
  obtain ⟨calls, hl, ho, hs, hc⟩ := unitsRun_marks os buildPlatformList b b.ProcessList
    (fun u hu => hu) w (h1.1 h)
  rw [hrun]
  refine ⟨calls, hl, ho, ?_, ?_, hs, ?_⟩
  · rw [ho]
    exact length_shell_flatMap b _ _
  · intro u p
    simp [taskOps, compileRequest, Join, PlatformItem.getPlatformDirectory]
  · intro hbw hca
    obtain ⟨c1, c2, _⟩ := hc hbw hca
    exact ⟨c1, c2⟩

theorem runTools_build (w : World) (wd : Path) (command : String) (target : Path)
    (h1 : startsWith command "cp -r * " = false) (h2 : (command == "whoami") = false)
    (h3 : buildOutput command = some target) (he : (runTools w wd command).err = none) :
    (∃ mode data, lookup (runTools w wd command).fs target = some (.file mode data))
      ∧ ∀ q m c, ¬ q <+: target → lookup w.fs q = some (.file m c) →
          lookup (runTools w wd command).fs q = some (.file m c) := by
  unfold runTools at he ⊢
  simp only [h1, h2, h3, Bool.false_eq_true, if_false] at he ⊢
  cases hw : writeNode w.fs target 0o775 [127, 69, 76, 70] with
  | error e => simp [hw] at he
  | ok fs' =>
    simp only
    obtain ⟨m, hm⟩ := writeNode_at _ _ target w.fs fs' hw
    exact ⟨⟨m, _, hm⟩, fun q m c hq hl => writeNode_frame _ _ target w.fs fs' hw q _ hq hl⟩

theorem BuildWrites_osTools : BuildWrites osTools platsTwo ctxTwo := by
  intro w u hu p hp he _
  have hrun : ∀ (wd : Path) (command : String), osTools.run w wd command
      = runTools w wd command := fun _ _ => rfl
  rw [hrun] at he ⊢
  simp only [ctxTwo, platsTwo, List.mem_cons, List.mem_singleton, List.not_mem_nil,
    or_false] at hu hp
  rcases hu with rfl | rfl <;> rcases hp with rfl | rfl
  · have hb := runTools_build w _ _ ["tmp", "proj123", "platform", "linux_amd64", "api"]
      (by decide) (by decide) (by decide) he
    exact ⟨hb.1, fun q m c _ hq hl => hb.2 q m c hq hl⟩
  · have hb := runTools_build w _ _ ["tmp", "proj123", "platform", "linux_arm64", "api"]
      (by decide) (by decide) (by decide) he
    exact ⟨hb.1, fun q m c _ hq hl => hb.2 q m c hq hl⟩
  · have hb := runTools_build w _ _ ["tmp", "proj123", "platform", "linux_amd64", "worker"]
      (by decide) (by decide) (by decide) he
    exact ⟨hb.1, fun q m c _ hq hl => hb.2 q m c hq hl⟩
  · have hb := runTools_build w _ _ ["tmp", "proj123", "platform", "linux_arm64", "worker"]
      (by decide) (by decide) (by decide) he
    exact ⟨hb.1, fun q m c _ hq hl => hb.2 q m c hq hl⟩

/-- Witness of C7: two commands and two platforms on a machine whose tools work; nothing
fails, four builds are run, and the four binaries are there with mode 0755. -/
theorem prepareCmdRecordBinary_tasks_witness :
    (prepareCmdRecordBinary osTools platsTwo ctxTwo { fs := fsCommands }).1 = none
      ∧ lookup (prepareCmdRecordBinary osTools platsTwo ctxTwo { fs := fsCommands }).2.fs
          ["tmp", "proj123", "platform", "linux_arm64", "worker"]
        = some (.file 0o755 [127, 69, 76, 70])
      ∧ ∃ calls, (prepareCmdRecordBinary osTools platsTwo ctxTwo { fs := fsCommands }).2.log
          = [] ++ calls
        ∧ ((calls.map Call.op).filter Op.isShell).length = 2 * 2
        ∧ (∀ c ∈ calls, c.op.isChmod = true → c.ok = true)
        ∧ ∀ u ∈ ctxTwo.ProcessList, ∀ p ∈ platsTwo.Platforms, ∃ data,
            lookup (prepareCmdRecordBinary osTools platsTwo ctxTwo { fs := fsCommands }).2.fs
              (ctxTwo.workingDir ++ [PlatformDirName, p.Os ++ "_" ++ p.Arch, u.GetBinaryname])
            = some (.file 0o755 data) := by
  obtain ⟨calls, hl, _, hn, _, _, hc⟩ := prepareCmdRecordBinary_tasks osTools platsTwo ctxTwo
    { fs := fsCommands } (by decide) (by decide)
  obtain ⟨hc1, hc2⟩ := hc BuildWrites_osTools (fun _ _ _ => rfl)
  exact ⟨by decide, rfl, calls, hl, hn, hc1, hc2⟩

/-! ## The process type -/

/-- The process type `prepareResource` leaves when it returns nil: user-interactive
exactly when `os.Stat` of `<workingDir>/<ExposeProcessName>.ui.xml` did not fail with a
not-exist error, whether or not it could tell that the file is there. -/
theorem prepareResource_procType (os : OS) (b : BuildContext) (w : World)
    (hb : b.procType = procTypeGeneral) (h : (prepareResource os b w).1 = none) :
    ∃ w1, loadResourceFiles os b (w.enter .resources) = (none, w1)
      ∧ ((prepareResource os b w).2.1.procType = procTypeUI
        ↔ ∀ err, (Stat os (w1.enter .classify)
              (Join b.workingDir (b.ExposeProcessName ++ ".ui.xml"))).1 = .error err →
            IsNotExist err = false) := by
  unfold prepareResource at h ⊢
  rcases hl : loadResourceFiles os b (w.enter .resources) with ⟨e, w1⟩
  rw [hl] at h
  cases e with
  | some e' => simp at h
  | none =>
    refine ⟨w1, rfl, ?_⟩
    simp only
    unfold CheckFileExist
    rcases hs : Stat os (w1.enter .classify)
      (Join b.workingDir (b.ExposeProcessName ++ ".ui.xml")) with ⟨r, w2⟩
    cases r with
    | ok isDir => simp
    | error err =>
      simp only
      cases hn : IsNotExist err with
      | true =>
        simp only [if_true, hb]
        constructor
        · intro hp
          exact absurd hp (by decide)
        · intro hall
          have := hall err rfl
          rw [hn] at this
          cases this
      | false =>
        simp only [Bool.false_eq_true, if_false]
        constructor
        · intro _ err' he
          simp only [Except.error.injEq] at he
          rw [← he]
          exact hn
        · intro _
          trivial

/-- C10 fails on the code: the context `NewBuildContext` makes has process type GENERAL,
no file `repo.ui.xml` is in the staging directory, `os.Stat` of it fails with `ELOOP`
(not a not-exist error), and `prepareResource` returns nil leaving the process type
USER_INTERACTIVE, where the claim says GENERAL: `CheckFileExist` returns nil for every
error of `os.Stat` other than not-exist. -/
theorem prepareResource_stat_error_classifies_interactive :
    (NewBuildContext osStatFault envRepo { fs := fsGit } 1 "repo" "").map (fun r => r.1)
        = some (.ok ctxRepo)
      ∧ ctxRepo.procType = procTypeGeneral
      ∧ lookup fsGit ["tmp", "repo1", "repo.ui.xml"] = none
      ∧ (prepareResource osStatFault { ctxRepo with workingDir := ["tmp", "repo1"] }
          { fs := fsGit }).1 = none
      ∧ (prepareResource osStatFault { ctxRepo with workingDir := ["tmp", "repo1"] }
          { fs := fsGit }).2.1.procType = procTypeUI
      ∧ lookup (prepareResource osStatFault { ctxRepo with workingDir := ["tmp", "repo1"] }
          { fs := fsGit }).2.2.fs ["tmp", "repo1", "repo.ui.xml"] = none := by
  refine ⟨rfl, rfl, rfl, rfl, rfl, rfl⟩

/-! ## The manifest -/

theorem determineProjectBaseDir_fields (env : Env) (fs : Node) (fuel : Nat)
    (ctx ctx1 : BuildContext) (err : Option Error)
    (h : determineProjectBaseDir env fs fuel ctx = some (ctx1, err)) :
    ctx1.procType = ctx.procType ∧ ctx1.ExposeProcessName = ctx.ExposeProcessName := by
  unfold determineProjectBaseDir at h
  split at h
  · cases h
  · simp only [Option.some.injEq, Prod.mk.injEq] at h
    rw [← h.1]
    exact ⟨rfl, rfl⟩
  · split at h
    · simp only [Option.some.injEq, Prod.mk.injEq] at h
      rw [← h.1]
      exact ⟨rfl, rfl⟩
    · split at h
      · simp only [Option.some.injEq, Prod.mk.injEq] at h
        rw [← h.1]
        exact ⟨rfl, rfl⟩
      · simp only [Option.some.injEq, Prod.mk.injEq] at h
        rw [← h.1]
        exact ⟨rfl, rfl⟩

theorem determineResourceDir_fields (os : OS) (w : World) (ctx : BuildContext) :
    (determineResourceDir os w ctx).1.procType = ctx.procType
      ∧ (determineResourceDir os w ctx).1.ExposeProcessName = ctx.ExposeProcessName := by
  unfold determineResourceDir
  simp only
  split <;> exact ⟨rfl, rfl⟩

theorem determineCmdList_fields (fs : Node) (ctx : BuildContext) :
    (determineCmdList fs ctx).procType = ctx.procType
      ∧ (determineCmdList fs ctx).ExposeProcessName = ctx.ExposeProcessName := by
  unfold determineCmdList
  split <;> exact ⟨rfl, rfl⟩

theorem NewBuildContext_fields (os : OS) (env : Env) (w : World) (fuel : Nat)
    (procName cgoLink : String) (ctx : BuildContext) (w1 : World)
    (h : NewBuildContext os env w fuel procName cgoLink = some (.ok ctx, w1)) :
    ctx.procType = procTypeGeneral ∧ ctx.ExposeProcessName = procName := by
  unfold NewBuildContext at h
  simp only at h
  split at h
  · cases h
  · simp at h
  · rename_i ctx1 hd
    obtain ⟨h1, h2⟩ := determineProjectBaseDir_fields _ _ _ _ _ _ hd
    simp only [Option.some.injEq, Prod.mk.injEq, Except.ok.injEq] at h
    obtain ⟨h3, h4⟩ := determineResourceDir_fields os w ctx1
    obtain ⟨h5, h6⟩ := determineCmdList_fields (determineResourceDir os w ctx1).2.fs
      (determineResourceDir os w ctx1).1
    rw [← h.1]
    exact ⟨h5.trans (h3.trans h1), h6.trans (h4.trans h2)⟩

theorem prepareResource_fields (os : OS) (b : BuildContext) (w : World) :
    ((prepareResource os b w).2.1.procType = b.procType
        ∨ (prepareResource os b w).2.1.procType = procTypeUI)
      ∧ (prepareResource os b w).2.1.ExposeProcessName = b.ExposeProcessName
      ∧ (prepareResource os b w).2.1.GitSupport = b.GitSupport := by
  unfold prepareResource
  split
  · exact ⟨Or.inl rfl, rfl, rfl⟩
  · simp only
    split
    · exact ⟨Or.inr rfl, rfl, rfl⟩
    · exact ⟨Or.inl rfl, rfl, rfl⟩

theorem createDeployment_writes (os : OS) (env : Env) (b : BuildContext) (w : World)
    (h : (createDeployment os env b w).1 = none) :
    ∃ dat, os.jsonMarshal
          (deploymentMap b (os.now w) (whoamiResult os env w) (gitResult os env b w)) = .ok dat
      ∧ ({ step := .manifest, op := .WriteFile (Join b.workingDir "deployment.json") dat 0o644,
            ok := true } : Call) ∈ (createDeployment os env b w).2.log := by
  unfold createDeployment at h ⊢
  simp only [whoamiResult, gitResult] at h ⊢
  obtain ⟨hs, hst⟩ := calls_ExecuteShell os (w.enter .manifest) env.cwd "whoami" (by decide)
  rcases hsh : ExecuteShell os (w.enter .manifest) env.cwd "whoami" with ⟨user, err, w1⟩
  rw [hsh] at h hst
  simp only at h hst ⊢
  cases hj : os.jsonMarshal (deploymentMap b (os.now w) (user, err)
      (if b.GitSupport = true then os.readGitInfo w1 b.ProjectBaseDir else {})) with
  | error e =>
    rw [hj] at h
    simp at h
  | ok dat =>
    rw [hj] at h
    simp only at h ⊢
    refine ⟨dat, rfl, ?_⟩
    have hstep : (if b.GitSupport = true then
        w1.did (.GitOpen b.ProjectBaseDir)
          (if b.GitSupport = true then os.readGitInfo w1 b.ProjectBaseDir else {}).Valid
        else w1).step = .manifest := by
      split
      · exact hst
      · exact hst
    generalize (if b.GitSupport = true then
        w1.did (.GitOpen b.ProjectBaseDir)
          (if b.GitSupport = true then os.readGitInfo w1 b.ProjectBaseDir else {}).Valid
        else w1) = w2 at h hstep ⊢
    unfold WriteFile change at h ⊢
    cases hf : os.fault w2 (.WriteFile (Join b.workingDir "deployment.json") dat 0o644) with
    | some errno =>
      rw [hf] at h
      simp at h
    | none =>
      rw [hf] at h
      simp only at h ⊢
      cases hw : writeNode w2.fs (Join b.workingDir "deployment.json") 0o644 dat with
      | error errno =>
        rw [hw] at h
        simp at h
      | ok fs' =>
        simp only
        simp [World.did, hstep]

theorem length_pos_iff_ne_empty (t : String) : t.length > 0 ↔ t ≠ "" := by
  constructor
  · intro h he
    rw [he] at h
    exact absurd h (by decide)
  · intro h
    rcases ht : t with ⟨data⟩
    cases data with
    | nil =>
      have : t = "" := ht
      exact absurd this h
    | cons c cs => simp [String.length]

theorem ToMap_keys (g : GitInfo) :
    g.ToMap.lookup "branch" = some (.str g.BranchName)
      ∧ g.ToMap.lookup "commit" = some (.str g.CommitHash)
      ∧ g.ToMap.lookup "message" = some (.str g.LastCommitMessage)
      ∧ ((g.ToMap.lookup "repo").isSome ↔ g.RepoUrl ≠ "")
      ∧ ∀ r, g.ToMap.lookup "repo" = some r → r = .str g.RepoUrl := by
  have hlen := length_pos_iff_ne_empty g.RepoUrl
  unfold GitInfo.ToMap
  by_cases hr : g.RepoUrl.length > 0
  · have hne := hlen.1 hr
    simp only [hr, if_true]
    refine ⟨rfl, rfl, rfl, ?_, ?_⟩
    · have h1 : List.lookup "repo" ([("repo", Json.str g.RepoUrl)]
          ++ [("branch", .str g.BranchName), ("commit", .str g.CommitHash),
            ("message", .str g.LastCommitMessage)]) = some (.str g.RepoUrl) := rfl
      rw [h1]
      simp [hne]
    · intro r h
      have h1 : List.lookup "repo" ([("repo", Json.str g.RepoUrl)]
          ++ [("branch", .str g.BranchName), ("commit", .str g.CommitHash),
            ("message", .str g.LastCommitMessage)]) = some (.str g.RepoUrl) := rfl
      rw [h1] at h
      cases h
      rfl
  · have hne : ¬ g.RepoUrl ≠ "" := fun h => hr (hlen.2 h)
    simp only [hr, if_false]
    have h1 : List.lookup "repo" ([] ++ [("branch", Json.str g.BranchName),
        ("commit", .str g.CommitHash), ("message", .str g.LastCommitMessage)]) = none := rfl
    refine ⟨rfl, rfl, rfl, ?_, ?_⟩
    · rw [h1]
      simp only [Option.isSome_none, Bool.false_eq_true, false_iff]
      exact hne
    · intro r h
      rw [h1] at h
      cases h

/-- C11: for a context made by `NewBuildContext`, as it is or after it has passed through
`prepareResource` with a staging directory, and for every time, every outcome of `whoami`
and every result of the source-control read, the map `createDeployment` marshals has the
key `process` with the process name, the key `process_type` with GENERAL or USER_INTERACTIVE, and a `build`
object with `time` and `user` (`unknown` when `whoami` failed); `build` has the key `git`
exactly when `GitSupport` holds and the read is `Valid`, and `git` is then `ToMap`, which
always has `branch`, `commit` and `message` and has `repo` exactly when the repository
URL is not empty. When `createDeployment` returns nil it has written the marshalled map
to `deployment.json` in the staging directory. -/
theorem createDeployment_manifest (os : OS) (env : Env) (w0 : World) (fuel : Nat)
    (procName cgoLink : String) (ctx : BuildContext) (w1 : World)
    (hnew : NewBuildContext os env w0 fuel procName cgoLink = some (.ok ctx, w1))
    (dir : Path) (w : World) (b : BuildContext)
    (hb : b = ctx ∨ b = (prepareResource os { ctx with workingDir := dir } w).2.1)
    (time : String) (whoami : String × Option Error) (gitInfo : GitInfo) :
    (deploymentMap b time whoami gitInfo).get? "process" = some (.str procName)
      ∧ ((deploymentMap b time whoami gitInfo).get? "process_type"
            = some (.str procTypeGeneral)
          ∨ (deploymentMap b time whoami gitInfo).get? "process_type" = some (.str procTypeUI))
      ∧ (∃ build, (deploymentMap b time whoami gitInfo).get? "build" = some (.obj build)
          ∧ build.lookup "time" = some (.str time)
          ∧ (∃ user, build.lookup "user" = some (.str user)
              ∧ (whoami.2.isSome = true → user = "unknown"))
          ∧ ((build.lookup "git").isSome ↔ (b.GitSupport = true ∧ gitInfo.Valid = true))
          ∧ ∀ git, build.lookup "git" = some git → git = .obj gitInfo.ToMap)
      ∧ (gitInfo.ToMap.lookup "branch" = some (.str gitInfo.BranchName)
          ∧ gitInfo.ToMap.lookup "commit" = some (.str gitInfo.CommitHash)
          ∧ gitInfo.ToMap.lookup "message" = some (.str gitInfo.LastCommitMessage)
          ∧ ((gitInfo.ToMap.lookup "repo").isSome ↔ gitInfo.RepoUrl ≠ "")
          ∧ ∀ r, gitInfo.ToMap.lookup "repo" = some r → r = .str gitInfo.RepoUrl)
      ∧ ∀ w2, (createDeployment os env b w2).1 = none →
          ∃ dat, os.jsonMarshal
                (deploymentMap b (os.now w2) (whoamiResult os env w2) (gitResult os env b w2))
                = .ok dat
            ∧ ({ step := .manifest,
                  op := .WriteFile (Join b.workingDir "deployment.json") dat 0o644,
                  ok := true } : Call) ∈ (createDeployment os env b w2).2.log := by
  obtain ⟨hg, hname⟩ := NewBuildContext_fields os env w0 fuel procName cgoLink ctx w1 hnew
  have hfields : b.ExposeProcessName = procName
      ∧ (b.procType = procTypeGeneral ∨ b.procType = procTypeUI) := by
    rcases hb with hb | hb
    · rw [hb]
      exact ⟨hname, Or.inl hg⟩
    · obtain ⟨hpt, hen, _⟩ := prepareResource_fields os { ctx with workingDir := dir } w
      rw [← hb] at hpt hen
      refine ⟨hen.trans hname, ?_⟩
      rcases hpt with h | h
      · exact Or.inl (h.trans hg)
      · exact Or.inr h
  obtain ⟨hname', htype⟩ := hfields
  refine ⟨?_, ?_, ?_, ToMap_keys gitInfo, fun w2 h => createDeployment_writes os env b w2 h⟩
  · simp only [deploymentMap, Json.get?]
    rw [← hname']
    rfl
  · have hpt2 : (deploymentMap b time whoami gitInfo).get? "process_type"
        = some (.str b.procType) := rfl
    rw [hpt2]
    rcases htype with h | h
    · exact Or.inl (by rw [h])
    · exact Or.inr (by rw [h])
  · refine ⟨_, rfl, rfl, ⟨_, rfl, ?_⟩, ?_, ?_⟩
    · intro hw
      simp only [hw, if_true]
      decide
    · cases hgs : (b.GitSupport && gitInfo.Valid) with
      | true =>
        have hl : List.lookup "git" ([("time", Json.str time),
            ("user", .str (String.mk (TrimSpace
              (if whoami.2.isSome = true then "unknown" else whoami.1).data)))]
            ++ [("git", .obj gitInfo.ToMap)]) = some (.obj gitInfo.ToMap) := rfl
        simp only [if_true]
        rw [hl]
        simpa using hgs
      | false =>
        have hl : List.lookup "git" ([("time", Json.str time),
            ("user", .str (String.mk (TrimSpace
              (if whoami.2.isSome = true then "unknown" else whoami.1).data)))]
            ++ []) = none := rfl
        simp only [Bool.false_eq_true, if_false]
        rw [hl]
        simpa using hgs
    · intro git hgit
      cases hgs : (b.GitSupport && gitInfo.Valid) with
      | true =>
        have hl : List.lookup "git" ([("time", Json.str time),
            ("user", .str (String.mk (TrimSpace
              (if whoami.2.isSome = true then "unknown" else whoami.1).data)))]
            ++ [("git", .obj gitInfo.ToMap)]) = some (.obj gitInfo.ToMap) := rfl
        simp only [hgs, if_true] at hgit
        rw [hl] at hgit
        cases hgit
        rfl
      | false =>
        have hl : List.lookup "git" ([("time", Json.str time),
            ("user", .str (String.mk (TrimSpace
              (if whoami.2.isSome = true then "unknown" else whoami.1).data)))]
            ++ []) = none := rfl
        simp only [hgs, Bool.false_eq_true, if_false] at hgit
        rw [hl] at hgit
        cases hgit

theorem createDeployment_manifest_witness :
    (NewBuildContext osQuiet envRepo { fs := fsGit } 1 "repo" "").map (fun r => r.1)
        = some (.ok ctxRepo)
      ∧ (deploymentMap
          (prepareResource osQuiet { ctxRepo with workingDir := ["tmp", "repo1"] }
            { fs := fsGit }).2.1
          "2024-01-01 00:00:00" ("", some (.errorf "no user"))
          { Valid := true, BranchName := "main", CommitHash := "abc", LastCommitMessage := "m" }
          ).get? "process" = some (.str "repo") :=
  ⟨rfl, (createDeployment_manifest osQuiet envRepo { fs := fsGit } 1 "repo" "" ctxRepo _ rfl
    ["tmp", "repo1"] { fs := fsGit } _ (Or.inr rfl) "2024-01-01 00:00:00"
    ("", some (.errorf "no user"))
    { Valid := true, BranchName := "main", CommitHash := "abc",
      LastCommitMessage := "m" }).1⟩

/-! ## The search above every repository -/

theorem FindGitConfig_no_return (env : Env) (fs : Node) (hgp : env.GOPATH ≠ "") :
    ∀ (fuel : Nat) (dir : Path),
      (∀ r, r <+: dir → (∃ es, lookup fs r = some (.dir es)) ∧ ¬ isVcsRoot fs r
        ∧ ¬ isGopathSrc env r) →
      FindGitConfig env fs fuel dir = none := by
  have hlen : (env.GOPATH.length == 0) = false := by
    cases hg : env.GOPATH with
    | mk data =>
      cases data with
      | nil => exact absurd hg hgp
      | cons c cs => simp [String.length]
  intro fuel
  induction fuel with
  | zero =>
    intro dir _
    rfl
  | succ fuel ih =>
    intro dir h
    obtain ⟨⟨es, hes⟩, hvcs, hsrc⟩ := h dir (List.prefix_refl _)
    have h1 : (buildGopathMap env).any
        (fun gopath => joinGopathSrc gopath == some dir) = false := by
      rw [Bool.eq_false_iff, Ne, gopathCheck_iff]
      exact hsrc
    have h2 : (listing es).any (fun file => file.Name == gitDirname && (file.IsDir
        && EnsureFileInDirectory fs (Join dir file.Name) gitConfigfile)) = false := by
      rw [Bool.eq_false_iff, Ne, gitCheck_iff fs _ es hes]
      exact hvcs
    have hrec := ih (Dir dir) (fun r hr => h r (hr.trans (List.dropLast_prefix dir)))
    simp only [FindGitConfig, hlen, h1, ReadDir, hes, h2, hrec]
    simp

/-- C14 fails on the code: with `GOPATH=/home/u/go` and the starting directory
`/home/u/go` of `fsGit` (a directory that is not at or below the `src` directory of the
source root, and that has no version-control root at or above it) the search climbs to
the root `/`, whose parent `filepath.Dir` gives is `/` again, and calls itself on it
without end: no amount of fuel makes `FindGitConfig` return. -/
theorem FindGitConfig_root_recursion_unbounded :
    (⟨"/home/u/go", ["home", "u", "go"]⟩ : Env).GOPATH ≠ ""
      ∧ Dir [] = ([] : Path)
      ∧ (∀ r, r <+: ["home", "u", "go"] →
          (∃ es, lookup fsGit r = some (.dir es)) ∧ ¬ isVcsRoot fsGit r
            ∧ ¬ isGopathSrc ⟨"/home/u/go", ["home", "u", "go"]⟩ r)
      ∧ ∀ fuel, FindGitConfig ⟨"/home/u/go", ["home", "u", "go"]⟩ fsGit fuel
          ["home", "u", "go"] = none := by
  have hpre : ∀ r : Path, r <+: ["home", "u", "go"] →
      r = [] ∨ r = ["home"] ∨ r = ["home", "u"] ∨ r = ["home", "u", "go"] := by
    intro r hr
    have := (List.mem_inits r ["home", "u", "go"]).2 hr
    simpa [List.inits] using this
  have hm : buildGopathMap ⟨"/home/u/go", ["home", "u", "go"]⟩ = ["/home/u/go"] := by decide
  have hj : joinGopathSrc "/home/u/go" = some ["home", "u", "go", "src"] := by decide
  have hall : ∀ r, r <+: ["home", "u", "go"] →
      (∃ es, lookup fsGit r = some (.dir es)) ∧ ¬ isVcsRoot fsGit r
        ∧ ¬ isGopathSrc ⟨"/home/u/go", ["home", "u", "go"]⟩ r := by
    intro r hr
    refine ⟨?_, ?_, ?_⟩
    · rcases hpre r hr with h | h | h | h <;> subst h <;> exact ⟨_, rfl⟩
    · rintro ⟨m, c, hl⟩
      rcases hpre r hr with h | h | h | h <;> subst h <;> cases hl
    · intro hs
      rw [← gopathCheck_iff, hm] at hs
      simp only [List.any_cons, hj, List.any_nil, Bool.or_false, beq_iff_eq,
        Option.some.injEq] at hs
      rcases hpre r hr with h | h | h | h <;> subst h <;> cases hs
  exact ⟨by decide, rfl, hall,
    fun fuel => FindGitConfig_no_return _ fsGit (by decide) fuel _ hall⟩

/-! ## The archive -/

theorem intercalate_go_data (s : String) : ∀ (as : List String) (acc : String),
    (String.intercalate.go acc s as).data
      = acc.data ++ (as.map (fun a => s.data ++ a.data)).flatten := by
  intro as
  induction as with
  | nil => intro acc; simp [String.intercalate.go]
  | cons a as ih =>
    intro acc
    simp [String.intercalate.go, ih, String.data_append, List.append_assoc]

theorem intercalate_append_data (s : String) (base rel : List String) (hb : base ≠ [])
    (hr : rel ≠ []) :
    (s.intercalate (base ++ rel)).data
      = (s.intercalate base).data ++ (s.data ++ (s.intercalate rel).data) := by
  cases base with
  | nil => exact absurd rfl hb
  | cons b bs =>
    cases rel with
    | nil => exact absurd rfl hr
    | cons r rs =>
      simp [String.intercalate, intercalate_go_data, List.append_assoc]

theorem zipEntryName_eq (baseDir rel : Path) (isDir : Bool) (hb : baseDir ≠ []) :
    zipEntryName baseDir { Path := baseDir ++ rel, IsDir := isDir } = archiveName rel isDir := by
  by_cases hr : rel = []
  · subst hr
    simp [zipEntryName, archiveName]
  · have hd := intercalate_append_data "/" baseDir rel hb hr
    have hlen : (renderPath (baseDir ++ rel)).length
        = (renderPath baseDir).length + 1 + ("/".intercalate rel).length := by
      simp only [renderPath, String.length, String.data_append, hd, List.length_append]
      have h1 : ("/" : String).data.length = 1 := by decide
      simp only [List.length_append] at h1 ⊢
      omega
    have hdrop : (renderPath (baseDir ++ rel)).data.drop ((renderPath baseDir).length + 1)
        = ("/".intercalate rel).data := by
      have h1 : (renderPath (baseDir ++ rel)).data
          = ((renderPath baseDir).data ++ ['/']) ++ ("/".intercalate rel).data := by
        simp only [renderPath, String.data_append, hd, List.append_assoc]
      have h2 : (renderPath baseDir).length + 1 = ((renderPath baseDir).data ++ ['/']).length := by
        simp only [List.length_append, List.length_singleton]
        rfl
      rw [h1, h2, List.drop_left]
    have h3 : ((renderPath baseDir).length == (renderPath (baseDir ++ rel)).length) = false := by
      rw [hlen, beq_eq_false_iff_ne]
      omega
    have h4 : (renderPath baseDir).length < (renderPath (baseDir ++ rel)).length := by
      rw [hlen]
      omega
    simp only [zipEntryName, h3, h4, hdrop, archiveName, hr]
    cases isDir <;> simp

theorem walk_fresh (path : Path) (name : String) (rel : Path) :
    path ≠ path ++ name :: rel := by
  intro h
  have := congrArg List.length h
  simp at this

mutual
theorem walkNode_spec :
    ∀ (n : Node) (path : Path), n.WF →
      ((walkNode path n).map (fun f => f.Path)).Nodup
        ∧ ∀ f, f ∈ walkNode path n ↔
            ∃ rel x, lookup n rel = some x ∧ f = { Path := path ++ rel, IsDir := x.isDir }
  | .file m c, path, _ => by
    simp only [walkNode]
    refine ⟨by simp, fun f => ?_⟩
    constructor
    · intro hf
      rw [List.mem_singleton] at hf
      exact ⟨[], .file m c, rfl, by simp [hf, Node.isDir]⟩
    · rintro ⟨rel, x, hl, rfl⟩
      cases rel with
      | nil =>
        simp only [lookup, List.foldl_nil, Option.some.injEq] at hl
        subst hl
        simp [Node.isDir]
      | cons a r => simp [lookup_file_cons] at hl
  | .dir es, path, hwf => by
    simp only [Node.WF] at hwf
    obtain ⟨h1, h2⟩ := walkList_spec es path hwf.1 hwf.2
    simp only [walkNode]
    refine ⟨?_, fun f => ?_⟩
    · rw [List.map_cons, List.nodup_cons]
      refine ⟨?_, h1⟩
      intro hmem
      obtain ⟨f, hf, hp⟩ := List.mem_map.1 hmem
      obtain ⟨name, c, rel, x, _, _, rfl⟩ := (h2 f).1 hf
      exact walk_fresh path name rel hp.symm
    · rw [List.mem_cons, h2]
      constructor
      · rintro (rfl | ⟨name, c, rel, x, hm, hl, rfl⟩)
        · exact ⟨[], .dir es, rfl, by simp [Node.isDir]⟩
        · refine ⟨name :: rel, x, ?_, rfl⟩
          rw [lookup_cons]
          simp [Node.child, lookup_of_mem_nodup es name c hwf.1 hm, hl]
      · rintro ⟨rel, x, hl, rfl⟩
        cases rel with
        | nil =>
          simp only [lookup, List.foldl_nil, Option.some.injEq] at hl
          subst hl
          left
          simp [Node.isDir]
        | cons name rel =>
          right
          rw [lookup_cons] at hl
          simp only [Node.child] at hl
          cases hc : es.lookup name with
          | none => simp [hc] at hl
          | some c =>
            simp only [hc, Option.some_bind] at hl
            exact ⟨name, c, rel, x, mem_of_lookup es name c hc, hl, rfl⟩
theorem walkList_spec :
    ∀ (l : List (String × Node)) (path : Path), (l.map Prod.fst).Nodup → Node.WFList l →
      ((walkList path l).map (fun f => f.Path)).Nodup
        ∧ ∀ f, f ∈ walkList path l ↔
            ∃ name c rel x, (name, c) ∈ l ∧ lookup c rel = some x
              ∧ f = { Path := path ++ name :: rel, IsDir := x.isDir }
  | [], path, _, _ => by simp [walkList]
  | (name, n) :: rest, path, hnd, hwf => by
    simp only [List.map_cons, List.nodup_cons] at hnd
    simp only [Node.WFList] at hwf
    obtain ⟨r1, r2⟩ := walkList_spec rest path hnd.2 hwf.2
    obtain ⟨n1, n2⟩ := walkNode_spec n (Join path name) hwf.1
    simp only [walkList]
    refine ⟨?_, fun f => ?_⟩
    · rw [List.map_append, List.nodup_append]
      refine ⟨n1, r1, ?_⟩
      intro p hp1 hp2
      obtain ⟨f1, hf1, rfl⟩ := List.mem_map.1 hp1
      obtain ⟨f2, hf2, heq⟩ := List.mem_map.1 hp2
      obtain ⟨rel, x, _, rfl⟩ := (n2 f1).1 hf1
      obtain ⟨name', c', rel', x', hm, _, rfl⟩ := (r2 f2).1 hf2
      simp only [Join, List.append_assoc, List.singleton_append] at heq
      have := List.append_cancel_left heq
      simp only [List.cons.injEq] at this
      apply hnd.1
      rw [← this.1]
      exact List.mem_map_of_mem Prod.fst hm
    · rw [List.mem_append, n2, r2]
      constructor
      · rintro (⟨rel, x, hl, rfl⟩ | ⟨name', c', rel, x, hm, hl, rfl⟩)
        · exact ⟨name, n, rel, x, List.mem_cons_self _ _, hl, by simp [Join]⟩
        · exact ⟨name', c', rel, x, List.mem_cons_of_mem _ hm, hl, rfl⟩
      · rintro ⟨name', c', rel, x, hm, hl, rfl⟩
        rcases List.mem_cons.1 hm with h | h
        · cases h
          exact Or.inl ⟨rel, x, hl, by simp [Join]⟩
        · exact Or.inr ⟨name', c', rel, x, h, hl, rfl⟩
end

theorem Open_ok (os : OS) (w : World) (path : Path) (n : Node) (w1 : World)
    (h : Open os w path = (.ok n, w1)) : lookup w.fs path = some n ∧ w1.fs = w.fs := by
  unfold Open at h
  cases hf : os.fault w (.Open path) with
  | some errno => simp [hf] at h
  | none =>
    simp only [hf] at h
    cases hl : lookup w.fs path with
    | none => simp [hl] at h
    | some x =>
      simp only [hl, Prod.mk.injEq, Except.ok.injEq] at h
      obtain ⟨h1, h2⟩ := h
      subst h1 h2
      exact ⟨rfl, rfl⟩

theorem copyIntoZip_entry (os : OS) (w : World) (archive : Path) (path : String) (f : fileMeta)
    (entry : Option ZipEntry) (w1 : World)
    (h : copyIntoZip os w archive path f = (none, entry, w1)) :
    w1.fs = w.fs ∧ ∃ e, entry = some e ∧ e.Name = path ∧ e.IsDir = f.IsDir
      ∧ (f.IsDir = false → ∃ m, lookup w.fs f.Path = some (.file m e.Data)) := by
  unfold copyIntoZip at h
  simp only at h
  cases hf : os.fault w (.ZipHeader archive path (zipEntryMode path)) with
  | some errno => simp [hf] at h
  | none =>
    simp only [hf] at h
    cases hd : f.IsDir with
    | true =>
      simp only [hd, if_true, Prod.mk.injEq, true_and] at h
      obtain ⟨h1, h2⟩ := h
      subst h1 h2
      exact ⟨rfl, _, rfl, rfl, rfl, fun hf => by simp at hf⟩
    | false =>
      simp only [hd, Bool.false_eq_true, if_false] at h
      rcases ho : Open os (w.did (.ZipHeader archive path (zipEntryMode path)) true) f.Path
        with ⟨r, w2⟩
      rw [ho] at h
      cases r with
      | error err => simp at h
      | ok file =>
        obtain ⟨hl, hfs⟩ := Open_ok os _ f.Path file w2 ho
        simp only at h
        cases hz : os.fault w2 (.ZipCopy archive f.Path) with
        | some errno => simp [hz] at h
        | none =>
          simp only [hz] at h
          cases file with
          | dir es => simp at h
          | file m data =>
            simp only [Prod.mk.injEq, true_and] at h
            obtain ⟨h1, h2⟩ := h
            subst h1 h2
            exact ⟨hfs, _, rfl, rfl, rfl, fun _ => ⟨m, hl⟩⟩

theorem zipLoop_entries (os : OS) (archive baseDir : Path) :
    ∀ (files : List fileMeta) (w : World) (entries : List ZipEntry) (w2 : World),
      zipLoop os archive baseDir files w = (none, entries, w2) →
      w2.fs = w.fs ∧ List.Forall₂ (fun f e => e.Name = zipEntryName baseDir f
        ∧ e.IsDir = f.IsDir
        ∧ (f.IsDir = false → ∃ m, lookup w.fs f.Path = some (.file m e.Data))) files entries := by
  intro files
  induction files with
  | nil =>
    intro w entries w2 h
    simp only [zipLoop, Prod.mk.injEq, true_and] at h
    obtain ⟨h1, h2⟩ := h
    subst h1 h2
    exact ⟨rfl, List.Forall₂.nil⟩
  | cons f rest ih =>
    intro w entries w2 h
    simp only [zipLoop] at h
    rcases hc : copyIntoZip os w archive (zipEntryName baseDir f) f with ⟨err, entry, w1⟩
    rw [hc] at h
    cases err with
    | some e => simp at h
    | none =>
      obtain ⟨hfs, e, he, hname, hdir, hdata⟩ := copyIntoZip_entry os w archive _ f entry w1 hc
      rcases hz : zipLoop os archive baseDir rest w1 with ⟨err2, entries2, w3⟩
      simp only [hz, Prod.mk.injEq] at h
      obtain ⟨h1, h2, h3⟩ := h
      subst h1 h2 h3
      obtain ⟨hfs2, hall⟩ := ih w1 entries2 w3 hz
      rw [hfs] at hfs2 hall
      subst he
      exact ⟨hfs2, List.Forall₂.cons ⟨hname, hdir, hdata⟩ hall⟩

theorem forall₂_map_of_mem (R : fileMeta → ZipEntry → Prop) (S : Path × Node → ZipEntry → Prop)
    (g : fileMeta → Path × Node) :
    ∀ (files : List fileMeta) (entries : List ZipEntry), List.Forall₂ R files entries →
      (∀ f ∈ files, ∀ e, R f e → S (g f) e) → List.Forall₂ S (files.map g) entries := by
  intro files entries h
  induction h with
  | nil => intro _; exact List.Forall₂.nil
  | cons hr _ ih =>
    intro hall
    exact List.Forall₂.cons (hall _ (List.mem_cons_self _ _) _ hr)
      (ih (fun f hf e he => hall f (List.mem_cons_of_mem _ hf) e he))

/-- C12, amended: when the staging directory `baseDir` is not the root of the file system,
names are distinct inside every directory, the archive file is not at or under `baseDir`,
and `ZipArtifact` returns nil, then the entries it wrote are, one for one and in order,
the objects of a list that holds every object at or under `baseDir` exactly once (the
directory `baseDir` itself included); the entry of the object at the path `rel` from
`baseDir` is named by the separator followed by `rel` (nothing for `baseDir` itself) and
a closing separator exactly for a directory, is marked a directory exactly when the
object is one, and for a regular file holds the bytes the file had. -/
theorem ZipArtifact_entries (os : OS) (w : World) (baseDir artifactFile : Path) (n : Node)
    (entries : List ZipEntry) (w' : World)
    (hbase : baseDir ≠ []) (hwf : w.fs.WF) (hn : lookup w.fs baseDir = some n)
    (hout : ¬ baseDir <+: artifactFile)
    (hret : ZipArtifact os w baseDir artifactFile = (.nil, entries, w')) :
    ∃ objs : List (Path × Node),
      (objs.map Prod.fst).Nodup
        ∧ (∀ rel x, (rel, x) ∈ objs ↔ lookup w.fs (baseDir ++ rel) = some x)
        ∧ List.Forall₂ (fun o e => e.Name = archiveName o.1 o.2.isDir
            ∧ e.IsDir = o.2.isDir ∧ ∀ m c, o.2 = .file m c → e.Data = c) objs entries := by
  obtain ⟨hnd, hmem⟩ := walkNode_spec n baseDir (WF_lookup _ _ _ hwf hn)
  have hrel : ∀ rel, lookup w.fs (baseDir ++ rel) = lookup n rel := by
    intro rel
    rw [lookup_append_bind, hn]
    rfl
  simp only [ZipArtifact, hn] at hret
  rcases hc : Create os w artifactFile with ⟨cerr, w1⟩
  rw [hc] at hret
  cases cerr with
  | some e => simp at hret
  | none =>
    simp only at hret
    rcases hz : zipLoop os artifactFile baseDir (walkNode baseDir n) w1 with ⟨zerr, zentries, w2⟩
    rw [hz] at hret
    cases zerr with
    | some e => simp at hret
    | none =>
      simp only [Prod.mk.injEq, true_and] at hret
      obtain ⟨hent, _⟩ := hret
      subst hent
      obtain ⟨_, hall⟩ := zipLoop_entries os artifactFile baseDir _ w1 zentries w2 hz
      have hframe : ∀ p x, baseDir <+: p → lookup w.fs p = some x → lookup w1.fs p = some x := by
        intro p x hp hl
        unfold Create change at hc
        split at hc
        · simp at hc
        · split at hc
          · simp at hc
          · rename_i fs1 hw
            simp only [Prod.mk.injEq, true_and] at hc
            subst hc
            exact writeNode_frame _ _ artifactFile w.fs fs1 hw p x
              (fun hpa => hout (hp.trans hpa)) hl
      refine ⟨(walkNode baseDir n).map
        (fun f => (f.Path.drop baseDir.length, (lookup w.fs f.Path).getD (.dir []))),
        ?_, ?_, ?_⟩
      · rw [List.map_map]
        have hinj : ∀ f1 ∈ walkNode baseDir n, ∀ f2 ∈ walkNode baseDir n,
            f1.Path.drop baseDir.length = f2.Path.drop baseDir.length → f1.Path = f2.Path := by
          intro f1 h1 f2 h2 heq
          obtain ⟨r1, x1, _, rfl⟩ := (hmem f1).1 h1
          obtain ⟨r2, x2, _, rfl⟩ := (hmem f2).1 h2
          simp only [List.drop_left] at heq
          rw [heq]
        have hfm : (List.map (Prod.fst ∘ fun f : fileMeta =>
              (f.Path.drop baseDir.length, (lookup w.fs f.Path).getD (.dir [])))
              (walkNode baseDir n))
            = ((walkNode baseDir n).map (fun f => f.Path)).map
                (fun p => p.drop baseDir.length) := by
          rw [List.map_map]
          rfl
        rw [hfm]
        refine List.Nodup.map_on ?_ hnd
        intro p1 hp1 p2 hp2 heq
        obtain ⟨f1, hf1, rfl⟩ := List.mem_map.1 hp1
        obtain ⟨f2, hf2, rfl⟩ := List.mem_map.1 hp2
        exact hinj f1 hf1 f2 hf2 heq
      · intro rel x
        rw [List.mem_map, hrel]
        constructor
        · rintro ⟨f, hf, heq⟩
          obtain ⟨r, y, hl, rfl⟩ := (hmem f).1 hf
          simp only [List.drop_left, hrel, hl, Option.getD_some, Prod.mk.injEq] at heq
          rw [← heq.1, ← heq.2]
          exact hl
        · intro hl
          refine ⟨_, (hmem _).2 ⟨rel, x, hl, rfl⟩, ?_⟩
          simp [hrel, hl]
      · refine forall₂_map_of_mem _ _ _ _ _ hall ?_
        intro f hf e hR
        obtain ⟨r, y, hl, rfl⟩ := (hmem f).1 hf
        obtain ⟨hname, hdir, hdata⟩ := hR
        have hly : lookup w.fs (baseDir ++ r) = some y := by rw [hrel]; exact hl
        simp only [List.drop_left, hly, Option.getD_some]
        refine ⟨?_, hdir, ?_⟩
        · rw [hname]
          exact zipEntryName_eq baseDir r y.isDir hbase
        · intro m c hy
          subst hy
          obtain ⟨m', hl'⟩ := hdata rfl
          have := hframe _ _ (List.prefix_append _ _) hly
          simp only at hl'
          rw [this] at hl'
          simp only [Option.some.injEq, Node.file.injEq] at hl'
          exact hl'.2.symm

/-- Witness of the amended C12: the archive of the staging directory `/tmp/stage` of
`fsStaged`, written to `/out/app.far`. -/
theorem ZipArtifact_entries_witness :
    (ZipArtifact osQuiet { fs := fsStaged } ["tmp", "stage"] ["out", "app.far"]).1 = .nil
      ∧ ∃ objs : List (Path × Node),
        (objs.map Prod.fst).Nodup
          ∧ (∀ rel x, (rel, x) ∈ objs ↔ lookup fsStaged (["tmp", "stage"] ++ rel) = some x)
          ∧ List.Forall₂ (fun o e => e.Name = archiveName o.1 o.2.isDir
              ∧ e.IsDir = o.2.isDir ∧ ∀ m c, o.2 = .file m c → e.Data = c) objs
            (ZipArtifact osQuiet { fs := fsStaged } ["tmp", "stage"] ["out", "app.far"]).2.1 :=
  ⟨rfl, ZipArtifact_entries osQuiet { fs := fsStaged } ["tmp", "stage"] ["out", "app.far"] _ _ _
    (by decide) (by simp [fsStaged, Node.WF, Node.WFList]) rfl (by decide) rfl⟩

/-- C12 as stated fails: in the archive of the staging directory `/tmp/stage` of `fsStaged`
the file `app.xml` has the entry `/app.xml`, and no entry is named by its path relative
to the staging directory, `app.xml`; the first entry, `/`, is of the staging directory
itself, which is no file or directory under it. -/
theorem ZipArtifact_relative_name_fails :
    (ZipArtifact osQuiet { fs := fsStaged } ["tmp", "stage"] ["out", "app.far"]).1 = .nil
      ∧ (ZipArtifact osQuiet { fs := fsStaged } ["tmp", "stage"] ["out", "app.far"]).2.1.map
          (fun e => e.Name)
        = ["/", "/app.xml", "/platform/", "/platform/linux_amd64/",
            "/platform/linux_amd64/app", "/platform.xml"]
      ∧ lookup fsStaged (["tmp", "stage"] ++ ["app.xml"]) = some (.file 420 [60, 97, 47, 62])
      ∧ specEntryName ["app.xml"] false = "app.xml"
      ∧ ¬ (∀ (os : OS) (w : World) (baseDir artifactFile : Path) (entries : List ZipEntry)
            (w' : World), ZipArtifact os w baseDir artifactFile = (.nil, entries, w') →
            ∀ rel x, rel ≠ [] → lookup w.fs (baseDir ++ rel) = some x →
              ∃ e ∈ entries, e.Name = specEntryName rel x.isDir) := by
  refine ⟨rfl, by decide, rfl, by decide, fun h => ?_⟩
  obtain ⟨e, he, hname⟩ := h osQuiet { fs := fsStaged } ["tmp", "stage"] ["out", "app.far"] _ _
    rfl ["app.xml"] _ (by decide) rfl
  have hnames : e.Name ∈ ["/", "/app.xml", "/platform/", "/platform/linux_amd64/",
      "/platform/linux_amd64/app", "/platform.xml"] := by
    have h1 : (ZipArtifact osQuiet { fs := fsStaged } ["tmp", "stage"]
        ["out", "app.far"]).2.1.map (fun e => e.Name)
        = ["/", "/app.xml", "/platform/", "/platform/linux_amd64/",
          "/platform/linux_amd64/app", "/platform.xml"] := by decide
    rw [← h1]
    exact List.mem_map_of_mem _ he
  rw [hname] at hnames
  revert hnames
  decide

/-! ## The mode of an archive entry -/

theorem zipEntryMode_below_platform (rest : Path) (isDir : Bool) :
    zipEntryMode (archiveName (PlatformDirName :: rest) isDir) = some 0o755 := by
  have h : startsWith (archiveName (PlatformDirName :: rest) isDir) ("/" ++ PlatformDirName)
      = true := by
    simp only [startsWith, List.isPrefixOf_iff_prefix]
    refine ⟨(rest.map (fun a => "/".data ++ a.data)).flatten
      ++ (if isDir then "/" else "").data, ?_⟩
    simp [archiveName, String.intercalate, intercalate_go_data, String.data_append,
      List.append_assoc]
  simp [zipEntryMode, h]

/-- C13 fails on the code: an entry at or below `platform` does get mode 0755, but so does
the entry of the resource file `platform.xml` of the staging directory `/tmp/stage` of
`fsStaged`, which is a regular file beside the directory `platform` and not below it:
`copyIntoZip` tests whether the entry name begins with the text `/platform`, with no
separator after it. The entry of `app.xml` has no mode set. -/
theorem copyIntoZip_marks_resource_beside_platform :
    (∀ (rest : Path) (isDir : Bool),
        zipEntryMode (archiveName (PlatformDirName :: rest) isDir) = some 0o755)
      ∧ lookup fsStaged ["tmp", "stage", "platform.xml"] = some (.file 420 [60, 112, 47, 62])
      ∧ ¬ [PlatformDirName] <+: ["platform.xml"]
      ∧ zipEntryName ["tmp", "stage"] { Path := ["tmp", "stage", "platform.xml"], IsDir := false }
          = "/platform.xml"
      ∧ zipEntryMode "/platform.xml" = some 0o755
      ∧ (ZipArtifact osQuiet { fs := fsStaged } ["tmp", "stage"] ["out", "app.far"]).1 = .nil
      ∧ (ZipArtifact osQuiet { fs := fsStaged } ["tmp", "stage"] ["out", "app.far"]).2.1.map
          (fun e => (e.Name, e.Mode))
        = [("/", none), ("/app.xml", none), ("/platform/", some 0o755),
            ("/platform/linux_amd64/", some 0o755), ("/platform/linux_amd64/app", some 0o755),
            ("/platform.xml", some 0o755)] :=
  ⟨zipEntryMode_below_platform, rfl, by decide, by decide, by decide, rfl, by decide⟩

end Gofar
